import Mathlib

/-!
Link refresher (`src/linkgraph/refresh.cpp`)

A shallow embedding of `LinkRefresher`: the hop order, the capacity tracker
(`LinkRefresher::LinkRefresher`, `HandleRefit`, `ResetRefit`), the statistics
update (`RefreshStats`) and the order walker (`PredictNextOrder`,
`RefreshLinks`, `Run`).

Conventions.
* Identifiers (`CargoID`, `OrderID`, `StationID`, `LinkGraphID`) are natural
  numbers, written `Nat`.
* `uint` arithmetic on the values of the capacities map wraps modulo `2 ^ 32`.
* The fields of `RefitDesc` and `Hop` are declared in `refresh.h`, which is not
  among the sources; they are kept as naturals and hold the values written to
  them as given.
* A pointer that may be `NULL` is an `Option`.
* Two loops of the walker call each other; both take a step budget, and an
  exhausted budget is reported as `Outcome.timeout`.
-/

namespace LinkRefresher


/-- Modelled from the spec: `CT_INVALID` is declared in `cargo_type.h`, not
among the sources. It is the cargo of a refresher before any refit order was
seen, a fixed value taken to be `0xFF`. -/
def CT_INVALID : Nat := 0xFF

/-- Modelled from the spec: `INVALID_STATION` is declared in `station_type.h`,
not among the sources. It is the station id that stands for "no station", a
fixed value taken to be `0xFFFF`. -/
def INVALID_STATION : Nat := 0xFFFF

/-- Modelled from the spec: `OLFB_NO_LOAD` is declared in `order_type.h`, not
among the sources. It is the load-type flag "no load here", a single bit taken
to be the one of value 4. -/
def OLFB_NO_LOAD : Nat := 4

/-- Reduction of an integer to the range of `uint`. -/
def wrapUint (i : Int) : Nat := (i % 4294967296).toNat

/-! ## Hops -/

/-- A hop: origin order index, destination order index, cargo. -/
structure Hop where
  from_ : Nat
  to_ : Nat
  cargo : Nat
  deriving DecidableEq, Repr

/-- `Hop::operator<`, branch by branch. -/
def Hop.lt (a other : Hop) : Bool :=
  if a.from_ < other.from_ then true
  else if a.from_ > other.from_ then false
  else if a.to_ < other.to_ then true
  else if a.to_ > other.to_ then false
  else decide (a.cargo < other.cargo)

/-- Membership test of `std::set<Hop>::find`: an element is found when neither
it nor the key is smaller than the other. -/
def HopSet.find (s : List Hop) (hop : Hop) : Bool :=
  s.any (fun e => !(e.lt hop) && !(hop.lt e))

/-! ## The capacities map -/

/-- A `std::map<CargoID, uint>`: entries in ascending key order. -/
abbrev CapacitiesMap := List (Nat × Nat)

/-- Value stored for a cargo, `0` when the map has no entry for it. -/
def CapacitiesMap.get : CapacitiesMap → Nat → Nat
  | [], _ => 0
  | (k, v) :: m, c => if c = k then v else CapacitiesMap.get m c

/-- Whether the map has an entry for the cargo. -/
def CapacitiesMap.contains (m : CapacitiesMap) (c : Nat) : Bool :=
  m.any (fun e => e.1 == c)

/-- Replace the value of the entry for `c` by `f` of it. -/
def CapacitiesMap.update : CapacitiesMap → Nat → (Nat → Nat) → CapacitiesMap
  | [], _, _ => []
  | (k, v) :: m, c, f =>
    if c = k then (k, f v) :: m else (k, v) :: CapacitiesMap.update m c f

/-- Add an entry for a cargo at its place in the key order. -/
def CapacitiesMap.insert : CapacitiesMap → Nat → Nat → CapacitiesMap
  | [], c, x => [(c, x)]
  | (k, v) :: m, c, x =>
    if c < k then (c, x) :: (k, v) :: m else (k, v) :: CapacitiesMap.insert m c x

/-- Update through `operator[]`: the entry is created with value `0` when it is
absent, then replaced by `f` of its value. -/
def CapacitiesMap.modify (m : CapacitiesMap) (c : Nat) (f : Nat → Nat) : CapacitiesMap :=
  if m.contains c then m.update c f else m.insert c (f 0)

/-! ## Consist and tracker -/

/-- The vehicle kinds (`vehicle_type.h` is not among the sources); the
refresher only tests for `VEH_AIRCRAFT`. -/
inductive VehicleType where
  | VEH_TRAIN | VEH_ROAD | VEH_SHIP | VEH_AIRCRAFT
  deriving DecidableEq, Repr

/-- One unit of a consist, with what the refresher reads from it:
`refit_mask` is `Engine::Get(engine_type)->info.refit_mask`, and
`DetermineCapacity c` is the pair (returned amount, `mail_capacity`) that
`Engine::DetermineCapacity` yields when the unit temporarily holds cargo `c`. -/
structure VehicleUnit where
  type : VehicleType
  cargo_type : Nat
  cargo_cap : Nat
  refit_cap : Nat
  refit_mask : Nat
  DetermineCapacity : Nat → Nat × Nat

/-- Modelled from the spec: `HasBit` is defined in `bitmath_func.hpp`, not among
the sources. `HasBit(x, y)` tells whether bit `y` of `x` is set. -/
def HasBit (x y : Nat) : Bool := Nat.testBit x y

/-- A tracked unit (`RefitDesc`). -/
structure RefitDesc where
  cargo : Nat
  capacity : Nat
  remaining : Nat
  deriving DecidableEq, Repr

/-- The per-refresher state that a forked branch copies. -/
structure Tracker where
  capacities : CapacitiesMap
  refit_capacities : List RefitDesc
  cargo : Nat
  deriving DecidableEq, Repr

/-- Loop of the constructor over the consist. -/
def ctorLoop : List VehicleUnit → CapacitiesMap → List RefitDesc → CapacitiesMap × List RefitDesc
  | [], caps, refits => (caps, refits)
  | v :: vs, caps, refits =>
    ctorLoop vs
      (if v.refit_cap > 0 then caps.modify v.cargo_type (fun x => wrapUint ((x : Int) + v.refit_cap)) else caps)
      (refits ++ [⟨v.cargo_type, v.cargo_cap, v.refit_cap⟩])

/-- `LinkRefresher::LinkRefresher`: one entry per unit, capacities seeded from
the positive `refit_cap`s, cargo `CT_INVALID`. -/
def Tracker.new (units : List VehicleUnit) : Tracker :=
  let r := ctorLoop units [] []
  { capacities := r.1, refit_capacities := r.2, cargo := CT_INVALID }

/-- Loop of `HandleRefit`: `units` are the units still to visit, `slots` the
list from `refit_it` on. `none` is a step or an access past the end of the list. -/
def handleRefitLoop (cargo : Nat) :
    List VehicleUnit → List RefitDesc → CapacitiesMap → Option (List RefitDesc × CapacitiesMap)
  | [], slots, caps => some (slots, caps)
  | _ :: _, [], _ => none
  | v :: vs, s :: rest, caps =>
    if !HasBit v.refit_mask cargo then
      (handleRefitLoop cargo vs rest caps).map (fun r => (s :: r.1, r.2))
    else
      let amount := (v.DetermineCapacity cargo).1
      let mail_capacity := (v.DetermineCapacity cargo).2
      let caps1 :=
        if cargo ≠ s.cargo ∧ s.remaining > 0 then
          caps.modify s.cargo (fun x => wrapUint ((x : Int) - s.remaining))
        else if amount < s.remaining then
          caps.modify s.cargo (fun x => wrapUint ((x : Int) - (s.remaining - amount : Nat)))
        else caps
      let remaining1 :=
        if cargo ≠ s.cargo ∧ s.remaining > 0 then 0
        else if amount < s.remaining then amount
        else s.remaining
      let s1 : RefitDesc := ⟨cargo, amount, remaining1⟩
      if v.type = VehicleType.VEH_AIRCRAFT then
        match rest with
        | [] => none
        | m :: rest2 =>
          if mail_capacity < m.remaining then
            some (s1 :: ⟨m.cargo, mail_capacity, mail_capacity⟩ :: rest2,
              caps1.modify m.cargo (fun x => wrapUint ((x : Int) - (m.remaining - mail_capacity : Nat))))
          else
            some (s1 :: ⟨m.cargo, mail_capacity, m.remaining⟩ :: rest2, caps1)
      else
        (handleRefitLoop cargo vs rest caps1).map (fun r => (s1 :: r.1, r.2))

/-- `LinkRefresher::HandleRefit` for an order whose refit cargo is `cargo`. -/
def HandleRefit (units : List VehicleUnit) (cargo : Nat) (t : Tracker) : Option Tracker :=
  (handleRefitLoop cargo units t.refit_capacities t.capacities).map
    (fun r => { capacities := r.2, refit_capacities := r.1, cargo := cargo })

/-- Loop of `ResetRefit` over the tracked units. -/
def resetRefitLoop : List RefitDesc → CapacitiesMap → List RefitDesc × CapacitiesMap
  | [], caps => ([], caps)
  | it :: rest, caps =>
    if it.remaining = it.capacity then
      let r := resetRefitLoop rest caps
      (it :: r.1, r.2)
    else
      let r := resetRefitLoop rest
        (caps.modify it.cargo (fun x => wrapUint ((x : Int) + ((it.capacity : Int) - it.remaining))))
      ({ it with remaining := it.capacity } :: r.1, r.2)

/-- `LinkRefresher::ResetRefit`. -/
def ResetRefit (t : Tracker) : Tracker :=
  let r := resetRefitLoop t.refit_capacities t.capacities
  { t with capacities := r.2, refit_capacities := r.1 }

/-! ## Orders, vehicles, stations -/

/-- The order kinds (`order_type.h` is not among the sources): the four kinds
the refresher tests for, and `OT_NOTHING` and `OT_GOTO_WAYPOINT` for the
kinds it does not. -/
inductive OrderType where
  | OT_NOTHING | OT_GOTO_STATION | OT_GOTO_DEPOT | OT_GOTO_WAYPOINT | OT_CONDITIONAL | OT_IMPLICIT
  deriving DecidableEq, Repr

/-- An order, with the accessors the refresher calls on it. -/
structure Order where
  index : Nat
  type : OrderType
  GetDestination : Nat
  IsRefit : Bool
  IsAutoRefit : Bool
  GetRefitCargo : Nat
  GetLoadType : Nat
  GetConditionSkipToOrder : Nat
  CanLeaveWithCargo : Bool → Bool

/-- `Order::IsType`. -/
def Order.IsType (o : Order) (t : OrderType) : Bool := decide (o.type = t)

/-- The order program of a vehicle, through the four lookups the refresher
uses (`order_base.h` is not among the sources). -/
structure OrderList where
  GetNumOrders : Nat
  GetOrderAt : Nat → Option Order
  GetNext : Order → Option Order
  GetNextDecisionNode : Option Order → Nat → Option Order

/-- A vehicle: its chain of units (`v`, `v->Next()`, ...), `orders.list`, the
order cursor and the last loading station. -/
structure Vehicle where
  units : List VehicleUnit
  orders : Option OrderList
  cur_implicit_order_index : Nat
  last_loading_station : Nat

/-- Modelled from the spec: `Vehicle::GetOrder` is not among the sources; it is
the order program's `GetOrderAt(index)`, and no order without a program. -/
def Vehicle.GetOrder (v : Vehicle) (index : Nat) : Option Order :=
  match v.orders with
  | none => none
  | some ol => ol.GetOrderAt index

/-- The station pool as the refresher reads it: `IsValid id` tells whether
`Station::GetIfValid(id)` is a station, `link_graph id c` is
`Station::Get(id)->goods[c].link_graph`. -/
structure StationPool where
  IsValid : Nat → Bool
  link_graph : Nat → Nat → Nat

/-- The two tags `RefreshStats` passes on (`linkgraph.h` is not among the
sources). -/
inductive EdgeUpdateMode where
  | REFRESH_RESTRICTED | REFRESH_UNRESTRICTED
  deriving DecidableEq, Repr

/-- One call `IncreaseStats(st, cargo, next_station_id, capacity, mode)`. -/
structure StatsCall where
  st : Nat
  cargo : Nat
  next_station_id : Nat
  capacity : Nat
  mode : EdgeUpdateMode
  deriving DecidableEq, Repr

/-- The bits of the `flags` argument, one field per bit of the enumeration
`RefreshFlags` (`refresh.h` is not among the sources). -/
structure RefreshFlags where
  USE_NEXT : Bool
  HAS_CARGO : Bool
  WAS_REFIT : Bool
  RESET_REFIT : Bool
  deriving DecidableEq, Repr

/-! ## Statistics update -/

/-- `LinkRefresher::RefreshStats`: the `IncreaseStats` calls it makes, in the
order of the capacities map. -/
def RefreshStats (stations : StationPool) (allow_merge : Bool) (capacities : CapacitiesMap)
    (cur next : Order) : List StatsCall :=
  let next_station := next.GetDestination
  if stations.IsValid cur.GetDestination ∧ next_station ≠ INVALID_STATION ∧
      next_station ≠ cur.GetDestination then
    capacities.filterMap (fun i =>
      if i.2 = 0 then none
      else if !allow_merge ∧
          stations.link_graph cur.GetDestination i.1 ≠ stations.link_graph next_station i.1 then none
      else some ⟨cur.GetDestination, i.1, next_station, i.2,
        if cur.GetLoadType &&& OLFB_NO_LOAD = 0 then EdgeUpdateMode.REFRESH_UNRESTRICTED
        else EdgeUpdateMode.REFRESH_RESTRICTED⟩)
  else []

/-! ## The walker -/

/-- What happens during a run, in order. `increase` is a call into the link
graph; the other events record the steps of the walker itself: `enter n` and
`exit n` delimit a `RefreshLinks` invocation started with `num_hops = n`,
`refit`, `reset`, `leave` and `stats` are the calls of `HandleRefit`,
`ResetRefit`, `CanLeaveWithCargo` and `RefreshStats`, `insert` an insertion
into the hop set. -/
inductive Event where
  | enter (num_hops : Nat)
  | exit (num_hops : Nat)
  | refit (next : Order)
  | insert (hop : Hop)
  | reset
  | leave (cur : Order) (has_cargo : Bool) (result : Bool)
  | stats (cur next : Order) (t : Tracker)
  | increase (call : StatsCall)

/-- State shared by a refresher and all its branches: the hop set, in order of
insertion, and the events so far. -/
structure Shared where
  seen_hops : List Hop
  trace : List Event

/-- Append events to the trace. -/
def Shared.record (sh : Shared) (es : List Event) : Shared :=
  { sh with trace := sh.trace ++ es }

/-- Result of a budgeted computation: a value, an access past the end of the
refit list, or an exhausted budget. -/
inductive Outcome (α : Type) where
  | done (a : α)
  | fault
  | timeout

/-- The refit part of a `RefreshLinks` iteration (source lines 234 to 247). -/
def refitStep (units : List VehicleUnit) (next : Order) (t : Tracker) (flags : RefreshFlags)
    (sh : Shared) : Option (Tracker × RefreshFlags × Shared) :=
  let r : Option (Tracker × RefreshFlags × Shared) :=
    if (next.IsType OrderType.OT_GOTO_DEPOT || next.IsType OrderType.OT_GOTO_STATION) &&
        next.IsRefit && !next.IsAutoRefit then
      (HandleRefit units next.GetRefitCargo t).map
        (fun t1 => (t1, { flags with WAS_REFIT := true }, sh.record [Event.refit next]))
    else some (t, flags, sh)
  r.map (fun x =>
    (x.1,
     { x.2.1 with RESET_REFIT := x.2.1.WAS_REFIT &&
         (next.IsType OrderType.OT_GOTO_STATION || next.IsType OrderType.OT_IMPLICIT) },
     x.2.2))

/-- The cargo part of a `RefreshLinks` iteration (source lines 264 to 277),
for a `next` that is a station or implicit stop. -/
def cargoStep (stations : StationPool) (allow_merge : Bool) (cur next : Order) (t : Tracker)
    (flags : RefreshFlags) (sh : Shared) : Tracker × RefreshFlags × Shared :=
  let t1 := if flags.RESET_REFIT then ResetRefit t else t
  let flags1 : RefreshFlags :=
    if flags.RESET_REFIT then { flags with RESET_REFIT := false, WAS_REFIT := false } else flags
  let sh1 := if flags.RESET_REFIT then sh.record [Event.reset] else sh
  if cur.IsType OrderType.OT_GOTO_STATION || cur.IsType OrderType.OT_IMPLICIT then
    if cur.CanLeaveWithCargo flags1.HAS_CARGO then
      (t1, { flags1 with HAS_CARGO := true },
        sh1.record ([Event.leave cur flags1.HAS_CARGO true, Event.stats cur next t1] ++
          (RefreshStats stations allow_merge t1.capacities cur next).map Event.increase))
    else
      (t1, { flags1 with HAS_CARGO := false },
        sh1.record [Event.leave cur flags1.HAS_CARGO false])
  else (t1, flags1, sh1)

mutual

/-- `LinkRefresher::RefreshLinks`: one unfolding is one test of the loop
condition followed by one iteration. The refresher's own state `t` is threaded
through; `sh` is the state behind the shared pointer. -/
def RefreshLinks (stations : StationPool) (units : List VehicleUnit) (ol : OrderList)
    (allow_merge : Bool) : Nat → Tracker → Shared → Order → Option Order → RefreshFlags → Nat →
    Outcome (Tracker × Shared)
  | 0, _, _, _, _, _, _ => Outcome.timeout
  | _ + 1, t, sh, _, none, _, _ => Outcome.done (t, sh)
  | fuel + 1, t, sh, cur, some next, flags, num_hops =>
    match refitStep units next t flags sh with
    | none => Outcome.fault
    | some (t1, flags1, sh1) =>
      match PredictNextOrder stations units ol allow_merge fuel t1 sh1 cur (some next) flags1
          num_hops with
      | Outcome.timeout => Outcome.timeout
      | Outcome.fault => Outcome.fault
      | Outcome.done (none, sh2) => Outcome.done (t1, sh2)
      | Outcome.done (some next1, sh2) =>
        if HopSet.find sh2.seen_hops ⟨cur.index, next1.index, t1.cargo⟩ then
          Outcome.done (t1, sh2)
        else
          let sh3 : Shared :=
            { seen_hops := sh2.seen_hops ++ [⟨cur.index, next1.index, t1.cargo⟩],
              trace := sh2.trace ++ [Event.insert ⟨cur.index, next1.index, t1.cargo⟩] }
          let flags2 : RefreshFlags := { flags1 with USE_NEXT := false }
          if !next1.IsType OrderType.OT_GOTO_STATION && !next1.IsType OrderType.OT_IMPLICIT then
            RefreshLinks stations units ol allow_merge fuel t1 sh3 cur (some next1) flags2 num_hops
          else
            match cargoStep stations allow_merge cur next1 t1 flags2 sh3 with
            | (t2, flags3, sh4) =>
              RefreshLinks stations units ol allow_merge fuel t2 sh4 next1 (some next1) flags3
                num_hops

/-- `LinkRefresher::PredictNextOrder`: one unfolding is one test of the loop
condition followed by one iteration. The refresher's own state `t` is only
read, a branch works on its copy; the result is the order returned and the
shared state. -/
def PredictNextOrder (stations : StationPool) (units : List VehicleUnit) (ol : OrderList)
    (allow_merge : Bool) : Nat → Tracker → Shared → Order → Option Order → RefreshFlags → Nat →
    Outcome (Option Order × Shared)
  | 0, _, _, _, _, _, _ => Outcome.timeout
  | _ + 1, _, sh, _, none, _, _ => Outcome.done (none, sh)
  | fuel + 1, t, sh, cur, some next, flags, num_hops =>
    if !(!flags.USE_NEXT || next.IsType OrderType.OT_CONDITIONAL) then
      Outcome.done (some next, sh)
    else
      let flags1 : RefreshFlags := { flags with USE_NEXT := true }
      let branched : Outcome Shared :=
        if next.IsType OrderType.OT_CONDITIONAL then
          match ol.GetNextDecisionNode (ol.GetOrderAt next.GetConditionSkipToOrder) num_hops with
          | none => Outcome.done sh
          | some skip_to =>
            if num_hops < ol.GetNumOrders then
              match RefreshLinks stations units ol allow_merge fuel t
                  (sh.record [Event.enter (num_hops + 1)]) cur (some skip_to) flags1
                  (num_hops + 1) with
              | Outcome.done r => Outcome.done (r.2.record [Event.exit (num_hops + 1)])
              | Outcome.fault => Outcome.fault
              | Outcome.timeout => Outcome.timeout
            else Outcome.done sh
        else Outcome.done sh
      match branched with
      | Outcome.timeout => Outcome.timeout
      | Outcome.fault => Outcome.fault
      | Outcome.done sh1 =>
        PredictNextOrder stations units ol allow_merge fuel t sh1 cur
          (ol.GetNextDecisionNode (ol.GetNext next) num_hops) flags1 (num_hops + 1)

end

/-- What a run leaves behind: the refresher it built, if any, the hop set and
the events. -/
structure RunResult where
  refresher : Option Tracker
  seen_hops : List Hop
  trace : List Event

/-- `LinkRefresher::Run`. -/
def Run (fuel : Nat) (stations : StationPool) (v : Vehicle) (allow_merge : Bool) :
    Outcome RunResult :=
  match v.orders with
  | none => Outcome.done ⟨none, [], []⟩
  | some ol =>
    match ol.GetNextDecisionNode (v.GetOrder v.cur_implicit_order_index) 0 with
    | none => Outcome.done ⟨none, [], []⟩
    | some first =>
      match RefreshLinks stations v.units ol allow_merge fuel (Tracker.new v.units)
          ⟨[], [Event.enter 0]⟩ first (some first)
          ⟨false, decide (v.last_loading_station ≠ INVALID_STATION), false, false⟩ 0 with
      | Outcome.done r => Outcome.done ⟨some r.1, r.2.seen_hops, r.2.trace ++ [Event.exit 0]⟩
      | Outcome.fault => Outcome.fault
      | Outcome.timeout => Outcome.timeout

/-- The `IncreaseStats` calls among the events, in order. -/
def gatewayCalls (trace : List Event) : List StatsCall :=
  trace.filterMap (fun e => match e with
    | Event.increase call => some call
    | _ => none)

/-- The hops for which `RefreshStats` was invoked, in order. -/
def statsHops (trace : List Event) : List Hop :=
  trace.filterMap (fun e => match e with
    | Event.stats cur next t => some ⟨cur.index, next.index, t.cargo⟩
    | _ => none)

/-- The hops inserted into the hop set, in order. -/
def insertedHops (trace : List Event) : List Hop :=
  trace.filterMap (fun e => match e with
    | Event.insert hop => some hop
    | _ => none)

/-! ## Order programs given as a list -/

/-- Modelled from the spec: `OrderList::GetNextDecisionNode` is not among the
sources. A decision node is a station, implicit, depot or conditional order;
other orders are skipped along `next_of`. The budget is
`GetNumOrders() + 1 - hops`, so no order is returned once `hops` exceeds
`GetNumOrders()`. -/
def decisionNode (next_of : Order → Option Order) : Nat → Option Order → Option Order
  | 0, _ => none
  | _ + 1, none => none
  | budget + 1, some o =>
    if o.IsType OrderType.OT_GOTO_STATION || o.IsType OrderType.OT_IMPLICIT ||
        o.IsType OrderType.OT_GOTO_DEPOT || o.IsType OrderType.OT_CONDITIONAL then some o
    else decisionNode next_of budget (next_of o)

/-- Modelled from the spec: `OrderList::GetNext` is not among the sources. The
order after `o` in the cyclic program `orders`, `o` being located by its
index. -/
def nextInList (orders : List Order) (o : Order) : Option Order :=
  match orders.findIdx? (fun x => x.index == o.index) with
  | none => none
  | some i => orders.get? ((i + 1) % orders.length)

/-- Modelled from the spec: the order program made of the orders `orders`, in
this order and wrapping around (`OrderList` is not among the sources). -/
def OrderList.ofList (orders : List Order) : OrderList :=
  { GetNumOrders := orders.length
    GetOrderAt := fun i => orders.get? i
    GetNext := nextInList orders
    GetNextDecisionNode := fun next hops =>
      decisionNode (nextInList orders) (orders.length + 1 - hops) next }

/-! ## The scenario of the specification

Orders `A` (index 0, station 1, refit to cargo 7), `B` (index 1, station 2),
`C` (index 2, conditional, skip to `A`); one unit holding cargo 3 with
capacity 100, whose capacity for cargo 7 is 80. -/

/-- Order `A`: go to station 1, refit to cargo 7, load type 0. -/
def scenarioA : Order :=
  ⟨0, OrderType.OT_GOTO_STATION, 1, true, false, 7, 0, 0, fun _ => true⟩

/-- Order `B`: go to station 2, no refit. -/
def scenarioB : Order :=
  ⟨1, OrderType.OT_GOTO_STATION, 2, false, false, CT_INVALID, 0, 0, fun _ => true⟩

/-- Order `C`: conditional order skipping to order 0. -/
def scenarioC : Order :=
  ⟨2, OrderType.OT_CONDITIONAL, 0, false, false, CT_INVALID, 0, 0, fun _ => true⟩

/-- The program `A`, `B`, `C`. -/
def scenarioOrders : List Order := [scenarioA, scenarioB, scenarioC]

/-- A train unit holding cargo 3 with capacity 100, refittable to cargoes 3
and 7, with capacity 80 for cargo 7. -/
def scenarioUnit : VehicleUnit :=
  ⟨VehicleType.VEH_TRAIN, 3, 100, 100, 2 ^ 3 + 2 ^ 7, fun c => (if c = 7 then 80 else 100, 0)⟩

/-- The single-unit vehicle with the program `A`, `B`, `C` and its order
cursor at `A`. -/
def scenarioVehicle (last_loading_station : Nat) : Vehicle :=
  ⟨[scenarioUnit], some (OrderList.ofList scenarioOrders), 0, last_loading_station⟩

/-- Stations 1 and 2 exist; `lg` assigns the link graphs. -/
def scenarioStations (lg : Nat → Nat → Nat) : StationPool :=
  ⟨fun s => decide (s = 1 ∨ s = 2), lg⟩

/-! ## Vocabulary of the properties -/

/-- Sum of `remaining` over the tracked units whose cargo is `c`. -/
def sumRemaining (slots : List RefitDesc) (c : Nat) : Nat :=
  ((slots.filter (fun s => s.cargo = c)).map (fun s => s.remaining)).sum

/-- Sum of `capacity` over the tracked units whose cargo is `c`. -/
def sumCapacity (slots : List RefitDesc) (c : Nat) : Nat :=
  ((slots.filter (fun s => s.cargo = c)).map (fun s => s.capacity)).sum

/-- The tracker invariant: every bucket of the capacities map is the sum of
`remaining` over the tracked units holding that cargo. -/
def TrackerInv (t : Tracker) : Prop :=
  ∀ c, t.capacities.get c = sumRemaining t.refit_capacities c

/-- Every bucket of the capacities map is in the range of `uint`. -/
def InRange (caps : CapacitiesMap) : Prop :=
  ∀ c, caps.get c < 4294967296

/-- A tracked unit after `ResetRefit`. -/
def RefitDesc.restored (d : RefitDesc) : RefitDesc :=
  ⟨d.cargo, d.capacity, d.capacity⟩

/-- The entry the constructor records for a unit. -/
def RefitDesc.ofUnit (v : VehicleUnit) : RefitDesc :=
  ⟨v.cargo_type, v.cargo_cap, v.refit_cap⟩

/-- The unit at which `HandleRefit` takes its aircraft branch (the first
aircraft unit able to carry `cargo`), if there is one, is followed by a further
unit. -/
def MailSlotPresent (cargo : Nat) : List VehicleUnit → Prop
  | [] => True
  | v :: vs =>
    if HasBit v.refit_mask cargo = true ∧ v.type = VehicleType.VEH_AIRCRAFT then vs ≠ []
    else MailSlotPresent cargo vs

/-- A sequence of `HandleRefit` calls, one per refit cargo of the list. -/
def applyRefits (units : List VehicleUnit) : List Nat → Tracker → Option Tracker
  | [], t => some t
  | cargo :: rest, t =>
    match HandleRefit units cargo t with
    | none => none
    | some t1 => applyRefits units rest t1

/-- The shared state `sh1` continues `sh`: hops were only appended to the hop
set, each of them new and inserted once, events were only appended to the
trace, the appended insertions are exactly the appended hops, and the hops of
the appended `RefreshStats` invocations are a subsequence of them. -/
def Shared.Grows (sh sh1 : Shared) : Prop :=
  ∃ (new : List Hop) (tr : List Event),
    sh1.seen_hops = sh.seen_hops ++ new ∧ sh1.trace = sh.trace ++ tr ∧
    insertedHops tr = new ∧ List.Sublist (statsHops tr) new ∧
    (∀ h ∈ new, h ∉ sh.seen_hops) ∧ new.Nodup

/-- The order program is finite: every order its lookups return, when asked
about orders of `pool`, lies in the list `pool`. -/
def OrderList.ClosedIn (ol : OrderList) (pool : List Order) : Prop :=
  (∀ i x, ol.GetOrderAt i = some x → x ∈ pool) ∧
  (∀ o x, o ∈ pool → ol.GetNext o = some x → x ∈ pool) ∧
  (∀ o hops r, (∀ x, o = some x → x ∈ pool) → ol.GetNextDecisionNode o hops = some r → r ∈ pool)

/-- `GetNextDecisionNode` returns no order once its hop argument exceeds
`GetNumOrders()`. -/
def OrderList.Bounded (ol : OrderList) : Prop :=
  ∀ o hops, ol.GetNumOrders < hops → ol.GetNextDecisionNode o hops = none

/-- The cargoes a refresher over the orders of `pool` can have. -/
def cargoUniverse (pool : List Order) : List Nat :=
  CT_INVALID :: pool.map Order.GetRefitCargo

/-- The hops a refresher over the orders of `pool` can form. -/
def hopUniverse (pool : List Order) : List Hop :=
  pool.flatMap (fun a => pool.flatMap (fun b => (cargoUniverse pool).map (fun c => ⟨a.index, b.index, c⟩)))

/-- Number of hops of the universe that are not in the hop set. -/
def unseen (pool : List Order) (seen : List Hop) : Nat :=
  (hopUniverse pool).countP (fun h => decide (h ∉ seen))

/-- A budget that suffices for `PredictNextOrder` called with `num_hops = n`,
for a program of `N` orders and a hop universe of size `K`. -/
def predictBudget (N K n : Nat) : Nat := (N + 1 - n) * (K + 2) + 2

/-- A budget that suffices for `RefreshLinks` called with `num_hops = n` while
`k` hops of the universe are not yet in the hop set. -/
def refreshBudget (N K n k : Nat) : Nat := k + 1 + predictBudget N K n

/-- The value of a finished computation. -/
def Outcome.toOption {α : Type} : Outcome α → Option α
  | Outcome.done a => some a
  | Outcome.fault => none
  | Outcome.timeout => none

/-- An event with each order replaced by its index and the tracker of a
`RefreshStats` call by its capacities map. -/
inductive EventLabel where
  | enter (num_hops : Nat)
  | exit (num_hops : Nat)
  | refit (next : Nat)
  | insert (hop : Hop)
  | reset
  | leave (cur : Nat) (has_cargo : Bool) (result : Bool)
  | stats (cur next : Nat) (capacities : CapacitiesMap)
  | increase (call : StatsCall)
  deriving DecidableEq, Repr

/-- The label of an event. -/
def Event.label : Event → EventLabel
  | Event.enter n => EventLabel.enter n
  | Event.exit n => EventLabel.exit n
  | Event.refit next => EventLabel.refit next.index
  | Event.insert hop => EventLabel.insert hop
  | Event.reset => EventLabel.reset
  | Event.leave cur has_cargo result => EventLabel.leave cur.index has_cargo result
  | Event.stats cur next t => EventLabel.stats cur.index next.index t.capacities
  | Event.increase call => EventLabel.increase call

/-- The lexicographic order on (from, to, cargo). -/
def Hop.lexLt (a b : Hop) : Prop :=
  a.from_ < b.from_ ∨ (a.from_ = b.from_ ∧ a.to_ < b.to_) ∨
    (a.from_ = b.from_ ∧ a.to_ = b.to_ ∧ a.cargo < b.cargo)

/-- One call on the tracker: `HandleRefit` for a refit cargo, or `ResetRefit`. -/
inductive TrackerOp where
  | refit (cargo : Nat)
  | reset
  deriving DecidableEq, Repr

/-- A sequence of `HandleRefit` and `ResetRefit` calls. -/
def applyOps (units : List VehicleUnit) : List TrackerOp → Tracker → Option Tracker
  | [], t => some t
  | TrackerOp.refit cargo :: rest, t =>
    match HandleRefit units cargo t with
    | none => none
    | some t1 => applyOps units rest t1
  | TrackerOp.reset :: rest, t => applyOps units rest (ResetRefit t)

/-- `HandleRefit` for `cargo` processes the unit at position `i`: the unit can
carry the cargo, and the loop was not left at an earlier unit (an aircraft
unit able to carry the cargo). -/
def Processed (cargo : Nat) (units : List VehicleUnit) (i : Nat) : Prop :=
  (∃ v, units.get? i = some v ∧ HasBit v.refit_mask cargo = true) ∧
  ∀ j v, j < i → units.get? j = some v →
    ¬(HasBit v.refit_mask cargo = true ∧ v.type = VehicleType.VEH_AIRCRAFT)

/-- What `HandleRefit` for `cargo` writes to the entry `s` of a processed unit
whose simulated capacity is `amount`. -/
def refittedSlot (cargo amount : Nat) (s : RefitDesc) : RefitDesc :=
  ⟨cargo, amount,
    if cargo ≠ s.cargo ∧ s.remaining > 0 then 0
    else if amount < s.remaining then amount else s.remaining⟩

/-- The order is a station stop or an implicit stop. -/
def Order.IsCargoStop (o : Order) : Bool :=
  o.IsType OrderType.OT_GOTO_STATION || o.IsType OrderType.OT_IMPLICIT

/-- The order makes `RefreshLinks` call `HandleRefit` (source lines 234, 235). -/
def Order.IsExplicitRefit (o : Order) : Bool :=
  (o.IsType OrderType.OT_GOTO_DEPOT || o.IsType OrderType.OT_GOTO_STATION) &&
    o.IsRefit && !o.IsAutoRefit

/-- The events of the refit part of an iteration. -/
def refitEvents (next : Order) : List Event :=
  if next.IsExplicitRefit then [Event.refit next] else []

/-- The events of the cargo part of an iteration started with tracker `t`. -/
def cargoEvents (stations : StationPool) (allow_merge : Bool) (cur next : Order) (t : Tracker)
    (flags : RefreshFlags) : List Event :=
  (if flags.RESET_REFIT then [Event.reset] else []) ++
    (if cur.IsCargoStop then
      (if cur.CanLeaveWithCargo flags.HAS_CARGO then
        [Event.leave cur flags.HAS_CARGO true,
          Event.stats cur next (if flags.RESET_REFIT then ResetRefit t else t)] ++
          (RefreshStats stations allow_merge
            (if flags.RESET_REFIT then ResetRefit t else t).capacities cur next).map Event.increase
      else [Event.leave cur flags.HAS_CARGO false])
    else [])

/-- Run a check over a list of events, state by state; `none` when a step of
the check fails. -/
def runCheck {σ : Type} (step : σ → Event → Option σ) : σ → List Event → Option σ
  | s, [] => some s
  | s, e :: es =>
    match step s e with
    | none => none
    | some s1 => runCheck step s1 es

/-- Check of the nesting of `RefreshLinks` invocations: the state is the stack
of the `num_hops` of the invocations under way, innermost first. An
invocation may start with `num_hops = n` only if `n <= N`, at most `n`
invocations are under way, and each of them has a smaller `num_hops`; it must
end before the invocation that started it. -/
def nestStep (N : Nat) (st : List Nat) (e : Event) : Option (List Nat) :=
  match e with
  | Event.enter n =>
    if n ≤ N ∧ st.length ≤ n ∧ st.all (fun m => decide (m < n)) = true then some (n :: st)
    else none
  | Event.exit n =>
    match st with
    | [] => none
    | top :: rest => if top = n then some rest else none
  | _ => some st

/-- Replay of the events of one refresher on a tracker: the state is the
depth of forked branches under way and the tracker. At depth 0 a `refit`
event applies `HandleRefit`, a `reset` event `ResetRefit`, and a `stats` event
must carry the tracker as it then is; the events of forked branches (depth
above 0) are passed over. -/
def replayStep (units : List VehicleUnit) (s : Nat × Tracker) (e : Event) :
    Option (Nat × Tracker) :=
  match e with
  | Event.enter _ => some (s.1 + 1, s.2)
  | Event.exit _ => if s.1 = 0 then none else some (s.1 - 1, s.2)
  | Event.refit next =>
    if s.1 = 0 then (HandleRefit units next.GetRefitCargo s.2).map (fun t1 => (0, t1))
    else some s
  | Event.reset => if s.1 = 0 then some (0, ResetRefit s.2) else some s
  | Event.stats _ _ t => if s.1 = 0 then (if t = s.2 then some s else none) else some s
  | _ => some s

/-- `RefreshStats` is invoked for a pair of cargo-handling stops only. -/
def Event.CargoPair : Event → Prop
  | Event.stats cur next _ => cur.IsCargoStop = true ∧ next.IsCargoStop = true
  | _ => True

/-- Check of the carrying-cargo flag: the state is the stack of the
`HAS_CARGO` flags of the invocations under way, innermost first, and the
index of the order for which a `RefreshStats` call is due. A forked
invocation starts with a copy of the flag; a `leave` event must pass the
current flag, carry the result of `CanLeaveWithCargo` for it, and makes that
result the flag; a `stats` event must directly follow a `leave` event of the
same order with result true, and must follow every such event. -/
def flagStep (s : List Bool × Option Nat) (e : Event) : Option (List Bool × Option Nat) :=
  match e with
  | Event.stats cur _ _ => if s.2 = some cur.index then some (s.1, none) else none
  | Event.enter _ =>
    match s.1, s.2 with
    | h :: st, none => some (h :: h :: st, none)
    | _, _ => none
  | Event.exit _ =>
    match s.1, s.2 with
    | _ :: st, none => some (st, none)
    | _, _ => none
  | Event.leave cur has_cargo result =>
    match s.1, s.2 with
    | h :: st, none =>
      if has_cargo = h ∧ result = cur.CanLeaveWithCargo has_cargo then
        some (result :: st, if result then some cur.index else none)
      else none
    | _, _ => none
  | _ => if s.2 = none then some s else none

/-! ## A second scenario: a branch that refits

Orders `A` (index 0, station 1), `C` (index 1, conditional, skip to order 3),
`B` (index 2, station 2), `D` (index 3, station 3, refit to cargo 7). -/

/-- Order `A` of the second scenario: go to station 1, no refit. -/
def forkA : Order :=
  ⟨0, OrderType.OT_GOTO_STATION, 1, false, false, CT_INVALID, 0, 0, fun _ => true⟩

/-- Order `C` of the second scenario: conditional order skipping to order 3. -/
def forkC : Order :=
  ⟨1, OrderType.OT_CONDITIONAL, 0, false, false, CT_INVALID, 0, 3, fun _ => true⟩

/-- Order `B` of the second scenario: go to station 2, no refit. -/
def forkB : Order :=
  ⟨2, OrderType.OT_GOTO_STATION, 2, false, false, CT_INVALID, 0, 0, fun _ => true⟩

/-- Order `D` of the second scenario: go to station 3, refit to cargo 7. -/
def forkD : Order :=
  ⟨3, OrderType.OT_GOTO_STATION, 3, true, false, 7, 0, 0, fun _ => true⟩

/-- The scenario unit with the program `A`, `C`, `B`, `D` and the cursor at
`A`. -/
def forkVehicle : Vehicle :=
  ⟨[scenarioUnit], some (OrderList.ofList [forkA, forkC, forkB, forkD]), 0, 1⟩

/-- Stations 1, 2 and 3 exist, all in link graph 0. -/
def forkStations : StationPool :=
  ⟨fun s => decide (s = 1 ∨ s = 2 ∨ s = 3), fun _ _ => 0⟩

/-- The event starts or ends a `RefreshLinks` invocation. -/
def Event.isFrame : Event → Bool
  | Event.enter _ => true
  | Event.exit _ => true
  | _ => false

/-- The events `tr` of an invocation with `num_hops = p` pass the nesting
check and leave the stack of invocations as it was, whatever smaller
invocations (at most `p` of them) are under way around it. -/
def Balanced (N p : Nat) (tr : List Event) : Prop :=
  ∀ st : List Nat, st.length ≤ p → st.all (fun m => decide (m < p)) = true →
    runCheck (nestStep N) (p :: st) tr = some (p :: st)

/-- The flags after the refit part of an iteration. -/
def refitFlags (next : Order) (flags : RefreshFlags) : RefreshFlags :=
  { (if next.IsExplicitRefit then { flags with WAS_REFIT := true } else flags) with
    RESET_REFIT :=
      (if next.IsExplicitRefit then { flags with WAS_REFIT := true } else flags).WAS_REFIT &&
        (next.IsType OrderType.OT_GOTO_STATION || next.IsType OrderType.OT_IMPLICIT) }

/-- The tracker after the cargo part of an iteration. -/
def cargoTracker (t : Tracker) (flags : RefreshFlags) : Tracker :=
  if flags.RESET_REFIT then ResetRefit t else t

/-- The flags after the cargo part of an iteration. -/
def cargoFlags (cur : Order) (flags : RefreshFlags) : RefreshFlags :=
  if cur.IsCargoStop then
    { (if flags.RESET_REFIT then { flags with RESET_REFIT := false, WAS_REFIT := false }
        else flags) with
      HAS_CARGO := cur.CanLeaveWithCargo flags.HAS_CARGO }
  else if flags.RESET_REFIT then { flags with RESET_REFIT := false, WAS_REFIT := false }
  else flags

/-! ## A third scenario: a depot between two stations

Orders `A` (index 0, station 1), `P` (index 1, depot 9), `B` (index 2,
station 2, which the vehicle leaves with cargo only when it arrived with
cargo). -/

/-- Order `A` of the third scenario: go to station 1. -/
def depotA : Order :=
  ⟨0, OrderType.OT_GOTO_STATION, 1, false, false, CT_INVALID, 0, 0, fun _ => true⟩

/-- Order `P` of the third scenario: go to depot 9, no refit. -/
def depotP : Order :=
  ⟨1, OrderType.OT_GOTO_DEPOT, 9, false, false, CT_INVALID, 0, 0, fun _ => true⟩

/-- Order `B` of the third scenario: go to station 2; the vehicle leaves with
cargo exactly when it arrived with cargo. -/
def depotB : Order :=
  ⟨2, OrderType.OT_GOTO_STATION, 2, false, false, CT_INVALID, 0, 0, fun h => h⟩

/-- The scenario unit with the program `A`, `P`, `B`, the cursor at `B` and
no last loading station. -/
def depotVehicle : Vehicle :=
  ⟨[scenarioUnit], some (OrderList.ofList [depotA, depotP, depotB]), 2, INVALID_STATION⟩

/-! ## Vocabulary for the aircraft branch of `HandleRefit` -/

/-- The capacities map after `HandleRefit` for `cargo` has processed the entry
`s` of a unit whose simulated capacity is `amount` (source lines 106 to 112). -/
def refittedCaps (cargo amount : Nat) (s : RefitDesc) (caps : CapacitiesMap) : CapacitiesMap :=
  if cargo ≠ s.cargo ∧ s.remaining > 0 then
    caps.modify s.cargo (fun x => wrapUint ((x : Int) - s.remaining))
  else if amount < s.remaining then
    caps.modify s.cargo (fun x => wrapUint ((x : Int) - (s.remaining - amount : Nat)))
  else caps

/-- What the aircraft branch of `HandleRefit` writes to the entry `m` after
the aircraft's own entry, for the mail capacity `mail` (source lines 120 to
124). -/
def mailSlot (mail : Nat) (m : RefitDesc) : RefitDesc :=
  ⟨m.cargo, mail, if mail < m.remaining then mail else m.remaining⟩

/-- The capacities map after the aircraft branch of `HandleRefit` (source
lines 120 to 123). -/
def mailCaps (mail : Nat) (m : RefitDesc) (caps : CapacitiesMap) : CapacitiesMap :=
  if mail < m.remaining then
    caps.modify m.cargo (fun x => wrapUint ((x : Int) - (m.remaining - mail : Nat)))
  else caps

/-- The entries after `HandleRefit` for `cargo` on a consist without aircraft
units: the entry of every unit able to carry the cargo is rewritten, the
others are kept. -/
def refitSlots (cargo : Nat) : List VehicleUnit → List RefitDesc → List RefitDesc
  | v :: vs, s :: rest =>
    (if HasBit v.refit_mask cargo then refittedSlot cargo (v.DetermineCapacity cargo).1 s else s) ::
      refitSlots cargo vs rest
  | _, slots => slots

/-- The unit with another secondary (mail) capacity `g` and the same primary
capacity. -/
def VehicleUnit.withMail (v : VehicleUnit) (g : Nat → Nat) : VehicleUnit :=
  { v with DetermineCapacity := fun c => ((v.DetermineCapacity c).1, g c) }

/-! ## A fourth scenario: an aircraft

The aircraft holds cargo 3 with capacity 100 and can be refitted to cargo 7,
with capacity 80 and mail capacity 10; its second unit holds cargo 2 (mail)
with capacity 20 and cannot be refitted. -/

/-- The first unit of the aircraft. -/
def planeUnit : VehicleUnit :=
  ⟨VehicleType.VEH_AIRCRAFT, 3, 100, 100, 2 ^ 3 + 2 ^ 7, fun c => (if c = 7 then 80 else 100, 10)⟩

/-- The second unit of the aircraft, which holds the mail. -/
def shadowUnit : VehicleUnit :=
  ⟨VehicleType.VEH_AIRCRAFT, 2, 20, 20, 0, fun _ => (0, 0)⟩

end LinkRefresher

namespace ScriptStation

/-! ## The script API: cargo rating of a station

Embedding of `ScriptStation::IsValidStation`, `ScriptStation::HasCargoRating`
and `ScriptStation::GetCargoRating` (`script_station.cpp`). -/

/-- Modelled from the spec: `OWNER_NONE` is declared in `company_type.h`,
which is not among the sources. -/
def OWNER_NONE : Nat := 0x10

/-- Modelled from the spec: `OWNER_DEITY` is declared in `company_type.h`,
which is not among the sources. -/
def OWNER_DEITY : Nat := 0x12

/-- Modelled from the spec: the part of `GoodsEntry` (`station_base.h`, not
among the sources) the rating functions read: `HasRating()` and the byte
`rating`. -/
structure GoodsEntry where
  HasRating : Bool
  rating : Nat
  deriving DecidableEq, Repr

/-- Modelled from the spec: the part of `Station` (`station_base.h`, not
among the sources) the rating functions read. -/
structure Station where
  owner : Nat
  goods : Nat → GoodsEntry

/-- Modelled from the spec: what the rating functions read from their
surroundings: the station pool (`Station::IsValidID`, `Station::Get`), the
company of the running script (`ScriptObject::GetCompany`) and
`ScriptCargo::IsValidCargo`; none of them is among the sources. -/
structure World where
  IsValidID : Nat → Bool
  Get : Nat → Station
  GetCompany : Nat
  IsValidCargo : Nat → Bool

/-- Modelled from the spec: `Station::GetIfValid` (`base_station_base.h`, not
among the sources): the station with this id, or nothing. -/
def World.GetIfValid (w : World) (station_id : Nat) : Option Station :=
  if w.IsValidID station_id then some (w.Get station_id) else none

/-- Modelled from the spec: `ToPercent8` (`core/math_func.hpp`, not among the
sources) is `i * 101 >> 8` on `uint`. -/
def ToPercent8 (i : Nat) : Nat := (i * 101 % 2 ^ 32) / 2 ^ 8

/-- The conversion of a `uint` to the `int32` a script function returns. -/
def toInt32 (x : Nat) : Int :=
  if x % 2 ^ 32 < 2 ^ 31 then ((x % 2 ^ 32 : Nat) : Int) else ((x % 2 ^ 32 : Nat) : Int) - 2 ^ 32

/-- `ScriptStation::IsValidStation`. -/
def IsValidStation (w : World) (station_id : Nat) : Bool :=
  match w.GetIfValid station_id with
  | none => false
  | some st =>
    decide (st.owner = w.GetCompany) || decide (w.GetCompany = OWNER_DEITY) ||
      decide (st.owner = OWNER_NONE)

/-- `ScriptStation::HasCargoRating`. -/
def HasCargoRating (w : World) (station_id cargo_id : Nat) : Bool :=
  if !IsValidStation w station_id then false
  else if !w.IsValidCargo cargo_id then false
  else ((w.Get station_id).goods cargo_id).HasRating

/-- `ScriptStation::GetCargoRating`; the `rating` field is a byte. -/
def GetCargoRating (w : World) (station_id cargo_id : Nat) : Int :=
  if !HasCargoRating w station_id cargo_id then -1
  else toInt32 (ToPercent8 (((w.Get station_id).goods cargo_id).rating % 2 ^ 8))

/-- A world with the single station 5, owned by company 1, whose cargo 2 has
the initial rating 175, rated or not according to `rated`; the script runs
for company 1 and the cargoes below 32 are valid. -/
def ratingWorld (rated : Bool) : World :=
  ⟨fun s => decide (s = 5), fun _ => ⟨1, fun _ => ⟨rated, 175⟩⟩, 1, fun c => decide (c < 32)⟩

/-! ## The script API: cargo waiting from a station

Embedding of `ScriptStation::GetCargoWaitingFrom` (`script_station.cpp`). -/

/-- Modelled from the spec: `ScriptStation::STATION_INVALID` is declared in
`script_station.hpp`, which is not among the sources. -/
def STATION_INVALID : Nat := 0xFFFF

/-- Modelled from the spec: the part of `CargoPacket` (`cargopacket.h`, not
among the sources) the function reads: `SourceStation()` and the 16 bit
`Count()`. -/
structure CargoPacket where
  SourceStation : Nat
  Count : Nat
  deriving DecidableEq, Repr

/-- The loop of `GetCargoWaitingFrom` over the packets, with the `uint16`
counter `cargo_count`. -/
def countFrom (from_station_id : Nat) : List CargoPacket → Nat → Nat
  | [], cargo_count => cargo_count
  | cp :: rest, cargo_count =>
    countFrom from_station_id rest
      (if cp.SourceStation = from_station_id then (cargo_count + cp.Count % 2 ^ 16) % 2 ^ 16
        else cargo_count)

/-- `ScriptStation::GetCargoWaitingFrom`; `Packets station cargo` are the
packets of `goods[cargo].cargo` of the station, in the order of iteration. -/
def GetCargoWaitingFrom (w : World) (Packets : Nat → Nat → List CargoPacket)
    (station_id from_station_id cargo_id : Nat) : Int :=
  if !IsValidStation w station_id then -1
  else if !IsValidStation w from_station_id && decide (from_station_id ≠ STATION_INVALID) then -1
  else if !w.IsValidCargo cargo_id then -1
  else toInt32 (countFrom from_station_id (Packets station_id cargo_id) 0)

/-- The sum of `Count()` over the packets whose source station is
`from_station_id`, as a natural number. -/
def waitingTotal (from_station_id : Nat) (packets : List CargoPacket) : Nat :=
  ((packets.filter (fun cp => decide (cp.SourceStation = from_station_id))).map
    (fun cp => cp.Count % 2 ^ 16)).sum

/-- Packets waiting at a station: 40000 and 30000 units of unknown source and
5 units from station 5. -/
def waitingPackets : Nat → Nat → List CargoPacket :=
  fun _ _ => [⟨0xFFFF, 40000⟩, ⟨5, 5⟩, ⟨0xFFFF, 30000⟩]

end ScriptStation

namespace LinkRefresher

/-! ## The hop order -/

theorem Hop.lt_iff_lexLt (a b : Hop) : a.lt b = true ↔ a.lexLt b := by
  unfold Hop.lt Hop.lexLt
  split_ifs <;> simp <;> omega

theorem Hop.lt_eq_false_iff (a b : Hop) :
    (a.lt b = false ∧ b.lt a = false) ↔ a = b := by
  have hab := Hop.lt_iff_lexLt a b
  have hba := Hop.lt_iff_lexLt b a
  unfold Hop.lexLt at hab hba
  constructor
  · rintro ⟨h1, h2⟩
    rw [h1] at hab
    rw [h2] at hba
    simp only [Bool.false_eq_true, false_iff] at hab hba
    cases a; cases b
    simp only [Hop.mk.injEq] at *
    omega
  · rintro rfl
    simp only [lt_self_iff_false, true_and, false_or, and_false, or_false] at hab
    simpa using hab

theorem HopSet.find_iff_mem (s : List Hop) (hop : Hop) :
    HopSet.find s hop = true ↔ hop ∈ s := by
  unfold HopSet.find
  rw [List.any_eq_true]
  constructor
  · rintro ⟨e, he, h⟩
    have : e = hop := (Hop.lt_eq_false_iff e hop).1 (by simpa using h)
    exact this ▸ he
  · intro h
    exact ⟨hop, h, by simpa using ((Hop.lt_eq_false_iff hop hop).2 rfl).1⟩

/-- C9: `Hop::operator<` is the lexicographic order on (from, to, cargo); it is
irreflexive and transitive, exactly one of `a < b`, `b < a` and agreement on
all three fields holds, and two hops are equivalent for the set (neither is
smaller) exactly when they agree on all three fields, so that `find` is
membership. -/
theorem Hop_lt_is_lexicographic_strict_total_order (a b c : Hop) :
    (a.lt b = true ↔
      (a.from_ < b.from_ ∨ (a.from_ = b.from_ ∧ a.to_ < b.to_) ∨
        (a.from_ = b.from_ ∧ a.to_ = b.to_ ∧ a.cargo < b.cargo))) ∧
    a.lt a = false ∧
    (a.lt b = true ∧ b.lt c = true → a.lt c = true) ∧
    ((a.lt b = true ∧ b.lt a = false ∧
        ¬(a.from_ = b.from_ ∧ a.to_ = b.to_ ∧ a.cargo = b.cargo)) ∨
      (a.lt b = false ∧ b.lt a = true ∧
        ¬(a.from_ = b.from_ ∧ a.to_ = b.to_ ∧ a.cargo = b.cargo)) ∨
      (a.lt b = false ∧ b.lt a = false ∧
        (a.from_ = b.from_ ∧ a.to_ = b.to_ ∧ a.cargo = b.cargo))) ∧
    ((a.lt b = false ∧ b.lt a = false) ↔
      (a.from_ = b.from_ ∧ a.to_ = b.to_ ∧ a.cargo = b.cargo)) ∧
    (∀ s : List Hop, HopSet.find s a = true ↔ a ∈ s) := by
  have hab := Hop.lt_iff_lexLt a b
  have hba := Hop.lt_iff_lexLt b a
  have hbc := Hop.lt_iff_lexLt b c
  have hac := Hop.lt_iff_lexLt a c
  have haa := Hop.lt_iff_lexLt a a
  unfold Hop.lexLt at hab hba hbc hac haa
  refine ⟨hab, ?_, ?_, ?_, ?_, fun s => HopSet.find_iff_mem s a⟩
  · cases h : a.lt a
    · rfl
    · have := haa.1 h
      omega
  · rintro ⟨h1, h2⟩
    have := hab.1 h1
    have := hbc.1 h2
    apply hac.2
    omega
  · cases h1 : a.lt b <;> cases h2 : b.lt a <;> rw [h1] at hab <;> rw [h2] at hba <;>
      simp only [Bool.false_eq_true, false_iff, true_iff] at hab hba <;>
      simp only [true_and, false_and, and_true, and_false, or_false, false_or,
        Bool.false_eq_true, Bool.true_eq_false] <;> omega
  · cases h1 : a.lt b <;> cases h2 : b.lt a <;> rw [h1] at hab <;> rw [h2] at hba <;>
      simp only [Bool.false_eq_true, false_iff, true_iff] at hab hba <;>
      simp only [true_and, false_and, and_true, and_false, or_false, false_or,
        Bool.false_eq_true, Bool.true_eq_false, false_iff, true_iff] <;> omega

/-! ## The capacities map -/

theorem CapacitiesMap.get_eq_zero_of_not_contains (m : CapacitiesMap) (c : Nat)
    (h : m.contains c = false) : m.get c = 0 := by
  induction m with
  | nil => rfl
  | cons e m ih =>
    obtain ⟨k, v⟩ := e
    simp only [CapacitiesMap.contains, List.any_cons, Bool.or_eq_false_iff, beq_eq_false_iff_ne,
      ne_eq] at h
    have hck : ¬ c = k := fun hc => h.1 hc.symm
    simp only [CapacitiesMap.get, hck, if_false]
    exact ih h.2

theorem CapacitiesMap.get_update (m : CapacitiesMap) (c d : Nat) (f : Nat → Nat)
    (h : m.contains c = true) :
    (m.update c f).get d = if d = c then f (m.get c) else m.get d := by
  induction m with
  | nil => simp [CapacitiesMap.contains] at h
  | cons e m ih =>
    obtain ⟨k, v⟩ := e
    by_cases hck : c = k
    · subst hck
      simp only [CapacitiesMap.update, if_true, CapacitiesMap.get]
      by_cases hd : d = c <;> simp [hd]
    · have hm : CapacitiesMap.contains m c = true := by
        simp only [CapacitiesMap.contains, List.any_cons, Bool.or_eq_true, beq_iff_eq] at h
        rcases h with h | h
        · exact absurd h.symm hck
        · exact h
      simp only [CapacitiesMap.update, hck, if_false, CapacitiesMap.get]
      rw [ih hm]
      by_cases hd : d = c
      · subst hd; simp [hck]
      · simp [hd]

theorem CapacitiesMap.get_insert (m : CapacitiesMap) (c d x : Nat)
    (h : m.contains c = false) :
    (m.insert c x).get d = if d = c then x else m.get d := by
  induction m with
  | nil => simp [CapacitiesMap.insert, CapacitiesMap.get]
  | cons e m ih =>
    obtain ⟨k, v⟩ := e
    simp only [CapacitiesMap.contains, List.any_cons, Bool.or_eq_false_iff, beq_eq_false_iff_ne,
      ne_eq] at h
    have hkc : ¬ c = k := fun hc => h.1 hc.symm
    by_cases hck : c < k
    · simp only [CapacitiesMap.insert, hck, if_true, CapacitiesMap.get]
    · simp only [CapacitiesMap.insert, hck, if_false, CapacitiesMap.get]
      rw [ih h.2]
      by_cases hd : d = c
      · subst hd
        simp [hkc]
      · simp [hd]

theorem CapacitiesMap.get_modify (m : CapacitiesMap) (c d : Nat) (f : Nat → Nat) :
    (m.modify c f).get d = if d = c then f (m.get c) else m.get d := by
  unfold CapacitiesMap.modify
  cases h : m.contains c
  · simp only [Bool.false_eq_true, if_false]
    rw [CapacitiesMap.get_insert m c d _ h, CapacitiesMap.get_eq_zero_of_not_contains m c h]
  · simp only [if_true]
    exact CapacitiesMap.get_update m c d f h

theorem wrapUint_lt (i : Int) : wrapUint i < 4294967296 := by
  unfold wrapUint; omega

/-! ## The tracker -/

@[simp] theorem sumRemaining_nil (c : Nat) : sumRemaining [] c = 0 := rfl

@[simp] theorem sumCapacity_nil (c : Nat) : sumCapacity [] c = 0 := rfl

theorem sumRemaining_cons (s : RefitDesc) (rest : List RefitDesc) (c : Nat) :
    sumRemaining (s :: rest) c = (if s.cargo = c then s.remaining else 0) + sumRemaining rest c := by
  unfold sumRemaining
  by_cases h : s.cargo = c <;> simp [List.filter_cons, h]

theorem sumCapacity_cons (s : RefitDesc) (rest : List RefitDesc) (c : Nat) :
    sumCapacity (s :: rest) c = (if s.cargo = c then s.capacity else 0) + sumCapacity rest c := by
  unfold sumCapacity
  by_cases h : s.cargo = c <;> simp [List.filter_cons, h]

theorem sumRemaining_append (l1 l2 : List RefitDesc) (c : Nat) :
    sumRemaining (l1 ++ l2) c = sumRemaining l1 c + sumRemaining l2 c := by
  unfold sumRemaining
  simp [List.filter_append]

theorem sumRemaining_restored (slots : List RefitDesc) (c : Nat) :
    sumRemaining (slots.map RefitDesc.restored) c = sumCapacity slots c := by
  induction slots with
  | nil => rfl
  | cons s rest ih =>
    rw [List.map_cons, sumRemaining_cons, sumCapacity_cons, ih]
    rfl

theorem resetRefitLoop_fst (slots : List RefitDesc) (caps : CapacitiesMap) :
    (resetRefitLoop slots caps).1 = slots.map RefitDesc.restored := by
  induction slots generalizing caps with
  | nil => rfl
  | cons it rest ih =>
    unfold resetRefitLoop
    by_cases h : it.remaining = it.capacity
    · simp only [h, if_true, List.map_cons, ih]
      congr 1
      cases it
      simp only [RefitDesc.restored] at *
      simp [h]
    · simp only [h, if_false, List.map_cons, ih]
      rfl

theorem resetRefitLoop_of_restored (slots : List RefitDesc) (caps : CapacitiesMap)
    (h : ∀ s ∈ slots, s.remaining = s.capacity) : resetRefitLoop slots caps = (slots, caps) := by
  induction slots generalizing caps with
  | nil => rfl
  | cons it rest ih =>
    have hit : it.remaining = it.capacity := h it (List.mem_cons_self _ _)
    unfold resetRefitLoop
    simp only [hit, if_true]
    rw [ih caps (fun s hs => h s (List.mem_cons_of_mem _ hs))]

/-- C10: `ResetRefit` is idempotent on every tracker state; after one call
every tracked unit has `remaining = capacity` with its cargo and capacity
unchanged, and the active cargo is unchanged. -/
theorem ResetRefit_idempotent (s : Tracker) :
    ResetRefit (ResetRefit s) = ResetRefit s ∧
    (ResetRefit s).refit_capacities =
      s.refit_capacities.map (fun d => ⟨d.cargo, d.capacity, d.capacity⟩) ∧
    (∀ d ∈ (ResetRefit s).refit_capacities, d.remaining = d.capacity) ∧
    (ResetRefit s).cargo = s.cargo := by
  have h1 : (ResetRefit s).refit_capacities = s.refit_capacities.map RefitDesc.restored :=
    resetRefitLoop_fst _ _
  have h2 : ∀ d ∈ (ResetRefit s).refit_capacities, d.remaining = d.capacity := by
    intro d hd
    rw [h1, List.mem_map] at hd
    obtain ⟨e, _, rfl⟩ := hd
    rfl
  refine ⟨?_, h1, h2, rfl⟩
  have h3 := resetRefitLoop_of_restored _ (ResetRefit s).capacities h2
  show ({ ResetRefit s with
      capacities := (resetRefitLoop (ResetRefit s).refit_capacities (ResetRefit s).capacities).2,
      refit_capacities :=
        (resetRefitLoop (ResetRefit s).refit_capacities (ResetRefit s).capacities).1 } : Tracker) =
    ResetRefit s
  rw [h3]

theorem CapacitiesMap.get_modify_sub (caps : CapacitiesMap) (k r c : Nat)
    (hr : caps.get k < 4294967296) (hle : r ≤ caps.get k) :
    (caps.modify k (fun x => wrapUint ((x : Int) - (r : Nat)))).get c =
      if c = k then caps.get k - r else caps.get c := by
  rw [CapacitiesMap.get_modify]
  by_cases h : c = k
  · simp only [h, if_true, wrapUint]
    omega
  · simp only [h, if_false]

theorem refit_slot_get (caps : CapacitiesMap) (s : RefitDesc) (cargo amount : Nat)
    (base rest : Nat → Nat)
    (hinv : ∀ c, caps.get c = base c + ((if s.cargo = c then s.remaining else 0) + rest c))
    (hr : InRange caps) (c : Nat) :
    (if cargo ≠ s.cargo ∧ s.remaining > 0 then
        caps.modify s.cargo (fun x => wrapUint ((x : Int) - s.remaining))
      else if amount < s.remaining then
        caps.modify s.cargo (fun x => wrapUint ((x : Int) - (s.remaining - amount : Nat)))
      else caps).get c =
      base c + ((if cargo = c then
        (if cargo ≠ s.cargo ∧ s.remaining > 0 then 0
          else if amount < s.remaining then amount else s.remaining) else 0) + rest c) ∧
    (if cargo ≠ s.cargo ∧ s.remaining > 0 then
        caps.modify s.cargo (fun x => wrapUint ((x : Int) - s.remaining))
      else if amount < s.remaining then
        caps.modify s.cargo (fun x => wrapUint ((x : Int) - (s.remaining - amount : Nat)))
      else caps).get c ≤ caps.get c := by
  have hs := hinv s.cargo
  have hc := hinv c
  have hrs := hr s.cargo
  rw [if_pos rfl] at hs
  by_cases h1 : cargo ≠ s.cargo ∧ s.remaining > 0
  · rw [if_pos h1, if_pos h1, CapacitiesMap.get_modify_sub caps s.cargo s.remaining c hrs (by omega)]
    obtain ⟨h1a, h1b⟩ := h1
    by_cases hcs : c = s.cargo
    · have h2 : ¬ cargo = c := fun h => h1a (h.trans hcs)
      rw [if_pos hcs, if_neg h2]
      rw [if_pos hcs.symm] at hc
      rw [hcs] at hc ⊢
      omega
    · have hcs2 : ¬ s.cargo = c := fun h => hcs h.symm
      rw [if_neg hcs]
      rw [if_neg hcs2] at hc
      split_ifs <;> omega
  · rw [if_neg h1, if_neg h1]
    by_cases h2 : amount < s.remaining
    · rw [if_pos h2, if_pos h2,
        CapacitiesMap.get_modify_sub caps s.cargo (s.remaining - amount) c hrs (by omega)]
      have h3 : cargo = s.cargo := by
        by_contra hne
        exact h1 ⟨hne, by omega⟩
      by_cases hcs : c = s.cargo
      · rw [if_pos hcs, if_pos (h3.trans hcs.symm)]
        rw [if_pos hcs.symm] at hc
        rw [hcs] at hc ⊢
        omega
      · have hcs2 : ¬ s.cargo = c := fun h => hcs h.symm
        have hcs3 : ¬ cargo = c := fun h => hcs2 (h3 ▸ h)
        rw [if_neg hcs, if_neg hcs3]
        rw [if_neg hcs2] at hc
        omega
    · rw [if_neg h2, if_neg h2]
      by_cases hcs : cargo = s.cargo
      · rw [hc, hcs]
        exact ⟨rfl, le_refl _⟩
      · have h0 : s.remaining = 0 := by
          by_contra hne
          exact h1 ⟨hcs, by omega⟩
        rw [hc, h0]
        simp

theorem handleRefitLoop_inv (cargo : Nat) (units : List VehicleUnit) :
    ∀ (slots : List RefitDesc) (caps : CapacitiesMap) (base : Nat → Nat)
      (r : List RefitDesc × CapacitiesMap),
      handleRefitLoop cargo units slots caps = some r →
      (∀ c, caps.get c = base c + sumRemaining slots c) → InRange caps →
      ∀ c, r.2.get c = base c + sumRemaining r.1 c ∧ r.2.get c ≤ caps.get c := by
  induction units with
  | nil =>
    intro slots caps base r h hinv _ c
    simp only [handleRefitLoop, Option.some.injEq] at h
    subst h
    exact ⟨hinv c, le_refl _⟩
  | cons v vs ih =>
    intro slots caps base r h hinv hr c
    cases slots with
    | nil => simp [handleRefitLoop] at h
    | cons s rest =>
      simp only [handleRefitLoop] at h
      by_cases hcap : HasBit v.refit_mask cargo = true
      · simp only [hcap, Bool.not_true, Bool.false_eq_true, if_false] at h
        have hstep := refit_slot_get caps s cargo (v.DetermineCapacity cargo).1 base
          (sumRemaining rest) (fun c => by rw [hinv c, sumRemaining_cons]) hr
        by_cases hair : v.type = VehicleType.VEH_AIRCRAFT
        · simp only [hair, if_true] at h
          cases rest with
          | nil => simp at h
          | cons m rest2 =>
            simp only at h
            have hm := (hstep m.cargo).1
            have hmr := lt_of_le_of_lt (hstep m.cargo).2 (hr m.cargo)
            have hcc := hstep c
            rw [sumRemaining_cons] at hm hcc
            rw [if_pos rfl] at hm
            by_cases hmail : (v.DetermineCapacity cargo).2 < m.remaining
            · rw [if_pos hmail, Option.some.injEq] at h
              subst h
              simp only [sumRemaining_cons]
              rw [CapacitiesMap.get_modify_sub _ _ _ _ hmr (by omega)]
              by_cases hcm : c = m.cargo
              · rw [if_pos hcm]
                rw [if_pos hcm.symm] at hcc ⊢
                rw [hcm] at hcc ⊢
                omega
              · have hcm2 : ¬ m.cargo = c := fun h => hcm h.symm
                rw [if_neg hcm]
                rw [if_neg hcm2] at hcc ⊢
                omega
            · rw [if_neg hmail, Option.some.injEq] at h
              subst h
              simp only [sumRemaining_cons]
              omega
        · simp only [hair, if_false, Option.map_eq_some'] at h
          obtain ⟨r1, hr1, rfl⟩ := h
          have hih := ih rest _
            (fun c => base c + (if cargo = c then
              (if cargo ≠ s.cargo ∧ s.remaining > 0 then 0
                else if (v.DetermineCapacity cargo).1 < s.remaining then
                  (v.DetermineCapacity cargo).1 else s.remaining) else 0))
            r1 hr1 (fun c => by rw [(hstep c).1]; beta_reduce; omega)
            (fun c => lt_of_le_of_lt (hstep c).2 (hr c)) c
          beta_reduce at hih
          simp only [sumRemaining_cons]
          have := (hstep c).2
          omega
      · simp only [hcap, Bool.not_false, if_true, Option.map_eq_some'] at h
        obtain ⟨r1, hr1, rfl⟩ := h
        have hih := ih rest caps (fun c => base c + (if s.cargo = c then s.remaining else 0))
          r1 hr1 (fun c => by rw [hinv c, sumRemaining_cons]; beta_reduce; omega) hr c
        beta_reduce at hih
        simp only [sumRemaining_cons]
        omega

theorem handleRefitLoop_isSome (cargo : Nat) (units : List VehicleUnit) :
    ∀ (slots : List RefitDesc) (caps : CapacitiesMap),
      slots.length = units.length → MailSlotPresent cargo units →
      ∃ r, handleRefitLoop cargo units slots caps = some r ∧ r.1.length = slots.length := by
  induction units with
  | nil =>
    intro slots caps _ _
    exact ⟨(slots, caps), by simp [handleRefitLoop], rfl⟩
  | cons v vs ih =>
    intro slots caps hlen hsafe
    cases slots with
    | nil => simp at hlen
    | cons s rest =>
      have hlen1 : rest.length = vs.length := by simpa using hlen
      simp only [handleRefitLoop]
      by_cases hair : HasBit v.refit_mask cargo = true ∧ v.type = VehicleType.VEH_AIRCRAFT
      · simp only [hair.1, hair.2, Bool.not_true, Bool.false_eq_true, if_false, if_true]
        simp only [MailSlotPresent, hair, and_self, if_true] at hsafe
        cases rest with
        | nil =>
          exact absurd (List.length_eq_zero.1 hlen1.symm) hsafe
        | cons m rest2 =>
          simp only
          split_ifs <;> exact ⟨_, rfl, rfl⟩
      · have hsafe1 : MailSlotPresent cargo vs := by
          simpa only [MailSlotPresent, hair, if_false] using hsafe
        by_cases hcap : HasBit v.refit_mask cargo = true
        · have hna : ¬ v.type = VehicleType.VEH_AIRCRAFT := fun h => hair ⟨hcap, h⟩
          simp only [hcap, hna, Bool.not_true, Bool.false_eq_true, if_false]
          obtain ⟨r, hr, hrl⟩ := ih rest _ hlen1 hsafe1
          rw [hr]
          exact ⟨_, rfl, by simp [hrl]⟩
        · simp only [hcap, Bool.not_false, if_true]
          obtain ⟨r, hr, hrl⟩ := ih rest caps hlen1 hsafe1
          rw [hr]
          exact ⟨_, rfl, by simp [hrl]⟩

theorem HandleRefit_isSome (units : List VehicleUnit) (cargo : Nat) (t : Tracker)
    (hlen : t.refit_capacities.length = units.length) (hsafe : MailSlotPresent cargo units) :
    ∃ t1, HandleRefit units cargo t = some t1 ∧
      t1.refit_capacities.length = t.refit_capacities.length ∧ t1.cargo = cargo := by
  obtain ⟨r, hr, hrl⟩ := handleRefitLoop_isSome cargo units t.refit_capacities t.capacities hlen hsafe
  refine ⟨⟨r.2, r.1, cargo⟩, ?_, hrl, rfl⟩
  unfold HandleRefit
  rw [hr]
  rfl

theorem resetRefitLoop_get (slots : List RefitDesc) :
    ∀ (caps : CapacitiesMap) (c : Nat),
      (((resetRefitLoop slots caps).2.get c : Nat) : Int) % 4294967296 =
        ((caps.get c : Int) + sumCapacity slots c - sumRemaining slots c) % 4294967296 ∧
      (((resetRefitLoop slots caps).2.get c = caps.get c ∧
          sumCapacity slots c = sumRemaining slots c) ∨
        (resetRefitLoop slots caps).2.get c < 4294967296) := by
  induction slots with
  | nil =>
    intro caps c
    simp [resetRefitLoop]
  | cons it rest ih =>
    intro caps c
    unfold resetRefitLoop
    rw [sumCapacity_cons, sumRemaining_cons]
    by_cases h : it.remaining = it.capacity
    · simp only [h, if_true]
      obtain ⟨h1, h2⟩ := ih caps c
      refine ⟨?_, ?_⟩
      · rw [h1]; congr 1; omega
      · rcases h2 with h2 | h2
        · left; exact ⟨h2.1, by omega⟩
        · right; exact h2
    · simp only [h, if_false]
      obtain ⟨h1, h2⟩ := ih
        (caps.modify it.cargo (fun x => wrapUint ((x : Int) + ((it.capacity : Int) - it.remaining)))) c
      rw [CapacitiesMap.get_modify] at h1 h2
      by_cases hc : c = it.cargo
      · rw [if_pos hc] at h1 h2
        rw [if_pos hc.symm, if_pos hc.symm]
        have hw := wrapUint_lt ((caps.get it.cargo : Int) + ((it.capacity : Int) - it.remaining))
        refine ⟨?_, ?_⟩
        · rw [h1]
          subst hc
          unfold wrapUint
          omega
        · right
          rcases h2 with h2 | h2
          · rw [h2.1]; exact hw
          · exact h2
      · have hc2 : ¬ it.cargo = c := fun h => hc h.symm
        rw [if_neg hc] at h1 h2
        rw [if_neg hc2, if_neg hc2]
        refine ⟨?_, ?_⟩
        · rw [h1]; congr 1; omega
        · rcases h2 with h2 | h2
          · left; exact ⟨h2.1, by omega⟩
          · right; exact h2

theorem ctorLoop_spec (units : List VehicleUnit) :
    ∀ (caps : CapacitiesMap) (refits : List RefitDesc) (c : Nat),
      (ctorLoop units caps refits).2 = refits ++ units.map RefitDesc.ofUnit ∧
      (((ctorLoop units caps refits).1.get c : Nat) : Int) % 4294967296 =
        ((caps.get c : Int) + sumRemaining (units.map RefitDesc.ofUnit) c) % 4294967296 ∧
      (((ctorLoop units caps refits).1.get c = caps.get c ∧
          sumRemaining (units.map RefitDesc.ofUnit) c = 0) ∨
        (ctorLoop units caps refits).1.get c < 4294967296) := by
  induction units with
  | nil =>
    intro caps refits c
    simp [ctorLoop]
  | cons v vs ih =>
    intro caps refits c
    unfold ctorLoop
    rw [List.map_cons, sumRemaining_cons]
    obtain ⟨h0, h1, h2⟩ := ih
      (if v.refit_cap > 0 then
        caps.modify v.cargo_type (fun x => wrapUint ((x : Int) + v.refit_cap)) else caps)
      (refits ++ [⟨v.cargo_type, v.cargo_cap, v.refit_cap⟩]) c
    refine ⟨?_, ?_, ?_⟩
    · rw [h0]; simp [RefitDesc.ofUnit]
    · rw [h1]
      by_cases hpos : v.refit_cap > 0
      · rw [if_pos hpos, CapacitiesMap.get_modify]
        by_cases hc : c = v.cargo_type
        · subst hc
          simp only [RefitDesc.ofUnit, if_true, wrapUint]
          omega
        · have hc2 : ¬ v.cargo_type = c := fun h => hc h.symm
          simp only [RefitDesc.ofUnit, hc, hc2, if_false]
          congr 1; omega
      · rw [if_neg hpos]
        have h0 : v.refit_cap = 0 := by omega
        simp only [RefitDesc.ofUnit, h0]
        congr 1
        split_ifs <;> omega
    · by_cases hpos : v.refit_cap > 0
      · rw [if_pos hpos] at h2 ⊢
        rw [CapacitiesMap.get_modify] at h2
        by_cases hc : c = v.cargo_type
        · rw [if_pos hc] at h2
          right
          rcases h2 with h2 | h2
          · rw [h2.1]; exact wrapUint_lt _
          · exact h2
        · have hc2 : ¬ v.cargo_type = c := fun h => hc h.symm
          rw [if_neg hc] at h2
          simp only [RefitDesc.ofUnit, hc2, if_false]
          rcases h2 with h2 | h2
          · left; exact ⟨h2.1, by omega⟩
          · right; exact h2
      · rw [if_neg hpos] at h2 ⊢
        have h0 : v.refit_cap = 0 := by omega
        rcases h2 with h2 | h2
        · left
          refine ⟨h2.1, ?_⟩
          simp only [RefitDesc.ofUnit, h0]
          split_ifs <;> omega
        · right; exact h2

theorem Tracker.new_refit_capacities (units : List VehicleUnit) :
    (Tracker.new units).refit_capacities = units.map RefitDesc.ofUnit := by
  have := (ctorLoop_spec units [] [] 0).1
  simpa [Tracker.new] using this

theorem Tracker.new_inv (units : List VehicleUnit)
    (h : ∀ c, sumRemaining (units.map RefitDesc.ofUnit) c < 4294967296) :
    TrackerInv (Tracker.new units) ∧ InRange (Tracker.new units).capacities := by
  have key : ∀ c, (Tracker.new units).capacities.get c =
      sumRemaining (units.map RefitDesc.ofUnit) c := by
    intro c
    obtain ⟨_, h1, h2⟩ := ctorLoop_spec units [] [] c
    have hc := h c
    show (ctorLoop units [] []).1.get c = _
    simp only [CapacitiesMap.get] at h1 h2
    rcases h2 with h2 | h2 <;> omega
  refine ⟨fun c => ?_, fun c => ?_⟩
  · rw [key c, Tracker.new_refit_capacities]
  · rw [key c]; exact h c

theorem HandleRefit_inv (units : List VehicleUnit) (cargo : Nat) (t t1 : Tracker)
    (hinv : TrackerInv t) (hr : InRange t.capacities) (h : HandleRefit units cargo t = some t1) :
    TrackerInv t1 ∧ InRange t1.capacities ∧ ∀ c, t1.capacities.get c ≤ t.capacities.get c := by
  unfold HandleRefit at h
  rw [Option.map_eq_some'] at h
  obtain ⟨r, hr1, rfl⟩ := h
  have key := handleRefitLoop_inv cargo units t.refit_capacities t.capacities (fun _ => 0) r hr1
    (fun c => by rw [hinv c]; beta_reduce; omega) hr
  refine ⟨fun c => ?_, fun c => ?_, fun c => (key c).2⟩
  · have := (key c).1
    beta_reduce at this
    show r.2.get c = sumRemaining r.1 c
    omega
  · exact lt_of_le_of_lt (key c).2 (hr c)

theorem ResetRefit_inv (t : Tracker) (hinv : TrackerInv t)
    (h : ∀ c, sumCapacity t.refit_capacities c < 4294967296) :
    TrackerInv (ResetRefit t) ∧ InRange (ResetRefit t).capacities ∧
      ∀ c, (ResetRefit t).capacities.get c = sumCapacity t.refit_capacities c := by
  have key : ∀ c, (ResetRefit t).capacities.get c = sumCapacity t.refit_capacities c := by
    intro c
    obtain ⟨h1, h2⟩ := resetRefitLoop_get t.refit_capacities t.capacities c
    have hc := h c
    have hi := hinv c
    show (resetRefitLoop t.refit_capacities t.capacities).2.get c = _
    rcases h2 with h2 | h2 <;> omega
  refine ⟨fun c => ?_, fun c => ?_, key⟩
  · rw [key c]
    show _ = sumRemaining (resetRefitLoop t.refit_capacities t.capacities).1 c
    rw [resetRefitLoop_fst, sumRemaining_restored]
  · rw [key c]; exact h c

/-- C2: the tracker invariant (each bucket of the capacities map is the sum of
`remaining` over the tracked units of that cargo, buckets being `uint`): the
constructor records one entry per unit, in consist order, and establishes the
invariant when the sums fit a `uint`; `HandleRefit` returns whenever the
tracker has one entry per unit and its aircraft branch, if taken, has a next
entry, and preserves the invariant; `ResetRefit` preserves it when the sums
of nominal capacities fit a `uint`. -/
theorem tracker_invariant_established_and_preserved (units : List VehicleUnit) (cargo : Nat)
    (t : Tracker) :
    ((∀ c, sumRemaining (units.map RefitDesc.ofUnit) c < 4294967296) →
      (Tracker.new units).refit_capacities =
        units.map (fun v => ⟨v.cargo_type, v.cargo_cap, v.refit_cap⟩) ∧
      TrackerInv (Tracker.new units) ∧ InRange (Tracker.new units).capacities) ∧
    (TrackerInv t → InRange t.capacities →
      (∀ t1, HandleRefit units cargo t = some t1 → TrackerInv t1 ∧ InRange t1.capacities) ∧
      (t.refit_capacities.length = units.length → MailSlotPresent cargo units →
        ∃ t1, HandleRefit units cargo t = some t1)) ∧
    (TrackerInv t → (∀ c, sumCapacity t.refit_capacities c < 4294967296) →
      TrackerInv (ResetRefit t) ∧ InRange (ResetRefit t).capacities) := by
  refine ⟨fun h => ⟨Tracker.new_refit_capacities units, Tracker.new_inv units h⟩, ?_, ?_⟩
  · intro hinv hr
    refine ⟨fun t1 h => ?_, fun hlen hsafe => ?_⟩
    · obtain ⟨h1, h2, _⟩ := HandleRefit_inv units cargo t t1 hinv hr h
      exact ⟨h1, h2⟩
    · obtain ⟨t1, h1, _⟩ := HandleRefit_isSome units cargo t hlen hsafe
      exact ⟨t1, h1⟩
  · intro hinv h
    obtain ⟨h1, h2, _⟩ := ResetRefit_inv t hinv h
    exact ⟨h1, h2⟩

theorem sumRemaining_single_lt (d : RefitDesc) (h : d.remaining < 4294967296) (c : Nat) :
    sumRemaining [d] c < 4294967296 := by
  rw [sumRemaining_cons, sumRemaining_nil]
  split_ifs <;> omega

theorem sumCapacity_single_lt (d : RefitDesc) (h : d.capacity < 4294967296) (c : Nat) :
    sumCapacity [d] c < 4294967296 := by
  rw [sumCapacity_cons, sumCapacity_nil]
  split_ifs <;> omega

/-- Witness for C2 on the scenario consist: the fresh tracker satisfies the
invariant, the refit to cargo 7 returns and keeps it, and so does the reset
that follows. -/
theorem tracker_invariant_witness :
    TrackerInv (Tracker.new [scenarioUnit]) ∧
    HandleRefit [scenarioUnit] 7 (Tracker.new [scenarioUnit]) =
      some ⟨[(3, 0)], [⟨7, 80, 0⟩], 7⟩ ∧
    TrackerInv ⟨[(3, 0)], [⟨7, 80, 0⟩], 7⟩ ∧
    ResetRefit ⟨[(3, 0)], [⟨7, 80, 0⟩], 7⟩ = ⟨[(3, 0), (7, 80)], [⟨7, 80, 80⟩], 7⟩ ∧
    TrackerInv (ResetRefit ⟨[(3, 0)], [⟨7, 80, 0⟩], 7⟩) := by
  have hnew := (tracker_invariant_established_and_preserved [scenarioUnit] 7
    (Tracker.new [scenarioUnit])).1
    (sumRemaining_single_lt (RefitDesc.ofUnit scenarioUnit) (by decide))
  have hrefit : HandleRefit [scenarioUnit] 7 (Tracker.new [scenarioUnit]) =
      some ⟨[(3, 0)], [⟨7, 80, 0⟩], 7⟩ := by decide
  have hkeep := ((tracker_invariant_established_and_preserved [scenarioUnit] 7
    (Tracker.new [scenarioUnit])).2.1 hnew.2.1 hnew.2.2).1 _ hrefit
  have hreset := (tracker_invariant_established_and_preserved [scenarioUnit] 7
    ⟨[(3, 0)], [⟨7, 80, 0⟩], 7⟩).2.2 hkeep.1
    (sumCapacity_single_lt ⟨7, 80, 0⟩ (by decide))
  exact ⟨hnew.2.1, hrefit, hkeep.1, by decide, hreset.1⟩

theorem applyRefits_inv (units : List VehicleUnit) (refits : List Nat) :
    ∀ (t t1 : Tracker), TrackerInv t → InRange t.capacities →
      applyRefits units refits t = some t1 → TrackerInv t1 ∧ InRange t1.capacities := by
  induction refits with
  | nil =>
    intro t t1 hinv hr h
    simp only [applyRefits, Option.some.injEq] at h
    subst h
    exact ⟨hinv, hr⟩
  | cons cargo rest ih =>
    intro t t1 hinv hr h
    simp only [applyRefits] at h
    cases h2 : HandleRefit units cargo t with
    | none => simp [h2] at h
    | some t2 =>
      simp only [h2] at h
      obtain ⟨h3, h4, _⟩ := HandleRefit_inv units cargo t t2 hinv hr h2
      exact ih t2 t1 h3 h4 h

/-- C3, counterexample: on the scenario consist (one unit, 100 of cargo 3)
the fresh tracker holds 100 for cargo 3; after the refit to cargo 7 and
`ResetRefit` the map holds 0 for cargo 3 and 80 for cargo 7. -/
theorem capacity_baseline_not_restored :
    (Tracker.new [scenarioUnit]).capacities = [(3, 100)] ∧
    (applyRefits [scenarioUnit] [7] (Tracker.new [scenarioUnit])).map
      (fun t => (ResetRefit t).capacities) = some [(3, 0), (7, 80)] ∧
    ¬ (∀ t1, applyRefits [scenarioUnit] [7] (Tracker.new [scenarioUnit]) = some t1 →
        ∀ c, (ResetRefit t1).capacities.get c = (Tracker.new [scenarioUnit]).capacities.get c) := by
  refine ⟨by decide, by decide, fun h => ?_⟩
  have h3 := h ⟨[(3, 0)], [⟨7, 80, 0⟩], 7⟩ (by decide) 3
  revert h3
  decide

/-- C3, amended: for every consist whose recorded capacities fit a `uint` and
every sequence of `HandleRefit` calls on the fresh tracker, a following
`ResetRefit` leaves each bucket equal to the sum of the nominal capacities of
the tracked units that hold that cargo after the refits (provided these sums
fit a `uint`), and every tracked unit has `remaining = capacity`. -/
theorem capacity_after_reset (units : List VehicleUnit) (refits : List Nat) (t1 : Tracker)
    (hfit : ∀ c, sumRemaining (units.map RefitDesc.ofUnit) c < 4294967296)
    (h : applyRefits units refits (Tracker.new units) = some t1)
    (hcap : ∀ c, sumCapacity t1.refit_capacities c < 4294967296) :
    (∀ c, (ResetRefit t1).capacities.get c = sumCapacity t1.refit_capacities c) ∧
    (ResetRefit t1).refit_capacities = t1.refit_capacities.map RefitDesc.restored := by
  obtain ⟨h1, h2⟩ := Tracker.new_inv units hfit
  obtain ⟨h3, _⟩ := applyRefits_inv units refits _ t1 h1 h2 h
  exact ⟨(ResetRefit_inv t1 h3 hcap).2.2, resetRefitLoop_fst _ _⟩

/-- Witness for the amended C3 on the scenario consist and the refit to
cargo 7. -/
theorem capacity_after_reset_witness :
    (∀ c, (ResetRefit ⟨[(3, 0)], [⟨7, 80, 0⟩], 7⟩).capacities.get c =
      sumCapacity [⟨7, 80, 0⟩] c) ∧
    (ResetRefit ⟨[(3, 0)], [⟨7, 80, 0⟩], 7⟩).refit_capacities =
      [(⟨7, 80, 0⟩ : RefitDesc)].map RefitDesc.restored :=
  capacity_after_reset [scenarioUnit] [7] ⟨[(3, 0)], [⟨7, 80, 0⟩], 7⟩
    (sumRemaining_single_lt (RefitDesc.ofUnit scenarioUnit) (by decide))
    (by decide)
    (sumCapacity_single_lt ⟨7, 80, 0⟩ (by decide))

/-! ## The statistics update -/

theorem mem_RefreshStats (stations : StationPool) (allow_merge : Bool) (capacities : CapacitiesMap)
    (cur next : Order) (call : StatsCall)
    (h : call ∈ RefreshStats stations allow_merge capacities cur next) :
    (stations.IsValid cur.GetDestination = true ∧ next.GetDestination ≠ INVALID_STATION ∧
      next.GetDestination ≠ cur.GetDestination) ∧
    (call.cargo, call.capacity) ∈ capacities ∧ call.capacity ≠ 0 ∧
    (allow_merge = false →
      stations.link_graph cur.GetDestination call.cargo =
        stations.link_graph next.GetDestination call.cargo) ∧
    call.st = cur.GetDestination ∧ call.next_station_id = next.GetDestination ∧
    call.mode = (if cur.GetLoadType &&& OLFB_NO_LOAD = 0 then EdgeUpdateMode.REFRESH_UNRESTRICTED
      else EdgeUpdateMode.REFRESH_RESTRICTED) := by
  unfold RefreshStats at h
  simp only at h
  by_cases hg : stations.IsValid cur.GetDestination = true ∧
      next.GetDestination ≠ INVALID_STATION ∧ next.GetDestination ≠ cur.GetDestination
  · rw [if_pos hg, List.mem_filterMap] at h
    obtain ⟨i, hi, hcall⟩ := h
    by_cases h0 : i.2 = 0
    · rw [if_pos h0] at hcall
      exact absurd hcall (by simp)
    · rw [if_neg h0] at hcall
      by_cases hm : (!allow_merge) = true ∧
          stations.link_graph cur.GetDestination i.1 ≠ stations.link_graph next.GetDestination i.1
      · rw [if_pos hm] at hcall
        exact absurd hcall (by simp)
      · rw [if_neg hm, Option.some.injEq] at hcall
        subst hcall
        refine ⟨hg, hi, h0, ?_, rfl, rfl, rfl⟩
        intro ham
        by_contra hne
        exact hm ⟨by simp [ham], hne⟩
  · rw [if_neg hg] at h
    exact absurd h (List.not_mem_nil _)

/-- C6: with `allow_merge = false` every `IncreaseStats` call of `RefreshStats`
is for a cargo whose link graph at the origin station equals the one at the
destination station; with `allow_merge = true` the calls do not depend on the
link graphs of the stations. -/
theorem RefreshStats_merge_policy (valid : Nat → Bool) (lg lg1 : Nat → Nat → Nat)
    (capacities : CapacitiesMap) (cur next : Order) :
    (∀ call ∈ RefreshStats ⟨valid, lg⟩ false capacities cur next,
      call.st = cur.GetDestination ∧ call.next_station_id = next.GetDestination ∧
      lg call.st call.cargo = lg call.next_station_id call.cargo) ∧
    RefreshStats ⟨valid, lg⟩ true capacities cur next =
      RefreshStats ⟨valid, lg1⟩ true capacities cur next := by
  refine ⟨fun call h => ?_, ?_⟩
  · obtain ⟨_, _, _, h4, h5, h6, _⟩ := mem_RefreshStats _ _ _ _ _ _ h
    refine ⟨h5, h6, ?_⟩
    rw [h5, h6]
    exact h4 rfl
  · simp [RefreshStats]

/-- Witness for C6 on the scenario orders `A` and `B`: with merging disallowed
the call for cargo 7 is made when both stations are in link graph 5, and none
when station 2 is in another link graph; with merging allowed the two
assignments give the same calls. -/
theorem RefreshStats_merge_policy_witness :
    RefreshStats ⟨fun _ => true, fun _ _ => 5⟩ false [(3, 0), (7, 80)] scenarioA scenarioB =
      [⟨1, 7, 2, 80, EdgeUpdateMode.REFRESH_UNRESTRICTED⟩] ∧
    RefreshStats ⟨fun _ => true, fun s _ => s⟩ false [(3, 0), (7, 80)] scenarioA scenarioB = [] ∧
    RefreshStats ⟨fun _ => true, fun _ _ => 5⟩ true [(3, 0), (7, 80)] scenarioA scenarioB =
      RefreshStats ⟨fun _ => true, fun s _ => s⟩ true [(3, 0), (7, 80)] scenarioA scenarioB :=
  ⟨by decide, by decide,
    (RefreshStats_merge_policy (fun _ => true) (fun _ _ => 5) (fun s _ => s) [(3, 0), (7, 80)]
      scenarioA scenarioB).2⟩

/-- C7: every `IncreaseStats` call of `RefreshStats(cur, next)` is tagged
restricted exactly when the load type of `cur` has the `OLFB_NO_LOAD` bit, and
unrestricted otherwise; all calls of one invocation carry the same tag. -/
theorem RefreshStats_restricted_tag (stations : StationPool) (allow_merge : Bool)
    (capacities : CapacitiesMap) (cur next : Order) :
    (∀ call ∈ RefreshStats stations allow_merge capacities cur next,
      (call.mode = EdgeUpdateMode.REFRESH_RESTRICTED ↔ cur.GetLoadType &&& OLFB_NO_LOAD ≠ 0) ∧
      (call.mode = EdgeUpdateMode.REFRESH_UNRESTRICTED ↔ cur.GetLoadType &&& OLFB_NO_LOAD = 0)) ∧
    (∀ call ∈ RefreshStats stations allow_merge capacities cur next,
      ∀ call1 ∈ RefreshStats stations allow_merge capacities cur next, call.mode = call1.mode) := by
  refine ⟨fun call h => ?_, fun call h call1 h1 => ?_⟩
  · have hm := (mem_RefreshStats _ _ _ _ _ _ h).2.2.2.2.2.2
    rw [hm]
    by_cases hb : cur.GetLoadType &&& OLFB_NO_LOAD = 0 <;> simp [hb]
  · rw [(mem_RefreshStats _ _ _ _ _ _ h).2.2.2.2.2.2,
      (mem_RefreshStats _ _ _ _ _ _ h1).2.2.2.2.2.2]

/-- Witness for C7: the scenario order `A` (load type 0) gives an unrestricted
call, the same order with load type `OLFB_NO_LOAD` a restricted one. -/
theorem RefreshStats_restricted_tag_witness :
    RefreshStats ⟨fun _ => true, fun _ _ => 0⟩ true [(3, 0), (7, 80)] scenarioA scenarioB =
      [⟨1, 7, 2, 80, EdgeUpdateMode.REFRESH_UNRESTRICTED⟩] ∧
    RefreshStats ⟨fun _ => true, fun _ _ => 0⟩ true [(3, 0), (7, 80)]
      { scenarioA with GetLoadType := OLFB_NO_LOAD } scenarioB =
      [⟨1, 7, 2, 80, EdgeUpdateMode.REFRESH_RESTRICTED⟩] ∧
    ((⟨1, 7, 2, 80, EdgeUpdateMode.REFRESH_UNRESTRICTED⟩ : StatsCall).mode =
        EdgeUpdateMode.REFRESH_UNRESTRICTED ↔ scenarioA.GetLoadType &&& OLFB_NO_LOAD = 0) :=
  ⟨by decide, by decide,
    ((RefreshStats_restricted_tag ⟨fun _ => true, fun _ _ => 0⟩ true [(3, 0), (7, 80)]
      scenarioA scenarioB).1 ⟨1, 7, 2, 80, EdgeUpdateMode.REFRESH_UNRESTRICTED⟩ (by decide)).2⟩

/-! ## The driver -/

/-- C8: when the vehicle has no order list, or `GetNextDecisionNode` gives no
order for the order at `cur_implicit_order_index` and depth 0, `Run` returns
for every budget with no refresher built, an empty hop set and no event, so
no gateway call. -/
theorem Run_empty_program_noop (fuel : Nat) (stations : StationPool) (v : Vehicle)
    (allow_merge : Bool)
    (h : v.orders = none ∨ ∃ ol, v.orders = some ol ∧
      ol.GetNextDecisionNode (v.GetOrder v.cur_implicit_order_index) 0 = none) :
    Run fuel stations v allow_merge = Outcome.done ⟨none, [], []⟩ ∧
    gatewayCalls (RunResult.mk none [] []).trace = [] := by
  refine ⟨?_, rfl⟩
  rcases h with h | ⟨ol, h1, h2⟩
  · simp only [Run, h]
  · simp only [Run, h1, h2]

/-- Witness for C8: a vehicle without an order list, and a vehicle whose
order program is empty. -/
theorem Run_empty_program_noop_witness :
    (Run 0 (scenarioStations (fun _ _ => 0)) ⟨[scenarioUnit], none, 0, 1⟩ true =
        Outcome.done ⟨none, [], []⟩ ∧
      gatewayCalls (RunResult.mk none [] []).trace = []) ∧
    (Run 0 (scenarioStations (fun _ _ => 0)) ⟨[scenarioUnit], some (OrderList.ofList []), 0, 1⟩
        true = Outcome.done ⟨none, [], []⟩ ∧
      gatewayCalls (RunResult.mk none [] []).trace = []) :=
  ⟨Run_empty_program_noop 0 _ ⟨[scenarioUnit], none, 0, 1⟩ true (Or.inl rfl),
   Run_empty_program_noop 0 _ ⟨[scenarioUnit], some (OrderList.ofList []), 0, 1⟩ true
     (Or.inr ⟨OrderList.ofList [], rfl, rfl⟩)⟩

/-! ## The walker: the hop set only grows -/

theorem Shared.Grows.refl (sh : Shared) : sh.Grows sh :=
  ⟨[], [], by simp, by simp, rfl, List.Sublist.refl _, by simp, List.nodup_nil⟩

theorem Shared.Grows.trans {a b c : Shared} (h1 : a.Grows b) (h2 : b.Grows c) : a.Grows c := by
  obtain ⟨n1, t1, hs1, ht1, hi1, hst1, hd1, hn1⟩ := h1
  obtain ⟨n2, t2, hs2, ht2, hi2, hst2, hd2, hn2⟩ := h2
  refine ⟨n1 ++ n2, t1 ++ t2, ?_, ?_, ?_, ?_, ?_, ?_⟩
  · rw [hs2, hs1, List.append_assoc]
  · rw [ht2, ht1, List.append_assoc]
  · rw [insertedHops, List.filterMap_append]
    exact congrArg₂ _ hi1 hi2
  · rw [statsHops, List.filterMap_append]
    exact List.Sublist.append hst1 hst2
  · intro h hh
    rcases List.mem_append.1 hh with hh | hh
    · exact hd1 h hh
    · intro hmem
      exact hd2 h hh (by rw [hs1]; exact List.mem_append_left _ hmem)
  · rw [List.nodup_append]
    refine ⟨hn1, hn2, ?_⟩
    intro h hh1 hh2
    exact hd2 h hh2 (by rw [hs1]; exact List.mem_append_right _ hh1)

theorem Shared.Grows.record (sh : Shared) (es : List Event) (hi : insertedHops es = [])
    (hs : statsHops es = []) : sh.Grows (sh.record es) :=
  ⟨[], es, by simp [Shared.record], rfl, hi, by rw [hs], by simp, List.nodup_nil⟩

theorem insertedHops_increase (calls : List StatsCall) :
    insertedHops (calls.map Event.increase) = [] := by
  induction calls with
  | nil => rfl
  | cons c cs ih => simp [insertedHops]

theorem statsHops_increase (calls : List StatsCall) :
    statsHops (calls.map Event.increase) = [] := by
  induction calls with
  | nil => rfl
  | cons c cs ih => simp [statsHops]

theorem ResetRefit_cargo (t : Tracker) : (ResetRefit t).cargo = t.cargo := rfl

theorem refitStep_grows (units : List VehicleUnit) (next : Order) (t : Tracker)
    (flags : RefreshFlags) (sh : Shared) (r : Tracker × RefreshFlags × Shared)
    (h : refitStep units next t flags sh = some r) :
    sh.Grows r.2.2 ∧ r.2.2.seen_hops = sh.seen_hops ∧
      (r.1.cargo = t.cargo ∨ r.1.cargo = next.GetRefitCargo) := by
  unfold refitStep at h
  simp only [Option.map_eq_some'] at h
  obtain ⟨x, hx, rfl⟩ := h
  split_ifs at hx with hc
  · rw [Option.map_eq_some'] at hx
    obtain ⟨t1, ht1, rfl⟩ := hx
    refine ⟨Shared.Grows.record sh _ rfl rfl, rfl, Or.inr ?_⟩
    unfold HandleRefit at ht1
    rw [Option.map_eq_some'] at ht1
    obtain ⟨_, _, rfl⟩ := ht1
    rfl
  · simp only [Option.some.injEq] at hx
    subst hx
    exact ⟨Shared.Grows.refl sh, rfl, Or.inl rfl⟩

theorem cargoStep_spec (stations : StationPool) (allow_merge : Bool) (cur next : Order)
    (t : Tracker) (flags : RefreshFlags) (sh : Shared) :
    ∃ tr, (cargoStep stations allow_merge cur next t flags sh).2.2 = sh.record tr ∧
      insertedHops tr = [] ∧
      (statsHops tr = [] ∨ statsHops tr = [⟨cur.index, next.index, t.cargo⟩]) ∧
      (cargoStep stations allow_merge cur next t flags sh).1.cargo = t.cargo := by
  unfold cargoStep
  simp only
  have hcargo : (if flags.RESET_REFIT = true then ResetRefit t else t).cargo = t.cargo := by
    split_ifs <;> rfl
  by_cases hr : flags.RESET_REFIT = true
  · simp only [hr, if_true]
    split_ifs
    · refine ⟨[Event.reset] ++ ([Event.leave cur flags.HAS_CARGO true, Event.stats cur next (ResetRefit t)] ++
        (RefreshStats stations allow_merge (ResetRefit t).capacities cur next).map Event.increase),
        ?_, ?_, ?_, rfl⟩
      · simp [Shared.record]
      · simp only [insertedHops, List.filterMap_append]
        simp [insertedHops]
      · right
        simp only [statsHops, List.filterMap_append]
        simp [statsHops, ResetRefit_cargo]
    · exact ⟨[Event.reset] ++ [Event.leave cur flags.HAS_CARGO false], by simp [Shared.record], rfl, Or.inl rfl, rfl⟩
    · exact ⟨[Event.reset], rfl, rfl, Or.inl rfl, rfl⟩
  · simp only [hr, Bool.false_eq_true, if_false]
    split_ifs
    · refine ⟨[Event.leave cur flags.HAS_CARGO true, Event.stats cur next t] ++
        (RefreshStats stations allow_merge t.capacities cur next).map Event.increase,
        rfl, ?_, ?_, rfl⟩
      · simp only [insertedHops, List.filterMap_append]
        simp [insertedHops]
      · right
        simp only [statsHops, List.filterMap_append]
        simp [statsHops]
    · exact ⟨[Event.leave cur _ false], rfl, rfl, Or.inl rfl, rfl⟩
    · exact ⟨[], by simp [Shared.record], rfl, Or.inl rfl, rfl⟩

theorem Shared.record_nil (sh : Shared) : sh.record [] = sh := by
  simp [Shared.record]

theorem Shared.Grows.insert (sh : Shared) (hop : Hop) (tr : List Event)
    (hnew : hop ∉ sh.seen_hops) (hi : insertedHops tr = [])
    (hs : statsHops tr = [] ∨ statsHops tr = [hop]) :
    sh.Grows (Shared.record ⟨sh.seen_hops ++ [hop], sh.trace ++ [Event.insert hop]⟩ tr) := by
  refine ⟨[hop], [Event.insert hop] ++ tr, rfl, by simp [Shared.record], ?_, ?_, ?_,
    List.nodup_singleton hop⟩
  · rw [insertedHops, List.filterMap_append]
    rw [insertedHops] at hi
    rw [hi]
    rfl
  · rw [statsHops, List.filterMap_append]
    rw [statsHops] at hs
    rcases hs with hs | hs <;> rw [hs] <;> simp
  · intro h hh
    rw [List.mem_singleton] at hh
    rw [hh]
    exact hnew

theorem walker_grows (stations : StationPool) (units : List VehicleUnit) (ol : OrderList)
    (allow_merge : Bool) (fuel : Nat) :
    (∀ t sh cur next flags n r,
      RefreshLinks stations units ol allow_merge fuel t sh cur next flags n = Outcome.done r →
      sh.Grows r.2) ∧
    (∀ t sh cur next flags n r,
      PredictNextOrder stations units ol allow_merge fuel t sh cur next flags n = Outcome.done r →
      sh.Grows r.2) := by
  induction fuel with
  | zero =>
    constructor
    · intro t sh cur next flags n r h
      simp [RefreshLinks] at h
    · intro t sh cur next flags n r h
      simp [PredictNextOrder] at h
  | succ fuel ih =>
    obtain ⟨ihR, ihP⟩ := ih
    constructor
    · intro t sh cur next flags n r h
      cases next with
      | none =>
        simp only [RefreshLinks, Outcome.done.injEq] at h
        subst h
        exact Shared.Grows.refl sh
      | some next =>
        simp only [RefreshLinks] at h
        split at h
        · exact absurd h (by simp)
        · rename_i t1 flags1 sh1 hstep
          have hg1 := (refitStep_grows units next t flags sh _ hstep).1
          split at h
          · exact absurd h (by simp)
          · exact absurd h (by simp)
          · rename_i sh2 hp
            simp only [Outcome.done.injEq] at h
            subst h
            exact hg1.trans (ihP _ _ _ _ _ _ _ hp)
          · rename_i next1 sh2 hp
            have hg2 : sh.Grows sh2 := hg1.trans (ihP _ _ _ _ _ _ _ hp)
            split at h
            · simp only [Outcome.done.injEq] at h
              subst h
              exact hg2
            · rename_i hfind
              have hnew : (⟨cur.index, next1.index, t1.cargo⟩ : Hop) ∉ sh2.seen_hops :=
                fun hm => hfind ((HopSet.find_iff_mem _ _).2 hm)
              split at h
              · have hg3 := Shared.Grows.insert sh2 ⟨cur.index, next1.index, t1.cargo⟩ [] hnew rfl
                  (Or.inl rfl)
                rw [Shared.record_nil] at hg3
                exact hg2.trans (hg3.trans (ihR _ _ _ _ _ _ _ h))
              · obtain ⟨tr, htr, hi, hs, _⟩ := cargoStep_spec stations allow_merge cur next1 t1
                  { flags1 with USE_NEXT := false }
                  ⟨sh2.seen_hops ++ [⟨cur.index, next1.index, t1.cargo⟩],
                    sh2.trace ++ [Event.insert ⟨cur.index, next1.index, t1.cargo⟩]⟩
                have hg3 := Shared.Grows.insert sh2 ⟨cur.index, next1.index, t1.cargo⟩ tr hnew hi hs
                rw [← htr] at hg3
                exact hg2.trans (hg3.trans (ihR _ _ _ _ _ _ _ h))
    · intro t sh cur next flags n r h
      cases next with
      | none =>
        simp only [PredictNextOrder, Outcome.done.injEq] at h
        subst h
        exact Shared.Grows.refl sh
      | some next =>
        simp only [PredictNextOrder] at h
        split at h
        · simp only [Outcome.done.injEq] at h
          subst h
          exact Shared.Grows.refl sh
        · split at h
          · exact absurd h (by simp)
          · exact absurd h (by simp)
          · rename_i sh1 hb
            have hg1 : sh.Grows sh1 := by
              split at hb
              · split at hb
                · simp only [Outcome.done.injEq] at hb
                  subst hb
                  exact Shared.Grows.refl sh
                · split at hb
                  · split at hb
                    · rename_i r1 hr1
                      simp only [Outcome.done.injEq] at hb
                      subst hb
                      exact (Shared.Grows.record sh [Event.enter (n + 1)] rfl rfl).trans
                        ((ihR _ _ _ _ _ _ _ hr1).trans
                          (Shared.Grows.record _ [Event.exit (n + 1)] rfl rfl))
                    · exact absurd hb (by simp)
                    · exact absurd hb (by simp)
                  · simp only [Outcome.done.injEq] at hb
                    subst hb
                    exact Shared.Grows.refl sh
              · simp only [Outcome.done.injEq] at hb
                subst hb
                exact Shared.Grows.refl sh
            exact hg1.trans (ihP _ _ _ _ _ _ _ h)

theorem Shared.Grows.subset {sh sh1 : Shared} (h : sh.Grows sh1) :
    (∀ x ∈ sh.seen_hops, x ∈ sh1.seen_hops) ∧ (sh.seen_hops.Nodup → sh1.seen_hops.Nodup) := by
  obtain ⟨new, tr, hs, _, _, _, hd, hn⟩ := h
  refine ⟨fun x hx => by rw [hs]; exact List.mem_append_left _ hx, fun hnd => ?_⟩
  rw [hs, List.nodup_append]
  exact ⟨hnd, hn, fun x hx1 hx2 => hd x hx2 hx1⟩

theorem Run_grows (fuel : Nat) (stations : StationPool) (v : Vehicle) (allow_merge : Bool)
    (r : RunResult) (h : Run fuel stations v allow_merge = Outcome.done r) :
    r.seen_hops.Nodup ∧ insertedHops r.trace = r.seen_hops ∧
      List.Sublist (statsHops r.trace) r.seen_hops := by
  unfold Run at h
  split at h
  · simp only [Outcome.done.injEq] at h
    subst h
    exact ⟨List.nodup_nil, rfl, List.Sublist.refl _⟩
  · rename_i ol _
    split at h
    · simp only [Outcome.done.injEq] at h
      subst h
      exact ⟨List.nodup_nil, rfl, List.Sublist.refl _⟩
    · split at h
      · rename_i r1 hr1
        simp only [Outcome.done.injEq] at h
        subst h
        obtain ⟨new, tr, hs, ht, hi, hst, _, hn⟩ :=
          (walker_grows stations v.units ol allow_merge fuel).1 _ _ _ _ _ _ _ hr1
        simp only [List.nil_append] at hs
        simp only [hs, ht]
        refine ⟨hn, ?_, ?_⟩
        · simp only [insertedHops, List.filterMap_append] at hi ⊢
          rw [hi]
          simp
        · simp only [statsHops, List.filterMap_append] at hst ⊢
          simpa using hst
      · exact absurd h (by simp)
      · exact absurd h (by simp)

/-- C4: during a run the hop set only grows: after any `RefreshLinks` or
`PredictNextOrder` call that returns, forked branches included, every hop
seen before is still in the set and a duplicate-free set stays duplicate-free.
When the resolved hop is already in the set, the iteration ends the
`RefreshLinks` call with the tracker and shared state exactly as
`PredictNextOrder` left them (no insertion, no `RefreshStats`). After `Run`
the hops inserted, in order, are the hop set and contain no duplicates, and
the hops for which `RefreshStats` was invoked are a duplicate-free
subsequence of them. -/
theorem hop_set_grows_without_duplicates (stations : StationPool) (allow_merge : Bool)
    (fuel : Nat) :
    (∀ units ol t sh cur next flags n r,
      RefreshLinks stations units ol allow_merge fuel t sh cur next flags n = Outcome.done r →
      (∀ x ∈ sh.seen_hops, x ∈ r.2.seen_hops) ∧ (sh.seen_hops.Nodup → r.2.seen_hops.Nodup)) ∧
    (∀ units ol t sh cur next flags n r,
      PredictNextOrder stations units ol allow_merge fuel t sh cur next flags n = Outcome.done r →
      (∀ x ∈ sh.seen_hops, x ∈ r.2.seen_hops) ∧ (sh.seen_hops.Nodup → r.2.seen_hops.Nodup)) ∧
    (∀ units ol t sh cur next flags n t1 flags1 sh1 next1 sh2,
      refitStep units next t flags sh = some (t1, flags1, sh1) →
      PredictNextOrder stations units ol allow_merge fuel t1 sh1 cur (some next) flags1 n =
        Outcome.done (some next1, sh2) →
      (⟨cur.index, next1.index, t1.cargo⟩ : Hop) ∈ sh2.seen_hops →
      RefreshLinks stations units ol allow_merge (fuel + 1) t sh cur (some next) flags n =
        Outcome.done (t1, sh2)) ∧
    (∀ v r, Run fuel stations v allow_merge = Outcome.done r →
      r.seen_hops.Nodup ∧ insertedHops r.trace = r.seen_hops ∧
      (statsHops r.trace).Nodup ∧ List.Sublist (statsHops r.trace) r.seen_hops) := by
  refine ⟨?_, ?_, ?_, ?_⟩
  · intro units ol t sh cur next flags n r h
    exact ((walker_grows stations units ol allow_merge fuel).1 _ _ _ _ _ _ _ h).subset
  · intro units ol t sh cur next flags n r h
    exact ((walker_grows stations units ol allow_merge fuel).2 _ _ _ _ _ _ _ h).subset
  · intro units ol t sh cur next flags n t1 flags1 sh1 next1 sh2 hstep hp hmem
    simp only [RefreshLinks, hstep, hp, (HopSet.find_iff_mem _ _).2 hmem, if_true]
  · intro v r h
    obtain ⟨h1, h2, h3⟩ := Run_grows fuel stations v allow_merge r h
    exact ⟨h1, h2, h3.nodup h1, h3⟩

/-- Witness for C4: the run of the scenario returns with two hops, inserted
once each, and `RefreshStats` was invoked once for each. -/
theorem hop_set_grows_without_duplicates_witness :
    ∃ r, Run 8 (scenarioStations (fun _ _ => 0)) (scenarioVehicle 1) true = Outcome.done r ∧
      r.seen_hops = [⟨0, 1, 7⟩, ⟨1, 0, 7⟩] ∧
      r.seen_hops.Nodup ∧ insertedHops r.trace = r.seen_hops ∧
      (statsHops r.trace).Nodup ∧ List.Sublist (statsHops r.trace) r.seen_hops := by
  have hev : (Run 8 (scenarioStations (fun _ _ => 0)) (scenarioVehicle 1) true).toOption.map
      RunResult.seen_hops = some [⟨0, 1, 7⟩, ⟨1, 0, 7⟩] := by decide
  cases h : Run 8 (scenarioStations (fun _ _ => 0)) (scenarioVehicle 1) true with
  | done r =>
    rw [h] at hev
    simp only [Outcome.toOption, Option.map_some', Option.some.injEq] at hev
    exact ⟨r, rfl, hev,
      (hop_set_grows_without_duplicates (scenarioStations (fun _ _ => 0)) true 8).2.2.2
        (scenarioVehicle 1) r h⟩
  | fault =>
    rw [h] at hev
    exact absurd hev (by simp [Outcome.toOption])
  | timeout =>
    rw [h] at hev
    exact absurd hev (by simp [Outcome.toOption])

/-! ## The walker: a larger budget gives the same result -/

theorem walker_mono (stations : StationPool) (units : List VehicleUnit) (ol : OrderList)
    (allow_merge : Bool) (fuel : Nat) :
    (∀ t sh cur next flags n,
      RefreshLinks stations units ol allow_merge fuel t sh cur next flags n ≠ Outcome.timeout →
      RefreshLinks stations units ol allow_merge (fuel + 1) t sh cur next flags n =
        RefreshLinks stations units ol allow_merge fuel t sh cur next flags n) ∧
    (∀ t sh cur next flags n,
      PredictNextOrder stations units ol allow_merge fuel t sh cur next flags n ≠ Outcome.timeout →
      PredictNextOrder stations units ol allow_merge (fuel + 1) t sh cur next flags n =
        PredictNextOrder stations units ol allow_merge fuel t sh cur next flags n) := by
  induction fuel with
  | zero =>
    constructor
    · intro t sh cur next flags n h
      exact absurd (by simp [RefreshLinks]) h
    · intro t sh cur next flags n h
      exact absurd (by simp [PredictNextOrder]) h
  | succ fuel ih =>
    obtain ⟨ihR, ihP⟩ := ih
    constructor
    · intro t sh cur next flags n h
      cases next with
      | none => simp only [RefreshLinks]
      | some next =>
        cases hs : refitStep units next t flags sh with
        | none => simp only [RefreshLinks, hs]
        | some x =>
          obtain ⟨t1, flags1, sh1⟩ := x
          simp only [RefreshLinks, hs] at h ⊢
          by_cases hp : PredictNextOrder stations units ol allow_merge fuel t1 sh1 cur (some next)
              flags1 n = Outcome.timeout
          · rw [hp] at h
            exact absurd rfl h
          · rw [ihP _ _ _ _ _ _ hp]
            generalize PredictNextOrder stations units ol allow_merge fuel t1 sh1 cur (some next)
              flags1 n = p at h
            cases p with
            | timeout => rfl
            | fault => rfl
            | done r =>
              obtain ⟨o, sh2⟩ := r
              cases o with
              | none => rfl
              | some next1 =>
                simp only at h ⊢
                split_ifs at h ⊢ with h1 h2
                · rfl
                · exact ihR _ _ _ _ _ _ h
                · exact ihR _ _ _ _ _ _ h
    · intro t sh cur next flags n h
      cases next with
      | none => simp only [PredictNextOrder]
      | some next =>
        simp only [PredictNextOrder] at h ⊢
        split_ifs at h ⊢ with h1 h2 h3
        · rfl
        · cases hg : ol.GetNextDecisionNode (ol.GetOrderAt next.GetConditionSkipToOrder) n with
          | none =>
            simp only [hg] at h ⊢
            exact ihP _ _ _ _ _ _ h
          | some skip_to =>
            simp only [hg] at h ⊢
            by_cases hr : RefreshLinks stations units ol allow_merge fuel t
                (sh.record [Event.enter (n + 1)]) cur (some skip_to)
                { flags with USE_NEXT := true } (n + 1) = Outcome.timeout
            · rw [hr] at h
              exact absurd rfl h
            · rw [ihR _ _ _ _ _ _ hr]
              generalize RefreshLinks stations units ol allow_merge fuel t
                (sh.record [Event.enter (n + 1)]) cur (some skip_to)
                { flags with USE_NEXT := true } (n + 1) = q at h
              cases q with
              | timeout => rfl
              | fault => rfl
              | done r =>
                simp only at h ⊢
                exact ihP _ _ _ _ _ _ h
        · cases hg : ol.GetNextDecisionNode (ol.GetOrderAt next.GetConditionSkipToOrder) n with
          | none =>
            simp only [hg] at h ⊢
            exact ihP _ _ _ _ _ _ h
          | some skip_to =>
            simp only [hg] at h ⊢
            exact ihP _ _ _ _ _ _ h
        · exact ihP _ _ _ _ _ _ h

theorem RefreshLinks_mono (stations : StationPool) (units : List VehicleUnit) (ol : OrderList)
    (allow_merge : Bool) (fuel extra : Nat) (t : Tracker) (sh : Shared) (cur : Order)
    (next : Option Order) (flags : RefreshFlags) (n : Nat)
    (h : RefreshLinks stations units ol allow_merge fuel t sh cur next flags n ≠ Outcome.timeout) :
    RefreshLinks stations units ol allow_merge (fuel + extra) t sh cur next flags n =
      RefreshLinks stations units ol allow_merge fuel t sh cur next flags n := by
  induction extra with
  | zero => rfl
  | succ k ih =>
    rw [← Nat.add_assoc, (walker_mono stations units ol allow_merge (fuel + k)).1 _ _ _ _ _ _
      (by rw [ih]; exact h), ih]

theorem Run_mono (stations : StationPool) (v : Vehicle) (allow_merge : Bool) (fuel extra : Nat)
    (h : Run fuel stations v allow_merge ≠ Outcome.timeout) :
    Run (fuel + extra) stations v allow_merge = Run fuel stations v allow_merge := by
  cases hol : v.orders with
  | none => simp only [Run, hol]
  | some ol =>
    cases hfirst : ol.GetNextDecisionNode (v.GetOrder v.cur_implicit_order_index) 0 with
    | none => simp only [Run, hol, hfirst]
    | some first =>
      simp only [Run, hol, hfirst] at h ⊢
      have hr : RefreshLinks stations v.units ol allow_merge fuel (Tracker.new v.units)
          ⟨[], [Event.enter 0]⟩ first (some first)
          ⟨false, decide (v.last_loading_station ≠ INVALID_STATION), false, false⟩ 0 ≠
          Outcome.timeout := by
        intro hc
        rw [hc] at h
        exact h rfl
      rw [RefreshLinks_mono _ _ _ _ _ _ _ _ _ _ _ _ hr]

/-! ## The walker: termination -/

theorem mem_hopUniverse (pool : List Order) (a b : Order) (c : Nat) (ha : a ∈ pool)
    (hb : b ∈ pool) (hc : c ∈ cargoUniverse pool) :
    (⟨a.index, b.index, c⟩ : Hop) ∈ hopUniverse pool := by
  unfold hopUniverse
  rw [List.mem_flatMap]
  refine ⟨a, ha, ?_⟩
  rw [List.mem_flatMap]
  refine ⟨b, hb, ?_⟩
  rw [List.mem_map]
  exact ⟨c, hc, rfl⟩

theorem unseen_le_length (pool : List Order) (seen : List Hop) :
    unseen pool seen ≤ (hopUniverse pool).length :=
  List.countP_le_length _

theorem unseen_mono (pool : List Order) (seen seen1 : List Hop)
    (h : ∀ x ∈ seen, x ∈ seen1) : unseen pool seen1 ≤ unseen pool seen := by
  unfold unseen
  apply List.countP_mono_left
  intro x _ hx
  simp only [decide_eq_true_eq] at hx ⊢
  exact fun hm => hx (h x hm)

theorem countP_lt_of_mem {α : Type} (l : List α) (p q : α → Bool)
    (hpq : ∀ x ∈ l, p x = true → q x = true) (a : α) (ha : a ∈ l) (hq : q a = true)
    (hp : p a = false) : l.countP p < l.countP q := by
  induction l with
  | nil => simp at ha
  | cons x xs ih =>
    rw [List.countP_cons, List.countP_cons]
    have hmono : xs.countP p ≤ xs.countP q :=
      List.countP_mono_left (fun y hy => hpq y (List.mem_cons_of_mem _ hy))
    rcases List.mem_cons.1 ha with rfl | hmem
    · simp only [hp, hq, Bool.false_eq_true, if_false, if_true]
      omega
    · have hlt := ih (fun y hy => hpq y (List.mem_cons_of_mem _ hy)) hmem
      by_cases hpx : p x = true
      · have hqx := hpq x (List.mem_cons_self _ _) hpx
        simp only [hpx, hqx, if_true]
        omega
      · simp only [hpx, Bool.false_eq_true, if_false]
        split_ifs <;> omega

theorem unseen_insert_lt (pool : List Order) (seen : List Hop) (hop : Hop)
    (hu : hop ∈ hopUniverse pool) (hn : hop ∉ seen) :
    unseen pool (seen ++ [hop]) < unseen pool seen := by
  unfold unseen
  apply countP_lt_of_mem _ _ _ _ hop hu
  · simpa using hn
  · simp
  · intro x _ hx
    simp only [decide_eq_true_eq, List.mem_append, List.mem_singleton, not_or] at hx ⊢
    exact hx.1

theorem predictBudget_succ (N K n : Nat) (h : n ≤ N) :
    predictBudget N K n = predictBudget N K (n + 1) + (K + 2) := by
  unfold predictBudget
  have h1 : N + 1 - n = (N + 1 - (n + 1)) + 1 := by omega
  rw [h1, Nat.add_mul, Nat.one_mul]
  omega

theorem predictBudget_ge (N K n : Nat) : 2 ≤ predictBudget N K n := by
  unfold predictBudget
  omega

theorem PredictNextOrder_mem (stations : StationPool) (units : List VehicleUnit) (ol : OrderList)
    (allow_merge : Bool) (pool : List Order) (hcl : ol.ClosedIn pool) (fuel : Nat) :
    ∀ t sh cur next flags n o sh1, (∀ x, next = some x → x ∈ pool) →
      PredictNextOrder stations units ol allow_merge fuel t sh cur next flags n =
        Outcome.done (some o, sh1) → o ∈ pool := by
  induction fuel with
  | zero =>
    intro t sh cur next flags n o sh1 _ h
    simp [PredictNextOrder] at h
  | succ fuel ih =>
    intro t sh cur next flags n o sh1 hnext h
    cases next with
    | none => simp [PredictNextOrder] at h
    | some next =>
      have hmem : next ∈ pool := hnext next rfl
      have hnx : ∀ x, ol.GetNextDecisionNode (ol.GetNext next) n = some x → x ∈ pool := by
        intro x hx
        refine hcl.2.2 _ _ _ ?_ hx
        intro y hy
        exact hcl.2.1 next y hmem hy
      simp only [PredictNextOrder] at h
      split at h
      · simp only [Outcome.done.injEq, Prod.mk.injEq, Option.some.injEq] at h
        rw [← h.1]
        exact hmem
      · split at h
        · exact absurd h (by simp)
        · exact absurd h (by simp)
        · exact ih _ _ _ _ _ _ _ _ hnx h

theorem walker_terminates (stations : StationPool) (units : List VehicleUnit) (ol : OrderList)
    (allow_merge : Bool) (pool : List Order) (hcl : ol.ClosedIn pool) (hb : ol.Bounded)
    (fuel : Nat) :
    (∀ t sh cur next flags n, cur ∈ pool → (∀ x, next = some x → x ∈ pool) →
      t.cargo ∈ cargoUniverse pool →
      refreshBudget ol.GetNumOrders (hopUniverse pool).length n (unseen pool sh.seen_hops) ≤ fuel →
      RefreshLinks stations units ol allow_merge fuel t sh cur next flags n ≠ Outcome.timeout) ∧
    (∀ t sh cur next flags n, cur ∈ pool → (∀ x, next = some x → x ∈ pool) →
      t.cargo ∈ cargoUniverse pool →
      predictBudget ol.GetNumOrders (hopUniverse pool).length n ≤ fuel →
      PredictNextOrder stations units ol allow_merge fuel t sh cur next flags n ≠
        Outcome.timeout) := by
  induction fuel with
  | zero =>
    constructor
    · intro t sh cur next flags n _ _ _ hfuel
      have := predictBudget_ge ol.GetNumOrders (hopUniverse pool).length n
      unfold refreshBudget at hfuel
      omega
    · intro t sh cur next flags n _ _ _ hfuel
      have := predictBudget_ge ol.GetNumOrders (hopUniverse pool).length n
      omega
  | succ fuel ih =>
    obtain ⟨ihR, ihP⟩ := ih
    constructor
    · intro t sh cur next flags n hcur hnext hcargo hfuel
      unfold refreshBudget at hfuel
      cases next with
      | none => simp [RefreshLinks]
      | some next =>
        have hmem : next ∈ pool := hnext next rfl
        cases hs : refitStep units next t flags sh with
        | none => simp [RefreshLinks, hs]
        | some x =>
          obtain ⟨t1, flags1, sh1⟩ := x
          obtain ⟨_, hseen1, hc1⟩ := refitStep_grows units next t flags sh _ hs
          simp only at hseen1 hc1
          have hcargo1 : t1.cargo ∈ cargoUniverse pool := by
            rcases hc1 with hc1 | hc1
            · rw [hc1]; exact hcargo
            · rw [hc1]
              exact List.mem_cons_of_mem _ (List.mem_map_of_mem _ hmem)
          have hP := ihP t1 sh1 cur (some next) flags1 n hcur hnext hcargo1 (by omega)
          simp only [RefreshLinks, hs]
          cases hq : PredictNextOrder stations units ol allow_merge fuel t1 sh1 cur (some next)
              flags1 n with
          | timeout => exact absurd hq hP
          | fault => simp
          | done r =>
            obtain ⟨o, sh2⟩ := r
            cases o with
            | none => simp
            | some next1 =>
              have hmem1 : next1 ∈ pool :=
                PredictNextOrder_mem stations units ol allow_merge pool hcl fuel _ _ _ _ _ _ _ _
                  hnext hq
              have hg := ((walker_grows stations units ol allow_merge fuel).2 _ _ _ _ _ _ _ hq).subset.1
              have hle : unseen pool sh2.seen_hops ≤ unseen pool sh.seen_hops := by
                rw [← hseen1]
                exact unseen_mono pool _ _ hg
              simp only
              by_cases hfind : HopSet.find sh2.seen_hops ⟨cur.index, next1.index, t1.cargo⟩ = true
              · simp [hfind]
              · have hnew : (⟨cur.index, next1.index, t1.cargo⟩ : Hop) ∉ sh2.seen_hops :=
                  fun hm => hfind ((HopSet.find_iff_mem _ _).2 hm)
                have hlt := unseen_insert_lt pool sh2.seen_hops _
                  (mem_hopUniverse pool cur next1 t1.cargo hcur hmem1 hcargo1) hnew
                simp only [hfind, Bool.false_eq_true, if_false]
                split_ifs
                · exact ihR _ _ _ _ _ _ hcur (fun x hx => by cases hx; exact hmem1) hcargo1
                    (by unfold refreshBudget; simp only; omega)
                · obtain ⟨tr, htr, _, _, hc2⟩ := cargoStep_spec stations allow_merge cur next1 t1
                    { flags1 with USE_NEXT := false }
                    ⟨sh2.seen_hops ++ [⟨cur.index, next1.index, t1.cargo⟩],
                      sh2.trace ++ [Event.insert ⟨cur.index, next1.index, t1.cargo⟩]⟩
                  refine ihR _ _ _ _ _ _ hmem1 (fun x hx => by cases hx; exact hmem1)
                    (by rw [hc2]; exact hcargo1) ?_
                  rw [htr]
                  unfold refreshBudget
                  simp only [Shared.record]
                  omega
    · intro t sh cur next flags n hcur hnext hcargo hfuel
      cases next with
      | none => simp [PredictNextOrder]
      | some next =>
        have hmem : next ∈ pool := hnext next rfl
        have hnx : ∀ x, ol.GetNextDecisionNode (ol.GetNext next) n = some x → x ∈ pool := by
          intro x hx
          refine hcl.2.2 _ _ _ ?_ hx
          intro y hy
          exact hcl.2.1 next y hmem hy
        have hlast : ∀ sh1, PredictNextOrder stations units ol allow_merge fuel t sh1 cur
            (ol.GetNextDecisionNode (ol.GetNext next) n) { flags with USE_NEXT := true } (n + 1) ≠
            Outcome.timeout := by
          intro sh1
          by_cases hn : n ≤ ol.GetNumOrders
          · have := predictBudget_succ ol.GetNumOrders (hopUniverse pool).length n hn
            exact ihP _ _ _ _ _ _ hcur hnx hcargo (by omega)
          · rw [hb _ n (by omega)]
            have := predictBudget_ge ol.GetNumOrders (hopUniverse pool).length n
            cases fuel with
            | zero => omega
            | succ f => simp [PredictNextOrder]
        simp only [PredictNextOrder]
        split_ifs with h1 h2 h3
        · simp
        · cases hg : ol.GetNextDecisionNode (ol.GetOrderAt next.GetConditionSkipToOrder) n with
          | none =>
            simp only
            exact hlast sh
          | some skip_to =>
            have hskip : skip_to ∈ pool := hcl.2.2 _ _ _ (fun y hy => hcl.1 _ y hy) hg
            have hsucc := predictBudget_succ ol.GetNumOrders (hopUniverse pool).length n (by omega)
            have hk := unseen_le_length pool (sh.record [Event.enter (n + 1)]).seen_hops
            have hR := ihR t (sh.record [Event.enter (n + 1)]) cur (some skip_to)
              { flags with USE_NEXT := true } (n + 1) hcur
              (fun x hx => by cases hx; exact hskip) hcargo
              (by unfold refreshBudget; omega)
            simp only
            cases hq : RefreshLinks stations units ol allow_merge fuel t
                (sh.record [Event.enter (n + 1)]) cur (some skip_to)
                { flags with USE_NEXT := true } (n + 1) with
            | timeout => exact absurd hq hR
            | fault => simp
            | done r =>
              simp only
              exact hlast _
        · cases hg : ol.GetNextDecisionNode (ol.GetOrderAt next.GetConditionSkipToOrder) n with
          | none =>
            simp only
            exact hlast sh
          | some skip_to =>
            simp only
            exact hlast sh
        · exact hlast sh

theorem decisionNode_mem (pool : List Order) (next_of : Order → Option Order)
    (hnext : ∀ o x, o ∈ pool → next_of o = some x → x ∈ pool) (budget : Nat) :
    ∀ (o : Option Order) (r : Order), (∀ x, o = some x → x ∈ pool) →
      decisionNode next_of budget o = some r → r ∈ pool := by
  induction budget with
  | zero =>
    intro o r _ h
    simp [decisionNode] at h
  | succ b ih =>
    intro o r ho h
    cases o with
    | none => simp [decisionNode] at h
    | some x =>
      simp only [decisionNode] at h
      split_ifs at h
      · simp only [Option.some.injEq] at h
        rw [← h]
        exact ho x rfl
      · exact ih _ r (fun y hy => hnext x y (ho x rfl) hy) h

theorem nextInList_mem (orders : List Order) (o x : Order) (h : nextInList orders o = some x) :
    x ∈ orders := by
  unfold nextInList at h
  split at h
  · exact absurd h (by simp)
  · exact List.get?_mem h

theorem OrderList.ofList_closedIn (orders : List Order) :
    (OrderList.ofList orders).ClosedIn orders := by
  refine ⟨fun i x h => List.get?_mem h, fun o x _ h => nextInList_mem orders o x h, ?_⟩
  intro o hops r ho h
  exact decisionNode_mem orders (nextInList orders)
    (fun o x _ h => nextInList_mem orders o x h) _ o r ho h

theorem OrderList.ofList_bounded (orders : List Order) : (OrderList.ofList orders).Bounded := by
  intro o hops h
  show decisionNode (nextInList orders) (orders.length + 1 - hops) o = none
  have h0 : orders.length + 1 - hops = 0 := by
    have : orders.length < hops := h
    omega
  rw [h0]
  rfl

/-- C1: for a finite order program (all orders its lookups return lie in a
finite list `pool`) whose `GetNextDecisionNode` returns no order once its hop
argument exceeds `GetNumOrders()`, for every consist, station pool and merge
policy, `Run` terminates: some step budget is enough for the mutual
recursion of `RefreshLinks` and `PredictNextOrder` to finish, and every larger
budget gives the same result. -/
theorem Run_terminates (stations : StationPool) (v : Vehicle) (allow_merge : Bool)
    (pool : List Order)
    (hfin : ∀ ol, v.orders = some ol → ol.ClosedIn pool ∧ ol.Bounded) :
    ∃ fuel, Run fuel stations v allow_merge ≠ Outcome.timeout ∧
      ∀ extra, Run (fuel + extra) stations v allow_merge = Run fuel stations v allow_merge := by
  suffices h : ∃ fuel, Run fuel stations v allow_merge ≠ Outcome.timeout by
    obtain ⟨fuel, hf⟩ := h
    exact ⟨fuel, hf, fun extra => Run_mono stations v allow_merge fuel extra hf⟩
  cases hol : v.orders with
  | none => exact ⟨0, by simp [Run, hol]⟩
  | some ol =>
    obtain ⟨hcl, hb⟩ := hfin ol hol
    cases hfirst : ol.GetNextDecisionNode (v.GetOrder v.cur_implicit_order_index) 0 with
    | none => exact ⟨0, by simp [Run, hol, hfirst]⟩
    | some first =>
      have hmem : first ∈ pool := by
        refine hcl.2.2 _ _ _ ?_ hfirst
        intro y hy
        simp only [Vehicle.GetOrder, hol] at hy
        exact hcl.1 _ y hy
      refine ⟨refreshBudget ol.GetNumOrders (hopUniverse pool).length 0
        (unseen pool []), ?_⟩
      have hR := (walker_terminates stations v.units ol allow_merge pool hcl hb
        (refreshBudget ol.GetNumOrders (hopUniverse pool).length 0 (unseen pool []))).1
        (Tracker.new v.units) ⟨[], [Event.enter 0]⟩ first (some first)
        ⟨false, decide (v.last_loading_station ≠ INVALID_STATION), false, false⟩ 0 hmem
        (fun x hx => by cases hx; exact hmem) (List.mem_cons_self _ _) (le_refl _)
      simp only [Run, hol, hfirst]
      revert hR
      cases RefreshLinks stations v.units ol allow_merge
        (refreshBudget ol.GetNumOrders (hopUniverse pool).length 0 (unseen pool []))
        (Tracker.new v.units) ⟨[], [Event.enter 0]⟩ first (some first)
        ⟨false, decide (v.last_loading_station ≠ INVALID_STATION), false, false⟩ 0 with
      | timeout => intro hR; exact absurd rfl hR
      | fault => intro _; simp
      | done r => intro _; simp

/-- Witness for C1: the cyclic scenario program, whose conditional order
skips backwards, is finite and bounded, so its run terminates. -/
theorem Run_terminates_witness :
    ∃ fuel, Run fuel (scenarioStations (fun _ _ => 0)) (scenarioVehicle 1) true ≠
        Outcome.timeout ∧
      ∀ extra, Run (fuel + extra) (scenarioStations (fun _ _ => 0)) (scenarioVehicle 1) true =
        Run fuel (scenarioStations (fun _ _ => 0)) (scenarioVehicle 1) true :=
  Run_terminates (scenarioStations (fun _ _ => 0)) (scenarioVehicle 1) true scenarioOrders
    (fun ol hol => by
      have h : OrderList.ofList scenarioOrders = ol := by
        simpa [scenarioVehicle] using hol
      rw [← h]
      exact ⟨OrderList.ofList_closedIn _, OrderList.ofList_bounded _⟩)

/-! ## The scenario of the specification -/

/-- C11, counterexample: with merging allowed, `RefreshStats` makes a call
towards station 2 although the station pool has no station 2; the destination
is only compared with `INVALID_STATION`. -/
theorem RefreshStats_calls_missing_destination :
    (StationPool.mk (fun s => decide (s = 1)) (fun _ _ => 0)).IsValid scenarioB.GetDestination =
      false ∧
    RefreshStats ⟨fun s => decide (s = 1), fun _ _ => 0⟩ true [(3, 0), (7, 80)] scenarioA
      scenarioB = [⟨1, 7, 2, 80, EdgeUpdateMode.REFRESH_UNRESTRICTED⟩] := by
  constructor <;> decide

/-- C11, amended: `RefreshStats(cur, next)` makes a call only when the
destination of `cur` is an existing station, the destination of `next` is not
`INVALID_STATION`, and the two ids differ; every call goes from the former to
the latter, so no call has its origin station equal to its destination
station. -/
theorem RefreshStats_guard (stations : StationPool) (allow_merge : Bool)
    (capacities : CapacitiesMap) (cur next : Order) (call : StatsCall)
    (h : call ∈ RefreshStats stations allow_merge capacities cur next) :
    stations.IsValid cur.GetDestination = true ∧
    next.GetDestination ≠ INVALID_STATION ∧
    next.GetDestination ≠ cur.GetDestination ∧
    call.st = cur.GetDestination ∧ call.next_station_id = next.GetDestination ∧
    call.st ≠ call.next_station_id := by
  obtain ⟨⟨h1, h2, h3⟩, _, _, _, h5, h6, _⟩ := mem_RefreshStats _ _ _ _ _ _ h
  refine ⟨h1, h2, h3, h5, h6, ?_⟩
  rw [h5, h6]
  exact fun he => h3 he.symm

/-- Witness for the amended C11: the call from station 1 to station 2 of the
scenario. -/
theorem RefreshStats_guard_witness :
    (scenarioStations (fun _ _ => 0)).IsValid scenarioA.GetDestination = true ∧
    scenarioB.GetDestination ≠ INVALID_STATION ∧
    scenarioB.GetDestination ≠ scenarioA.GetDestination ∧
    (⟨1, 7, 2, 80, EdgeUpdateMode.REFRESH_UNRESTRICTED⟩ : StatsCall).st =
      scenarioA.GetDestination ∧
    (⟨1, 7, 2, 80, EdgeUpdateMode.REFRESH_UNRESTRICTED⟩ : StatsCall).next_station_id =
      scenarioB.GetDestination ∧
    (⟨1, 7, 2, 80, EdgeUpdateMode.REFRESH_UNRESTRICTED⟩ : StatsCall).st ≠
      (⟨1, 7, 2, 80, EdgeUpdateMode.REFRESH_UNRESTRICTED⟩ : StatsCall).next_station_id :=
  RefreshStats_guard (scenarioStations (fun _ _ => 0)) true [(3, 0), (7, 80)] scenarioA scenarioB
    ⟨1, 7, 2, 80, EdgeUpdateMode.REFRESH_UNRESTRICTED⟩ (by decide)

theorem RefreshStats_eq_of_guard (stations : StationPool) (capacities : CapacitiesMap)
    (cur next : Order)
    (hguard : stations.IsValid cur.GetDestination = true ∧
      next.GetDestination ≠ INVALID_STATION ∧ next.GetDestination ≠ cur.GetDestination) :
    RefreshStats stations true capacities cur next =
      (capacities.filter (fun i => decide (i.2 ≠ 0))).map (fun i =>
        ⟨cur.GetDestination, i.1, next.GetDestination, i.2,
          if cur.GetLoadType &&& OLFB_NO_LOAD = 0 then EdgeUpdateMode.REFRESH_UNRESTRICTED
          else EdgeUpdateMode.REFRESH_RESTRICTED⟩) := by
  unfold RefreshStats
  simp only [hguard, ne_eq, not_false_eq_true, and_self, if_true, Bool.not_true,
    Bool.false_eq_true, false_and, if_false]
  induction capacities with
  | nil => rfl
  | cons i rest ih =>
    by_cases h0 : i.2 = 0
    · simp only [List.filterMap_cons, h0, if_true, List.filter_cons, not_true_eq_false,
        decide_False, Bool.false_eq_true, if_false]
      exact ih
    · simp only [List.filterMap_cons, h0, if_false, List.filter_cons, not_false_eq_true,
        decide_True, if_true, List.map_cons]
      rw [ih]

theorem filter_cargo_of_nodup (capacities : CapacitiesMap) (f : Nat × Nat → StatsCall)
    (hf : ∀ i, (f i).cargo = i.1) (hk : (capacities.map Prod.fst).Nodup) (c : Nat) :
    (((capacities.filter (fun i => decide (i.2 ≠ 0))).map f).filter
        (fun call => decide (call.cargo = c))) =
      if capacities.get c = 0 then [] else [f (c, capacities.get c)] := by
  induction capacities with
  | nil => rfl
  | cons i rest ih =>
    obtain ⟨k, v⟩ := i
    simp only [List.map_cons, List.nodup_cons, List.mem_map, not_exists, not_and] at hk
    have ih1 := ih hk.2
    by_cases hc : c = k
    · subst hc
      have hrest : CapacitiesMap.get rest c = 0 := by
        apply CapacitiesMap.get_eq_zero_of_not_contains
        simp only [CapacitiesMap.contains, List.any_eq_false, beq_iff_eq]
        intro x hx hxc
        exact hk.1 x hx hxc
      rw [hrest] at ih1
      simp only [if_true] at ih1
      simp only [CapacitiesMap.get, if_true]
      by_cases hv : v = 0
      · simp only [List.filter_cons, hv, ne_eq, not_true_eq_false, decide_False,
          Bool.false_eq_true, if_false, if_true]
        exact ih1
      · simp only [List.filter_cons, hv, ne_eq, not_false_eq_true, decide_True, if_true,
          List.map_cons, hf, if_false]
        rw [ih1]
    · have hkc : ¬ k = c := fun h => hc h.symm
      simp only [CapacitiesMap.get, hc, if_false]
      by_cases hv : v = 0
      · simp only [List.filter_cons, hv, ne_eq, not_true_eq_false, decide_False,
          Bool.false_eq_true, if_false]
        exact ih1
      · simp only [List.filter_cons, hv, ne_eq, not_false_eq_true, decide_True, if_true,
          List.map_cons, hf, hkc, decide_False, Bool.false_eq_true, if_false]
        exact ih1

/-- C12: when the stations pass the guard and merging is allowed,
`RefreshStats` makes, in the order of the capacities map, one call per entry
of non-zero value, from the origin station to the destination station, for
that cargo and with that value as amount; for a map with one entry per cargo
this is exactly one call for each cargo of positive tracked capacity and none
for a cargo whose capacity is zero or absent. The iteration step that invokes
it leaves the hop set as it was and the tracker as it was before the call. -/
theorem RefreshStats_amounts (stations : StationPool) (capacities : CapacitiesMap)
    (cur next : Order)
    (hguard : stations.IsValid cur.GetDestination = true ∧
      next.GetDestination ≠ INVALID_STATION ∧ next.GetDestination ≠ cur.GetDestination) :
    RefreshStats stations true capacities cur next =
      (capacities.filter (fun i => decide (i.2 ≠ 0))).map (fun i =>
        ⟨cur.GetDestination, i.1, next.GetDestination, i.2,
          if cur.GetLoadType &&& OLFB_NO_LOAD = 0 then EdgeUpdateMode.REFRESH_UNRESTRICTED
          else EdgeUpdateMode.REFRESH_RESTRICTED⟩) ∧
    ((capacities.map Prod.fst).Nodup → ∀ c,
      (RefreshStats stations true capacities cur next).filter
          (fun call => decide (call.cargo = c)) =
        if capacities.get c = 0 then []
        else [⟨cur.GetDestination, c, next.GetDestination, capacities.get c,
          if cur.GetLoadType &&& OLFB_NO_LOAD = 0 then EdgeUpdateMode.REFRESH_UNRESTRICTED
          else EdgeUpdateMode.REFRESH_RESTRICTED⟩]) ∧
    (∀ allow_merge t flags sh,
      (cargoStep stations allow_merge cur next t flags sh).2.2.seen_hops = sh.seen_hops ∧
      (cargoStep stations allow_merge cur next t flags sh).1 =
        if flags.RESET_REFIT = true then ResetRefit t else t) := by
  refine ⟨RefreshStats_eq_of_guard stations capacities cur next hguard, ?_, ?_⟩
  · intro hk c
    rw [RefreshStats_eq_of_guard stations capacities cur next hguard]
    exact filter_cargo_of_nodup capacities _ (fun _ => rfl) hk c
  · intro allow_merge t flags sh
    unfold cargoStep
    simp only
    split_ifs <;> exact ⟨rfl, rfl⟩

/-- Witness for C12 on the scenario orders `A` and `B` with the capacities
map after the refit and reset: one call, for cargo 7 with amount 80, none for
cargo 3 whose capacity is 0. -/
theorem RefreshStats_amounts_witness :
    RefreshStats (scenarioStations (fun _ _ => 0)) true [(3, 0), (7, 80)] scenarioA scenarioB =
      [⟨1, 7, 2, 80, EdgeUpdateMode.REFRESH_UNRESTRICTED⟩] ∧
    (RefreshStats (scenarioStations (fun _ _ => 0)) true [(3, 0), (7, 80)] scenarioA
      scenarioB).filter (fun call => decide (call.cargo = 3)) = [] :=
  ⟨(RefreshStats_amounts (scenarioStations (fun _ _ => 0)) [(3, 0), (7, 80)] scenarioA scenarioB
      (by decide)).1.trans (by decide),
    ((RefreshStats_amounts (scenarioStations (fun _ _ => 0)) [(3, 0), (7, 80)] scenarioA scenarioB
      (by decide)).2.1 (by decide) 3).trans (by decide)⟩

/-! ## The tracker: what a refit writes -/

theorem Processed.tail {cargo : Nat} {v : VehicleUnit} {vs : List VehicleUnit} {i : Nat}
    (h : Processed cargo (v :: vs) (i + 1)) :
    Processed cargo vs i ∧
      ¬(HasBit v.refit_mask cargo = true ∧ v.type = VehicleType.VEH_AIRCRAFT) := by
  obtain ⟨⟨w, hw, hcap⟩, hprev⟩ := h
  refine ⟨⟨⟨w, by simpa using hw, hcap⟩, ?_⟩, hprev 0 v (by omega) rfl⟩
  intro j u hj hu
  exact hprev (j + 1) u (by omega) (by simpa using hu)

theorem handleRefitLoop_processed (cargo : Nat) (units : List VehicleUnit) :
    ∀ (slots : List RefitDesc) (caps : CapacitiesMap) (r : List RefitDesc × CapacitiesMap)
      (i : Nat) (v : VehicleUnit) (s : RefitDesc),
      handleRefitLoop cargo units slots caps = some r → Processed cargo units i →
      units.get? i = some v → slots.get? i = some s →
      r.1.get? i = some (refittedSlot cargo (v.DetermineCapacity cargo).1 s) := by
  induction units with
  | nil =>
    intro slots caps r i v s _ _ hv _
    simp at hv
  | cons u us ih =>
    intro slots caps r i v s h hp hv hs
    cases slots with
    | nil => simp at hs
    | cons s0 rest =>
      simp only [handleRefitLoop] at h
      cases i with
      | zero =>
        simp only [List.get?_cons_zero, Option.some.injEq] at hv hs
        subst hv hs
        obtain ⟨⟨w, hw, hcap⟩, _⟩ := hp
        simp only [List.get?_cons_zero, Option.some.injEq] at hw
        subst hw
        simp only [hcap, Bool.not_true, Bool.false_eq_true, if_false] at h
        by_cases hair : u.type = VehicleType.VEH_AIRCRAFT
        · simp only [hair, if_true] at h
          cases rest with
          | nil => simp at h
          | cons m rest2 =>
            simp only at h
            by_cases hm : (u.DetermineCapacity cargo).2 < m.remaining
            · rw [if_pos hm, Option.some.injEq] at h
              subst h
              rfl
            · rw [if_neg hm, Option.some.injEq] at h
              subst h
              rfl
        · simp only [hair, if_false, Option.map_eq_some'] at h
          obtain ⟨r1, _, rfl⟩ := h
          rfl
      | succ i =>
        obtain ⟨hp1, hna⟩ := hp.tail
        simp only [List.get?_cons_succ] at hv hs
        by_cases hcap : HasBit u.refit_mask cargo = true
        · have hair : ¬ u.type = VehicleType.VEH_AIRCRAFT := fun h => hna ⟨hcap, h⟩
          simp only [hcap, hair, Bool.not_true, Bool.false_eq_true, if_false,
            Option.map_eq_some'] at h
          obtain ⟨r1, hr1, rfl⟩ := h
          simpa using ih rest _ r1 i v s hr1 hp1 hv hs
        · simp only [hcap, Bool.not_false, if_true, Option.map_eq_some'] at h
          obtain ⟨r1, hr1, rfl⟩ := h
          simpa using ih rest _ r1 i v s hr1 hp1 hv hs

theorem refittedSlot_bounded (cargo amount : Nat) (s : RefitDesc) :
    (refittedSlot cargo amount s).remaining ≤ (refittedSlot cargo amount s).capacity := by
  unfold refittedSlot
  simp only
  split_ifs <;> omega

theorem handleRefitLoop_bounded (cargo : Nat) (units : List VehicleUnit) :
    ∀ (slots : List RefitDesc) (caps : CapacitiesMap) (r : List RefitDesc × CapacitiesMap),
      handleRefitLoop cargo units slots caps = some r →
      (∀ s ∈ slots, s.remaining ≤ s.capacity) → ∀ d ∈ r.1, d.remaining ≤ d.capacity := by
  induction units with
  | nil =>
    intro slots caps r h hb
    simp only [handleRefitLoop, Option.some.injEq] at h
    subst h
    exact hb
  | cons u us ih =>
    intro slots caps r h hb
    cases slots with
    | nil => simp [handleRefitLoop] at h
    | cons s0 rest =>
      have hrest : ∀ s ∈ rest, s.remaining ≤ s.capacity :=
        fun s hs => hb s (List.mem_cons_of_mem _ hs)
      simp only [handleRefitLoop] at h
      by_cases hcap : HasBit u.refit_mask cargo = true
      · simp only [hcap, Bool.not_true, Bool.false_eq_true, if_false] at h
        have h1 := refittedSlot_bounded cargo (u.DetermineCapacity cargo).1 s0
        by_cases hair : u.type = VehicleType.VEH_AIRCRAFT
        · simp only [hair, if_true] at h
          cases rest with
          | nil => simp at h
          | cons m rest2 =>
            simp only at h
            have hrest2 : ∀ s ∈ rest2, s.remaining ≤ s.capacity :=
              fun s hs => hrest s (List.mem_cons_of_mem _ hs)
            by_cases hm : (u.DetermineCapacity cargo).2 < m.remaining
            · rw [if_pos hm, Option.some.injEq] at h
              subst h
              intro d hd
              simp only [List.mem_cons] at hd
              rcases hd with rfl | rfl | hd
              · exact h1
              · exact le_refl _
              · exact hrest2 d hd
            · rw [if_neg hm, Option.some.injEq] at h
              subst h
              intro d hd
              simp only [List.mem_cons] at hd
              rcases hd with rfl | rfl | hd
              · exact h1
              · exact Nat.le_of_not_lt hm
              · exact hrest2 d hd
        · simp only [hair, if_false, Option.map_eq_some'] at h
          obtain ⟨r1, hr1, rfl⟩ := h
          intro d hd
          simp only [List.mem_cons] at hd
          rcases hd with rfl | hd
          · exact h1
          · exact ih rest _ r1 hr1 hrest d hd
      · simp only [hcap, Bool.not_false, if_true, Option.map_eq_some'] at h
        obtain ⟨r1, hr1, rfl⟩ := h
        intro d hd
        simp only [List.mem_cons] at hd
        rcases hd with rfl | hd
        · exact hb d (List.mem_cons_self _ _)
        · exact ih rest _ r1 hr1 hrest d hd

theorem applyOps_bounded (units : List VehicleUnit) (ops : List TrackerOp) :
    ∀ (t t1 : Tracker), (∀ s ∈ t.refit_capacities, s.remaining ≤ s.capacity) →
      applyOps units ops t = some t1 → ∀ d ∈ t1.refit_capacities, d.remaining ≤ d.capacity := by
  induction ops with
  | nil =>
    intro t t1 hb h
    simp only [applyOps, Option.some.injEq] at h
    subst h
    exact hb
  | cons op rest ih =>
    intro t t1 hb h
    cases op with
    | refit cargo =>
      simp only [applyOps] at h
      cases h2 : HandleRefit units cargo t with
      | none => simp [h2] at h
      | some t2 =>
        simp only [h2] at h
        refine ih t2 t1 ?_ h
        unfold HandleRefit at h2
        rw [Option.map_eq_some'] at h2
        obtain ⟨r, hr, rfl⟩ := h2
        exact handleRefitLoop_bounded cargo units _ _ r hr hb
    | reset =>
      simp only [applyOps] at h
      refine ih (ResetRefit t) t1 ?_ h
      intro d hd
      have hfst : (ResetRefit t).refit_capacities = t.refit_capacities.map RefitDesc.restored :=
        resetRefitLoop_fst _ _
      rw [hfst, List.mem_map] at hd
      obtain ⟨e, _, rfl⟩ := hd
      exact le_refl _

theorem HandleRefit_processed (units : List VehicleUnit) (cargo : Nat) (t t1 : Tracker) (i : Nat)
    (v : VehicleUnit) (s : RefitDesc) (h : HandleRefit units cargo t = some t1)
    (hp : Processed cargo units i) (hv : units.get? i = some v)
    (hs : t.refit_capacities.get? i = some s) :
    t1.refit_capacities.get? i = some (refittedSlot cargo (v.DetermineCapacity cargo).1 s) := by
  unfold HandleRefit at h
  rw [Option.map_eq_some'] at h
  obtain ⟨r, hr, rfl⟩ := h
  exact handleRefitLoop_processed cargo units _ _ r i v s hr hp hv hs

/-- C13: if every unit of the consist has `refit_cap <= cargo_cap`, then after
any finite sequence of `HandleRefit` and `ResetRefit` calls on the fresh
tracker every tracked unit has `0 <= remaining <= capacity`; and every unit
that a `HandleRefit` call processes has `remaining <= capacity` afterwards,
whatever its entry was before. -/
theorem unit_bound_invariant (units : List VehicleUnit) (ops : List TrackerOp) (t1 : Tracker)
    (hunits : ∀ v ∈ units, v.refit_cap ≤ v.cargo_cap)
    (h : applyOps units ops (Tracker.new units) = some t1) :
    (∀ d ∈ t1.refit_capacities, 0 ≤ d.remaining ∧ d.remaining ≤ d.capacity) ∧
    (∀ cargo t t2 i v s, HandleRefit units cargo t = some t2 → Processed cargo units i →
      units.get? i = some v → t.refit_capacities.get? i = some s →
      ∃ d, t2.refit_capacities.get? i = some d ∧ d.remaining ≤ d.capacity ∧
        d.capacity = (v.DetermineCapacity cargo).1 ∧ d.cargo = cargo) := by
  constructor
  · intro d hd
    refine ⟨Nat.zero_le _, applyOps_bounded units ops _ t1 ?_ h d hd⟩
    intro s hs
    rw [Tracker.new_refit_capacities, List.mem_map] at hs
    obtain ⟨v, hv, rfl⟩ := hs
    exact hunits v hv
  · intro cargo t t2 i v s h2 hp hv hs
    exact ⟨_, HandleRefit_processed units cargo t t2 i v s h2 hp hv hs,
      refittedSlot_bounded _ _ _, rfl, rfl⟩

theorem scenarioUnit_processed (cargo : Nat) (h : HasBit scenarioUnit.refit_mask cargo = true) :
    Processed cargo [scenarioUnit] 0 :=
  ⟨⟨scenarioUnit, rfl, h⟩, fun j _ hj => absurd hj (by omega)⟩

/-- Witness for C13 on the scenario consist: refit to cargo 7, reset, refit
back to cargo 3 leaves the unit with remaining 0 of capacity 100; and a refit
of an entry that had remaining 100 above its capacity 50 leaves it within
bounds. -/
theorem unit_bound_invariant_witness :
    applyOps [scenarioUnit] [TrackerOp.refit 7, TrackerOp.reset, TrackerOp.refit 3]
        (Tracker.new [scenarioUnit]) = some ⟨[(3, 0), (7, 0)], [⟨3, 100, 0⟩], 3⟩ ∧
    (∀ d ∈ (Tracker.mk [(3, 0), (7, 0)] [⟨3, 100, 0⟩] 3).refit_capacities,
      0 ≤ d.remaining ∧ d.remaining ≤ d.capacity) ∧
    HandleRefit [scenarioUnit] 7 ⟨[(3, 100)], [⟨3, 50, 100⟩], CT_INVALID⟩ =
      some ⟨[(3, 0)], [⟨7, 80, 0⟩], 7⟩ ∧
    (∃ d, (Tracker.mk [(3, 0)] [⟨7, 80, 0⟩] 7).refit_capacities.get? 0 = some d ∧
      d.remaining ≤ d.capacity ∧ d.capacity = (scenarioUnit.DetermineCapacity 7).1 ∧
      d.cargo = 7) := by
  have hops : applyOps [scenarioUnit] [TrackerOp.refit 7, TrackerOp.reset, TrackerOp.refit 3]
      (Tracker.new [scenarioUnit]) = some ⟨[(3, 0), (7, 0)], [⟨3, 100, 0⟩], 3⟩ := by decide
  have hrefit : HandleRefit [scenarioUnit] 7 ⟨[(3, 100)], [⟨3, 50, 100⟩], CT_INVALID⟩ =
      some ⟨[(3, 0)], [⟨7, 80, 0⟩], 7⟩ := by decide
  have hthm := unit_bound_invariant [scenarioUnit]
    [TrackerOp.refit 7, TrackerOp.reset, TrackerOp.refit 3] _
    (by intro v hv; rw [List.mem_singleton] at hv; subst hv; decide) hops
  exact ⟨hops, hthm.1, hrefit,
    hthm.2 7 _ _ 0 scenarioUnit ⟨3, 50, 100⟩ hrefit (scenarioUnit_processed 7 (by decide)) rfl rfl⟩

theorem handleRefitLoop_sum_le (cargo : Nat) (units : List VehicleUnit) (c : Nat)
    (hc : c ≠ cargo) :
    ∀ (slots : List RefitDesc) (caps : CapacitiesMap) (r : List RefitDesc × CapacitiesMap),
      handleRefitLoop cargo units slots caps = some r →
      sumRemaining r.1 c ≤ sumRemaining slots c := by
  induction units with
  | nil =>
    intro slots caps r h
    simp only [handleRefitLoop, Option.some.injEq] at h
    subst h
    exact le_refl _
  | cons u us ih =>
    intro slots caps r h
    cases slots with
    | nil => simp [handleRefitLoop] at h
    | cons s0 rest =>
      have hcc : ¬ cargo = c := fun h => hc h.symm
      simp only [handleRefitLoop] at h
      by_cases hcap : HasBit u.refit_mask cargo = true
      · simp only [hcap, Bool.not_true, Bool.false_eq_true, if_false] at h
        by_cases hair : u.type = VehicleType.VEH_AIRCRAFT
        · simp only [hair, if_true] at h
          cases rest with
          | nil => simp at h
          | cons m rest2 =>
            simp only at h
            by_cases hm : (u.DetermineCapacity cargo).2 < m.remaining
            · rw [if_pos hm, Option.some.injEq] at h
              subst h
              simp only [sumRemaining_cons, hcc, if_false]
              split_ifs <;> omega
            · rw [if_neg hm, Option.some.injEq] at h
              subst h
              simp only [sumRemaining_cons, hcc, if_false]
              split_ifs <;> omega
        · simp only [hair, if_false, Option.map_eq_some'] at h
          obtain ⟨r1, hr1, rfl⟩ := h
          have := ih rest _ r1 hr1
          simp only [sumRemaining_cons, hcc, if_false]
          omega
      · simp only [hcap, Bool.not_false, if_true, Option.map_eq_some'] at h
        obtain ⟨r1, hr1, rfl⟩ := h
        have := ih rest _ r1 hr1
        simp only [sumRemaining_cons]
        omega

theorem handleRefitLoop_sum_processed (cargo : Nat) (units : List VehicleUnit) :
    ∀ (slots : List RefitDesc) (caps : CapacitiesMap) (r : List RefitDesc × CapacitiesMap)
      (i : Nat) (s : RefitDesc),
      handleRefitLoop cargo units slots caps = some r → Processed cargo units i →
      slots.get? i = some s → s.cargo ≠ cargo →
      sumRemaining r.1 s.cargo + s.remaining ≤ sumRemaining slots s.cargo := by
  induction units with
  | nil =>
    intro slots caps r i s _ hp _ _
    obtain ⟨⟨w, hw, _⟩, _⟩ := hp
    simp at hw
  | cons u us ih =>
    intro slots caps r i s h hp hs hne
    cases slots with
    | nil => simp at hs
    | cons s0 rest =>
      have hcc : ¬ cargo = s.cargo := fun h => hne h.symm
      cases i with
      | zero =>
        simp only [List.get?_cons_zero, Option.some.injEq] at hs
        subst hs
        obtain ⟨⟨w, hw, hcap⟩, _⟩ := hp
        simp only [List.get?_cons_zero, Option.some.injEq] at hw
        subst hw
        simp only [handleRefitLoop] at h
        simp only [hcap, Bool.not_true, Bool.false_eq_true, if_false] at h
        by_cases hair : u.type = VehicleType.VEH_AIRCRAFT
        · simp only [hair, if_true] at h
          cases rest with
          | nil => simp at h
          | cons m rest2 =>
            simp only at h
            by_cases hm : (u.DetermineCapacity cargo).2 < m.remaining
            · rw [if_pos hm, Option.some.injEq] at h
              subst h
              simp only [sumRemaining_cons, hcc, if_false, if_true]
              split_ifs <;> omega
            · rw [if_neg hm, Option.some.injEq] at h
              subst h
              simp only [sumRemaining_cons, hcc, if_false, if_true]
              split_ifs <;> omega
        · simp only [hair, if_false, Option.map_eq_some'] at h
          obtain ⟨r1, hr1, rfl⟩ := h
          have := handleRefitLoop_sum_le cargo us s0.cargo hne rest _ r1 hr1
          simp only [sumRemaining_cons, hcc, if_false, if_true]
          omega
      | succ i =>
        obtain ⟨hp1, hna⟩ := hp.tail
        simp only [List.get?_cons_succ] at hs
        simp only [handleRefitLoop] at h
        by_cases hcap : HasBit u.refit_mask cargo = true
        · have hair : ¬ u.type = VehicleType.VEH_AIRCRAFT := fun h => hna ⟨hcap, h⟩
          simp only [hcap, hair, Bool.not_true, Bool.false_eq_true, if_false,
            Option.map_eq_some'] at h
          obtain ⟨r1, hr1, rfl⟩ := h
          have := ih rest _ r1 i s hr1 hp1 hs hne
          simp only [sumRemaining_cons, hcc, if_false]
          split_ifs <;> omega
        · simp only [hcap, Bool.not_false, if_true, Option.map_eq_some'] at h
          obtain ⟨r1, hr1, rfl⟩ := h
          have := ih rest _ r1 i s hr1 hp1 hs hne
          simp only [sumRemaining_cons]
          omega

/-- C16, counterexample: on the scenario unit (100 of cargo 3) the refit to
cargo 7 empties the bucket of cargo 3 but credits nothing to cargo 7: the
bucket of cargo 7 stays 0 and the unit's remaining becomes 0, not the
simulated capacity 80. -/
theorem HandleRefit_does_not_credit_target :
    HandleRefit [scenarioUnit] 7 (Tracker.new [scenarioUnit]) =
      some ⟨[(3, 0)], [⟨7, 80, 0⟩], 7⟩ ∧
    (Tracker.mk [(3, 0)] [⟨7, 80, 0⟩] 7).capacities.get 7 = 0 ∧
    (scenarioUnit.DetermineCapacity 7).1 = 80 := by
  refine ⟨by decide, by decide, by decide⟩

/-- C16, amended: under the tracker invariant, for every unit that a
returning `HandleRefit` processes (a unit able to carry the target cargo with
no aircraft unit able to carry it earlier in the consist, as the loop is left
after the first such aircraft unit) whose previous cargo differs from the
target cargo and whose remaining is positive, `HandleRefit` sets the unit's
cargo to the target cargo, its nominal capacity to the simulated primary
capacity and its remaining to 0, and the previous cargo's bucket loses at
least the previous remaining; no bucket grows, the target cargo's included,
and the invariant is kept, so the simulated capacity reaches the target
bucket only with a later `ResetRefit`. -/
theorem HandleRefit_moves_out_of_previous_bucket (units : List VehicleUnit) (cargo : Nat)
    (t t1 : Tracker) (i : Nat) (v : VehicleUnit) (s : RefitDesc)
    (hinv : TrackerInv t) (hr : InRange t.capacities)
    (h : HandleRefit units cargo t = some t1) (hp : Processed cargo units i)
    (hv : units.get? i = some v) (hs : t.refit_capacities.get? i = some s)
    (hne : s.cargo ≠ cargo) (hpos : 0 < s.remaining) :
    t1.refit_capacities.get? i = some ⟨cargo, (v.DetermineCapacity cargo).1, 0⟩ ∧
    t1.capacities.get s.cargo + s.remaining ≤ t.capacities.get s.cargo ∧
    (∀ c, t1.capacities.get c ≤ t.capacities.get c) ∧
    TrackerInv t1 ∧
    ((∀ c, sumCapacity t1.refit_capacities c < 4294967296) →
      (ResetRefit t1).capacities.get cargo = sumCapacity t1.refit_capacities cargo) := by
  obtain ⟨hinv1, _, hle⟩ := HandleRefit_inv units cargo t t1 hinv hr h
  have hslot := HandleRefit_processed units cargo t t1 i v s h hp hv hs
  refine ⟨?_, ?_, hle, hinv1, fun hcap => (ResetRefit_inv t1 hinv1 hcap).2.2 cargo⟩
  · rw [hslot]
    unfold refittedSlot
    have hcs : cargo ≠ s.cargo := fun h => hne h.symm
    simp [hcs, hpos]
  · rw [hinv1 s.cargo, hinv s.cargo]
    unfold HandleRefit at h
    rw [Option.map_eq_some'] at h
    obtain ⟨r, hr1, rfl⟩ := h
    exact handleRefitLoop_sum_processed cargo units _ _ r i s hr1 hp hs hne

/-- Witness for the amended C16 on the scenario unit and the refit to cargo
7. -/
theorem HandleRefit_moves_out_of_previous_bucket_witness :
    (Tracker.mk [(3, 0)] [⟨7, 80, 0⟩] 7).refit_capacities.get? 0 =
      some ⟨7, (scenarioUnit.DetermineCapacity 7).1, 0⟩ ∧
    (Tracker.mk [(3, 0)] [⟨7, 80, 0⟩] 7).capacities.get (RefitDesc.mk 3 100 100).cargo +
        (RefitDesc.mk 3 100 100).remaining ≤
      (Tracker.new [scenarioUnit]).capacities.get (RefitDesc.mk 3 100 100).cargo ∧
    (∀ c, (Tracker.mk [(3, 0)] [⟨7, 80, 0⟩] 7).capacities.get c ≤
      (Tracker.new [scenarioUnit]).capacities.get c) ∧
    TrackerInv ⟨[(3, 0)], [⟨7, 80, 0⟩], 7⟩ ∧
    ((∀ c, sumCapacity (Tracker.mk [(3, 0)] [⟨7, 80, 0⟩] 7).refit_capacities c < 4294967296) →
      (ResetRefit ⟨[(3, 0)], [⟨7, 80, 0⟩], 7⟩).capacities.get 7 =
        sumCapacity (Tracker.mk [(3, 0)] [⟨7, 80, 0⟩] 7).refit_capacities 7) :=
  HandleRefit_moves_out_of_previous_bucket [scenarioUnit] 7 (Tracker.new [scenarioUnit])
    ⟨[(3, 0)], [⟨7, 80, 0⟩], 7⟩ 0 scenarioUnit ⟨3, 100, 100⟩
    (Tracker.new_inv [scenarioUnit]
      (sumRemaining_single_lt (RefitDesc.ofUnit scenarioUnit) (by decide))).1
    (Tracker.new_inv [scenarioUnit]
      (sumRemaining_single_lt (RefitDesc.ofUnit scenarioUnit) (by decide))).2
    (by decide) (scenarioUnit_processed 7 (by decide)) rfl (by decide) (by decide) (by decide)

/-! ## The order returned by `PredictNextOrder` -/

theorem PredictNextOrder_not_conditional (stations : StationPool) (units : List VehicleUnit)
    (ol : OrderList) (allow_merge : Bool) (fuel : Nat) :
    ∀ t sh cur next flags n o sh1,
      PredictNextOrder stations units ol allow_merge fuel t sh cur next flags n =
        Outcome.done (some o, sh1) → o.IsType OrderType.OT_CONDITIONAL = false := by
  induction fuel with
  | zero =>
    intro t sh cur next flags n o sh1 h
    simp [PredictNextOrder] at h
  | succ fuel ih =>
    intro t sh cur next flags n o sh1 h
    cases next with
    | none => simp [PredictNextOrder] at h
    | some next =>
      simp only [PredictNextOrder] at h
      split at h
      · rename_i hc
        simp only [Outcome.done.injEq, Prod.mk.injEq, Option.some.injEq] at h
        rw [← h.1]
        cases hcond : next.IsType OrderType.OT_CONDITIONAL
        · rfl
        · simp [hcond] at hc
      · split at h
        · exact absurd h (by simp)
        · exact absurd h (by simp)
        · exact ih _ _ _ _ _ _ _ _ h

theorem PredictNextOrder_advances (stations : StationPool) (units : List VehicleUnit)
    (ol : OrderList) (allow_merge : Bool) (fuel : Nat) (t : Tracker) (sh : Shared) (cur next : Order)
    (flags : RefreshFlags) (n : Nat) (r : Option Order × Shared)
    (hc : (!flags.USE_NEXT || next.IsType OrderType.OT_CONDITIONAL) = true)
    (h : PredictNextOrder stations units ol allow_merge (fuel + 1) t sh cur (some next) flags n =
      Outcome.done r) :
    ∃ sh0, sh.Grows sh0 ∧
      PredictNextOrder stations units ol allow_merge fuel t sh0 cur
        (ol.GetNextDecisionNode (ol.GetNext next) n) { flags with USE_NEXT := true } (n + 1) =
        Outcome.done r := by
  simp only [PredictNextOrder, hc, Bool.not_true, Bool.false_eq_true, if_false] at h
  split at h
  · exact absurd h (by simp)
  · exact absurd h (by simp)
  · rename_i sh1 hb
    refine ⟨sh1, ?_, h⟩
    split at hb
    · split at hb
      · simp only [Outcome.done.injEq] at hb
        subst hb
        exact Shared.Grows.refl sh
      · split at hb
        · split at hb
          · rename_i r1 hr1
            simp only [Outcome.done.injEq] at hb
            subst hb
            exact (Shared.Grows.record sh [Event.enter (n + 1)] rfl rfl).trans
              (((walker_grows stations units ol allow_merge fuel).1 _ _ _ _ _ _ _ hr1).trans
                (Shared.Grows.record _ [Event.exit (n + 1)] rfl rfl))
          · exact absurd hb (by simp)
          · exact absurd hb (by simp)
        · simp only [Outcome.done.injEq] at hb
          subst hb
          exact Shared.Grows.refl sh
    · simp only [Outcome.done.injEq] at hb
      subst hb
      exact Shared.Grows.refl sh

/-- C19: the order `PredictNextOrder` returns is absent or not conditional
(an absent input gives an absent result); when `USE_NEXT` is set and `next` is
not conditional, `next` is returned at once with the shared state untouched
(no branch, no event); when `USE_NEXT` is unset, the result is the one of the
loop continued from the advanced order
`GetNextDecisionNode(GetNext(next), num_hops)` with `num_hops + 1`, so the
input order is not returned without at least one advance. -/
theorem PredictNextOrder_result (stations : StationPool) (units : List VehicleUnit)
    (ol : OrderList) (allow_merge : Bool) (fuel : Nat) (t : Tracker) (sh : Shared) (cur : Order)
    (flags : RefreshFlags) (n : Nat) :
    (∀ next o sh1,
      PredictNextOrder stations units ol allow_merge fuel t sh cur next flags n =
        Outcome.done (some o, sh1) → o.IsType OrderType.OT_CONDITIONAL = false) ∧
    PredictNextOrder stations units ol allow_merge (fuel + 1) t sh cur none flags n =
      Outcome.done (none, sh) ∧
    (∀ next, flags.USE_NEXT = true → next.IsType OrderType.OT_CONDITIONAL = false →
      PredictNextOrder stations units ol allow_merge (fuel + 1) t sh cur (some next) flags n =
        Outcome.done (some next, sh)) ∧
    (∀ next r, flags.USE_NEXT = false →
      PredictNextOrder stations units ol allow_merge (fuel + 1) t sh cur (some next) flags n =
        Outcome.done r →
      ∃ sh0, sh.Grows sh0 ∧
        PredictNextOrder stations units ol allow_merge fuel t sh0 cur
          (ol.GetNextDecisionNode (ol.GetNext next) n) { flags with USE_NEXT := true } (n + 1) =
          Outcome.done r) := by
  refine ⟨fun next o sh1 h => ?_, ?_, fun next hu hc => ?_, fun next r hu h => ?_⟩
  · exact PredictNextOrder_not_conditional stations units ol allow_merge fuel _ _ _ _ _ _ _ _ h
  · simp only [PredictNextOrder]
  · simp only [PredictNextOrder, hu, hc, Bool.not_true, Bool.or_false, Bool.not_false, if_true]
  · exact PredictNextOrder_advances stations units ol allow_merge fuel t sh cur next flags n r
      (by simp [hu]) h

/-- Witness for C19 on the scenario program: from `B` with `USE_NEXT` set, `B`
is returned; from `A` with `USE_NEXT` unset, the next order `B` is returned;
from `B` with `USE_NEXT` unset, the conditional order `C` is passed and `A` is
returned. -/
theorem PredictNextOrder_result_witness :
    (PredictNextOrder (scenarioStations (fun _ _ => 0)) [scenarioUnit]
        (OrderList.ofList scenarioOrders) true 1 (Tracker.new [scenarioUnit]) ⟨[], []⟩ scenarioA
        (some scenarioB) ⟨true, false, false, false⟩ 0).toOption.map
      (fun r => (r.1.map Order.index, r.2.seen_hops)) = some (some 1, []) ∧
    (PredictNextOrder (scenarioStations (fun _ _ => 0)) [scenarioUnit]
        (OrderList.ofList scenarioOrders) true 2 (Tracker.new [scenarioUnit]) ⟨[], []⟩ scenarioA
        (some scenarioA) ⟨false, false, false, false⟩ 0).toOption.map
      (fun r => (r.1.map Order.index, r.2.seen_hops)) = some (some 1, []) ∧
    (PredictNextOrder (scenarioStations (fun _ _ => 0)) [scenarioUnit]
        (OrderList.ofList scenarioOrders) true 8 (Tracker.new [scenarioUnit]) ⟨[], []⟩ scenarioB
        (some scenarioB) ⟨false, false, false, false⟩ 0).toOption.map
      (fun r => r.1.map Order.index) = some (some 0) ∧
    PredictNextOrder (scenarioStations (fun _ _ => 0)) [scenarioUnit]
        (OrderList.ofList scenarioOrders) true 1 (Tracker.new [scenarioUnit]) ⟨[], []⟩ scenarioA
        (some scenarioB) ⟨true, false, false, false⟩ 0 =
      Outcome.done (some scenarioB, ⟨[], []⟩) :=
  ⟨by decide, by decide, by decide,
    (PredictNextOrder_result (scenarioStations (fun _ _ => 0)) [scenarioUnit]
      (OrderList.ofList scenarioOrders) true 0 (Tracker.new [scenarioUnit]) ⟨[], []⟩ scenarioA
      ⟨true, false, false, false⟩ 0).2.2.1 scenarioB rfl rfl⟩

/-! ## The walker: an induction principle for returning calls -/

theorem walker_induction (stations : StationPool) (units : List VehicleUnit) (ol : OrderList)
    (allow_merge : Bool)
    (PR : Tracker → Shared → Order → Option Order → RefreshFlags → Nat → Tracker × Shared → Prop)
    (PP : Tracker → Shared → Order → Option Order → RefreshFlags → Nat →
      Option Order × Shared → Prop)
    (hR_none : ∀ t sh cur flags n, PR t sh cur none flags n (t, sh))
    (hR_stop : ∀ t sh cur next flags n t1 flags1 sh1 sh2,
      refitStep units next t flags sh = some (t1, flags1, sh1) →
      PP t1 sh1 cur (some next) flags1 n (none, sh2) →
      PR t sh cur (some next) flags n (t1, sh2))
    (hR_seen : ∀ t sh cur next flags n t1 flags1 sh1 next1 sh2,
      refitStep units next t flags sh = some (t1, flags1, sh1) →
      PP t1 sh1 cur (some next) flags1 n (some next1, sh2) →
      HopSet.find sh2.seen_hops ⟨cur.index, next1.index, t1.cargo⟩ = true →
      PR t sh cur (some next) flags n (t1, sh2))
    (hR_pass : ∀ t sh cur next flags n t1 flags1 sh1 next1 sh2 r,
      refitStep units next t flags sh = some (t1, flags1, sh1) →
      PP t1 sh1 cur (some next) flags1 n (some next1, sh2) →
      HopSet.find sh2.seen_hops ⟨cur.index, next1.index, t1.cargo⟩ = false →
      (!next1.IsType OrderType.OT_GOTO_STATION && !next1.IsType OrderType.OT_IMPLICIT) = true →
      PR t1 ⟨sh2.seen_hops ++ [⟨cur.index, next1.index, t1.cargo⟩],
          sh2.trace ++ [Event.insert ⟨cur.index, next1.index, t1.cargo⟩]⟩
        cur (some next1) { flags1 with USE_NEXT := false } n r →
      PR t sh cur (some next) flags n r)
    (hR_cargo : ∀ t sh cur next flags n t1 flags1 sh1 next1 sh2 r,
      refitStep units next t flags sh = some (t1, flags1, sh1) →
      PP t1 sh1 cur (some next) flags1 n (some next1, sh2) →
      HopSet.find sh2.seen_hops ⟨cur.index, next1.index, t1.cargo⟩ = false →
      (!next1.IsType OrderType.OT_GOTO_STATION && !next1.IsType OrderType.OT_IMPLICIT) = false →
      PR (cargoStep stations allow_merge cur next1 t1 { flags1 with USE_NEXT := false }
            ⟨sh2.seen_hops ++ [⟨cur.index, next1.index, t1.cargo⟩],
              sh2.trace ++ [Event.insert ⟨cur.index, next1.index, t1.cargo⟩]⟩).1
        (cargoStep stations allow_merge cur next1 t1 { flags1 with USE_NEXT := false }
            ⟨sh2.seen_hops ++ [⟨cur.index, next1.index, t1.cargo⟩],
              sh2.trace ++ [Event.insert ⟨cur.index, next1.index, t1.cargo⟩]⟩).2.2
        next1 (some next1)
        (cargoStep stations allow_merge cur next1 t1 { flags1 with USE_NEXT := false }
            ⟨sh2.seen_hops ++ [⟨cur.index, next1.index, t1.cargo⟩],
              sh2.trace ++ [Event.insert ⟨cur.index, next1.index, t1.cargo⟩]⟩).2.1 n r →
      PR t sh cur (some next) flags n r)
    (hP_none : ∀ t sh cur flags n, PP t sh cur none flags n (none, sh))
    (hP_accept : ∀ t sh cur next flags n,
      (!flags.USE_NEXT || next.IsType OrderType.OT_CONDITIONAL) = false →
      PP t sh cur (some next) flags n (some next, sh))
    (hP_step : ∀ t sh cur next flags n r,
      (!flags.USE_NEXT || next.IsType OrderType.OT_CONDITIONAL) = true →
      ¬(next.IsType OrderType.OT_CONDITIONAL = true ∧
        (∃ skip_to, ol.GetNextDecisionNode (ol.GetOrderAt next.GetConditionSkipToOrder) n =
          some skip_to) ∧ n < ol.GetNumOrders) →
      PP t sh cur (ol.GetNextDecisionNode (ol.GetNext next) n) { flags with USE_NEXT := true }
        (n + 1) r →
      PP t sh cur (some next) flags n r)
    (hP_fork : ∀ t sh cur next flags n skip_to rc r,
      (!flags.USE_NEXT || next.IsType OrderType.OT_CONDITIONAL) = true →
      next.IsType OrderType.OT_CONDITIONAL = true →
      ol.GetNextDecisionNode (ol.GetOrderAt next.GetConditionSkipToOrder) n = some skip_to →
      n < ol.GetNumOrders →
      PR t (sh.record [Event.enter (n + 1)]) cur (some skip_to) { flags with USE_NEXT := true }
        (n + 1) rc →
      PP t (rc.2.record [Event.exit (n + 1)]) cur
        (ol.GetNextDecisionNode (ol.GetNext next) n) { flags with USE_NEXT := true } (n + 1) r →
      PP t sh cur (some next) flags n r)
    (fuel : Nat) :
    (∀ t sh cur next flags n r,
      RefreshLinks stations units ol allow_merge fuel t sh cur next flags n = Outcome.done r →
      PR t sh cur next flags n r) ∧
    (∀ t sh cur next flags n r,
      PredictNextOrder stations units ol allow_merge fuel t sh cur next flags n = Outcome.done r →
      PP t sh cur next flags n r) := by
  induction fuel with
  | zero =>
    constructor
    · intro t sh cur next flags n r h
      simp [RefreshLinks] at h
    · intro t sh cur next flags n r h
      simp [PredictNextOrder] at h
  | succ fuel ih =>
    obtain ⟨ihR, ihP⟩ := ih
    constructor
    · intro t sh cur next flags n r h
      cases next with
      | none =>
        simp only [RefreshLinks, Outcome.done.injEq] at h
        subst h
        exact hR_none t sh cur flags n
      | some next =>
        cases hs : refitStep units next t flags sh with
        | none => simp [RefreshLinks, hs] at h
        | some x =>
          obtain ⟨t1, flags1, sh1⟩ := x
          simp only [RefreshLinks, hs] at h
          cases hq : PredictNextOrder stations units ol allow_merge fuel t1 sh1 cur (some next)
              flags1 n with
          | timeout => simp [hq] at h
          | fault => simp [hq] at h
          | done p =>
            obtain ⟨o, sh2⟩ := p
            have hp := ihP _ _ _ _ _ _ _ hq
            simp only [hq] at h
            cases o with
            | none =>
              simp only [Outcome.done.injEq] at h
              subst h
              exact hR_stop _ _ _ _ _ _ _ _ _ _ hs hp
            | some next1 =>
              simp only at h
              cases hfind : HopSet.find sh2.seen_hops ⟨cur.index, next1.index, t1.cargo⟩ with
              | true =>
                simp only [hfind, if_true, Outcome.done.injEq] at h
                subst h
                exact hR_seen _ _ _ _ _ _ _ _ _ _ _ hs hp hfind
              | false =>
                simp only [hfind, Bool.false_eq_true, if_false] at h
                cases hk : (!next1.IsType OrderType.OT_GOTO_STATION &&
                    !next1.IsType OrderType.OT_IMPLICIT) with
                | true =>
                  simp only [hk, if_true] at h
                  exact hR_pass _ _ _ _ _ _ _ _ _ _ _ _ hs hp hfind hk (ihR _ _ _ _ _ _ _ h)
                | false =>
                  simp only [hk, Bool.false_eq_true, if_false] at h
                  exact hR_cargo _ _ _ _ _ _ _ _ _ _ _ _ hs hp hfind hk (ihR _ _ _ _ _ _ _ h)
    · intro t sh cur next flags n r h
      cases next with
      | none =>
        simp only [PredictNextOrder, Outcome.done.injEq] at h
        subst h
        exact hP_none t sh cur flags n
      | some next =>
        cases hc : (!flags.USE_NEXT || next.IsType OrderType.OT_CONDITIONAL) with
        | false =>
          simp only [PredictNextOrder, hc, Bool.not_false, if_true, Outcome.done.injEq] at h
          subst h
          exact hP_accept _ _ _ _ _ _ hc
        | true =>
          simp only [PredictNextOrder, hc, Bool.not_true, Bool.false_eq_true, if_false] at h
          cases hcond : next.IsType OrderType.OT_CONDITIONAL with
          | false =>
            simp only [hcond, Bool.false_eq_true, if_false] at h
            exact hP_step _ _ _ _ _ _ _ hc (fun hx => by simp [hcond] at hx) (ihP _ _ _ _ _ _ _ h)
          | true =>
            simp only [hcond, if_true] at h
            cases hg : ol.GetNextDecisionNode (ol.GetOrderAt next.GetConditionSkipToOrder) n with
            | none =>
              simp only [hg] at h
              exact hP_step _ _ _ _ _ _ _ hc (fun hx => by simp [hg] at hx) (ihP _ _ _ _ _ _ _ h)
            | some skip_to =>
              simp only [hg] at h
              by_cases hn : n < ol.GetNumOrders
              · simp only [hn, if_true] at h
                cases hq : RefreshLinks stations units ol allow_merge fuel t
                    (sh.record [Event.enter (n + 1)]) cur (some skip_to)
                    { flags with USE_NEXT := true } (n + 1) with
                | timeout => simp [hq] at h
                | fault => simp [hq] at h
                | done rc =>
                  simp only [hq] at h
                  exact hP_fork _ _ _ _ _ _ _ _ _ hc hcond hg hn (ihR _ _ _ _ _ _ _ hq)
                    (ihP _ _ _ _ _ _ _ h)
              · simp only [hn, if_false] at h
                exact hP_step _ _ _ _ _ _ _ hc (fun hx => hn hx.2.2) (ihP _ _ _ _ _ _ _ h)

/-! ## The walker: the events of one iteration -/

theorem runCheck_append {σ : Type} (step : σ → Event → Option σ) (a b : List Event) :
    ∀ s, runCheck step s (a ++ b) = (runCheck step s a).bind (fun s1 => runCheck step s1 b) := by
  induction a with
  | nil => intro s; rfl
  | cons e es ih =>
    intro s
    simp only [List.cons_append, runCheck]
    cases step s e with
    | none => rfl
    | some s1 => exact ih s1

theorem runCheck_of_fixed {σ : Type} (step : σ → Event → Option σ) (s : σ) (es : List Event)
    (h : ∀ e ∈ es, step s e = some s) : runCheck step s es = some s := by
  induction es with
  | nil => rfl
  | cons e es ih =>
    simp only [runCheck, h e (List.mem_cons_self _ _)]
    exact ih (fun x hx => h x (List.mem_cons_of_mem _ hx))

theorem refitStep_eq (units : List VehicleUnit) (next : Order) (t : Tracker)
    (flags : RefreshFlags) (sh : Shared) (t1 : Tracker) (flags1 : RefreshFlags) (sh1 : Shared)
    (h : refitStep units next t flags sh = some (t1, flags1, sh1)) :
    sh1.trace = sh.trace ++ refitEvents next ∧ sh1.seen_hops = sh.seen_hops ∧
    flags1.HAS_CARGO = flags.HAS_CARGO ∧ flags1.USE_NEXT = flags.USE_NEXT ∧
    (if next.IsExplicitRefit = true then HandleRefit units next.GetRefitCargo t = some t1
      else t1 = t) := by
  unfold refitStep at h
  simp only [Option.map_eq_some'] at h
  obtain ⟨x, hx, hxe⟩ := h
  simp only [Prod.mk.injEq] at hxe
  obtain ⟨rfl, rfl, rfl⟩ := hxe
  by_cases hc : next.IsExplicitRefit = true
  · have hc1 := hc
    unfold Order.IsExplicitRefit at hc1
    rw [if_pos hc1, Option.map_eq_some'] at hx
    obtain ⟨t2, ht2, rfl⟩ := hx
    refine ⟨?_, rfl, rfl, rfl, ?_⟩
    · simp only [refitEvents, hc, if_true]
      rfl
    · rw [if_pos hc]
      exact ht2
  · have hc1 := hc
    unfold Order.IsExplicitRefit at hc1
    rw [if_neg hc1, Option.some.injEq] at hx
    subst hx
    refine ⟨?_, rfl, rfl, rfl, ?_⟩
    · simp only [refitEvents, hc, if_false, List.append_nil, Bool.false_eq_true]
    · rw [if_neg hc]

theorem cargoStep_eq (stations : StationPool) (allow_merge : Bool) (cur next : Order)
    (t : Tracker) (flags : RefreshFlags) (sh : Shared) :
    (cargoStep stations allow_merge cur next t flags sh).2.2.trace =
      sh.trace ++ cargoEvents stations allow_merge cur next t flags ∧
    (cargoStep stations allow_merge cur next t flags sh).2.2.seen_hops = sh.seen_hops ∧
    (cargoStep stations allow_merge cur next t flags sh).1 =
      (if flags.RESET_REFIT = true then ResetRefit t else t) ∧
    (cargoStep stations allow_merge cur next t flags sh).2.1.HAS_CARGO =
      (if cur.IsCargoStop = true then cur.CanLeaveWithCargo flags.HAS_CARGO
        else flags.HAS_CARGO) := by
  unfold cargoStep cargoEvents Order.IsCargoStop
  simp only
  by_cases hr : flags.RESET_REFIT = true <;>
    by_cases hc : (cur.IsType OrderType.OT_GOTO_STATION || cur.IsType OrderType.OT_IMPLICIT) = true <;>
    by_cases hl : cur.CanLeaveWithCargo flags.HAS_CARGO = true <;>
    simp [hr, hc, hl, Shared.record]

theorem refitEvents_noFrame (next : Order) : ∀ e ∈ refitEvents next, e.isFrame = false := by
  intro e he
  unfold refitEvents at he
  split_ifs at he
  · rw [List.mem_singleton] at he
    subst he
    rfl
  · exact absurd he (List.not_mem_nil _)

theorem cargoEvents_noFrame (stations : StationPool) (allow_merge : Bool) (cur next : Order)
    (t : Tracker) (flags : RefreshFlags) :
    ∀ e ∈ cargoEvents stations allow_merge cur next t flags, e.isFrame = false := by
  intro e he
  unfold cargoEvents at he
  rw [List.mem_append] at he
  rcases he with he | he
  · split_ifs at he
    · rw [List.mem_singleton] at he
      subst he
      rfl
    · exact absurd he (List.not_mem_nil _)
  · by_cases hc : cur.IsCargoStop = true
    · rw [if_pos hc] at he
      by_cases hl : cur.CanLeaveWithCargo flags.HAS_CARGO = true
      · rw [if_pos hl, List.mem_append] at he
        rcases he with he | he
        · simp only [List.mem_cons, List.mem_singleton, List.not_mem_nil, or_false] at he
          rcases he with rfl | rfl <;> rfl
        · rw [List.mem_map] at he
          obtain ⟨c, _, rfl⟩ := he
          rfl
      · rw [if_neg hl, List.mem_singleton] at he
        subst he
        rfl
    · rw [if_neg hc] at he
      exact absurd he (List.not_mem_nil _)

/-! ## The walker: depth of the forked branches -/

theorem nestStep_noFrame (N : Nat) (st : List Nat) (e : Event) (h : e.isFrame = false) :
    nestStep N st e = some st := by
  cases e <;> first | rfl | (simp [Event.isFrame] at h)

theorem Balanced.nil (N p : Nat) : Balanced N p [] := fun _ _ _ => rfl

theorem Balanced.append {N p : Nat} {a b : List Event} (ha : Balanced N p a)
    (hb : Balanced N p b) : Balanced N p (a ++ b) := by
  intro st h1 h2
  rw [runCheck_append, ha st h1 h2]
  exact hb st h1 h2

theorem Balanced.of_noFrame (N p : Nat) (tr : List Event) (h : ∀ e ∈ tr, e.isFrame = false) :
    Balanced N p tr :=
  fun _ _ _ => runCheck_of_fixed _ _ _ (fun e he => nestStep_noFrame N _ e (h e he))

theorem Balanced.fork {N p m : Nat} {tr : List Event} (hp : p ≤ m) (hm : m < N)
    (h : Balanced N (m + 1) tr) :
    Balanced N p ([Event.enter (m + 1)] ++ tr ++ [Event.exit (m + 1)]) := by
  intro st h1 h2
  have hall : (p :: st).all (fun k => decide (k < m + 1)) = true := by
    rw [List.all_eq_true] at h2 ⊢
    intro x hx
    rcases List.mem_cons.1 hx with rfl | hx
    · simp only [decide_eq_true_eq]; omega
    · have := h2 x hx
      simp only [decide_eq_true_eq] at this ⊢
      omega
  have hlen : (p :: st).length ≤ m + 1 := by
    simp only [List.length_cons]
    omega
  have hstep : nestStep N (p :: st) (Event.enter (m + 1)) = some ((m + 1) :: p :: st) := by
    have hcond : m + 1 ≤ N ∧ (p :: st).length ≤ m + 1 ∧
        (p :: st).all (fun k => decide (k < m + 1)) = true := ⟨by omega, hlen, hall⟩
    simp only [nestStep, hcond, and_self, if_true]
  rw [List.append_assoc, runCheck_append]
  simp only [runCheck, hstep, Option.bind]
  rw [runCheck_append, h (p :: st) hlen hall]
  simp [runCheck, nestStep, Option.bind]

theorem refitStep_some (units : List VehicleUnit) (next : Order) (t : Tracker)
    (flags : RefreshFlags) (sh : Shared) (t1 : Tracker) (flags1 : RefreshFlags) (sh1 : Shared)
    (h : refitStep units next t flags sh = some (t1, flags1, sh1)) :
    flags1 = refitFlags next flags ∧ sh1 = ⟨sh.seen_hops, sh.trace ++ refitEvents next⟩ ∧
    (if next.IsExplicitRefit = true then HandleRefit units next.GetRefitCargo t = some t1
      else t1 = t) := by
  unfold refitStep at h
  simp only [Option.map_eq_some'] at h
  obtain ⟨x, hx, hxe⟩ := h
  simp only [Prod.mk.injEq] at hxe
  obtain ⟨rfl, rfl, rfl⟩ := hxe
  by_cases hc : next.IsExplicitRefit = true
  · have hc1 := hc
    unfold Order.IsExplicitRefit at hc1
    rw [if_pos hc1, Option.map_eq_some'] at hx
    obtain ⟨t2, ht2, rfl⟩ := hx
    refine ⟨?_, ?_, ?_⟩
    · simp only [refitFlags, hc, if_true]
    · simp only [refitEvents, hc, if_true]
      rfl
    · rw [if_pos hc]
      exact ht2
  · have hc1 := hc
    unfold Order.IsExplicitRefit at hc1
    rw [if_neg hc1, Option.some.injEq] at hx
    subst hx
    refine ⟨?_, ?_, ?_⟩
    · simp only [refitFlags, hc, if_false, Bool.false_eq_true]
    · simp only [refitEvents, hc, if_false, List.append_nil, Bool.false_eq_true]
    · rw [if_neg hc]

theorem cargoStep_full (stations : StationPool) (allow_merge : Bool) (cur next : Order)
    (t : Tracker) (flags : RefreshFlags) (sh : Shared) :
    cargoStep stations allow_merge cur next t flags sh =
      (cargoTracker t flags, cargoFlags cur flags,
        ⟨sh.seen_hops, sh.trace ++ cargoEvents stations allow_merge cur next t flags⟩) := by
  unfold cargoStep cargoEvents cargoTracker cargoFlags Order.IsCargoStop
  simp only
  by_cases hr : flags.RESET_REFIT = true <;>
    by_cases hc : (cur.IsType OrderType.OT_GOTO_STATION || cur.IsType OrderType.OT_IMPLICIT) = true <;>
    by_cases hl : cur.CanLeaveWithCargo flags.HAS_CARGO = true <;>
    simp [hr, hc, hl, Shared.record]

/-! ## The walker: the events of a returning call -/

theorem walker_trace (stations : StationPool) (units : List VehicleUnit) (ol : OrderList)
    (allow_merge : Bool)
    (SR : Tracker → Order → Option Order → RefreshFlags → Nat → List Event → Tracker → Prop)
    (SP : Tracker → Order → Option Order → RefreshFlags → Nat → List Event → Option Order → Prop)
    (hR_none : ∀ t cur flags n, SR t cur none flags n [] t)
    (hR_stop : ∀ t cur next flags n t1 tp,
      (if next.IsExplicitRefit = true then HandleRefit units next.GetRefitCargo t = some t1
        else t1 = t) →
      SP t1 cur (some next) (refitFlags next flags) n tp none →
      SR t cur (some next) flags n (refitEvents next ++ tp) t1)
    (hR_seen : ∀ t cur next flags n t1 tp next1,
      (if next.IsExplicitRefit = true then HandleRefit units next.GetRefitCargo t = some t1
        else t1 = t) →
      SP t1 cur (some next) (refitFlags next flags) n tp (some next1) →
      SR t cur (some next) flags n (refitEvents next ++ tp) t1)
    (hR_pass : ∀ t cur next flags n t1 tp next1 tr r,
      (if next.IsExplicitRefit = true then HandleRefit units next.GetRefitCargo t = some t1
        else t1 = t) →
      SP t1 cur (some next) (refitFlags next flags) n tp (some next1) →
      next1.IsCargoStop = false →
      SR t1 cur (some next1) { refitFlags next flags with USE_NEXT := false } n tr r →
      SR t cur (some next) flags n
        (refitEvents next ++ tp ++ [Event.insert ⟨cur.index, next1.index, t1.cargo⟩] ++ tr) r)
    (hR_cargo : ∀ t cur next flags n t1 tp next1 tr r,
      (if next.IsExplicitRefit = true then HandleRefit units next.GetRefitCargo t = some t1
        else t1 = t) →
      SP t1 cur (some next) (refitFlags next flags) n tp (some next1) →
      next1.IsCargoStop = true →
      SR (cargoTracker t1 { refitFlags next flags with USE_NEXT := false }) next1 (some next1)
        (cargoFlags cur { refitFlags next flags with USE_NEXT := false }) n tr r →
      SR t cur (some next) flags n
        (refitEvents next ++ tp ++ [Event.insert ⟨cur.index, next1.index, t1.cargo⟩] ++
          cargoEvents stations allow_merge cur next1 t1
            { refitFlags next flags with USE_NEXT := false } ++ tr) r)
    (hP_none : ∀ t cur flags n, SP t cur none flags n [] none)
    (hP_accept : ∀ t cur next flags n,
      (!flags.USE_NEXT || next.IsType OrderType.OT_CONDITIONAL) = false →
      SP t cur (some next) flags n [] (some next))
    (hP_step : ∀ t cur next flags n tr o,
      (!flags.USE_NEXT || next.IsType OrderType.OT_CONDITIONAL) = true →
      ¬(next.IsType OrderType.OT_CONDITIONAL = true ∧
        (∃ skip_to, ol.GetNextDecisionNode (ol.GetOrderAt next.GetConditionSkipToOrder) n =
          some skip_to) ∧ n < ol.GetNumOrders) →
      SP t cur (ol.GetNextDecisionNode (ol.GetNext next) n) { flags with USE_NEXT := true }
        (n + 1) tr o →
      SP t cur (some next) flags n tr o)
    (hP_fork : ∀ t cur next flags n skip_to trc tc tr o,
      (!flags.USE_NEXT || next.IsType OrderType.OT_CONDITIONAL) = true →
      next.IsType OrderType.OT_CONDITIONAL = true →
      ol.GetNextDecisionNode (ol.GetOrderAt next.GetConditionSkipToOrder) n = some skip_to →
      n < ol.GetNumOrders →
      SR t cur (some skip_to) { flags with USE_NEXT := true } (n + 1) trc tc →
      SP t cur (ol.GetNextDecisionNode (ol.GetNext next) n) { flags with USE_NEXT := true }
        (n + 1) tr o →
      SP t cur (some next) flags n
        ([Event.enter (n + 1)] ++ trc ++ [Event.exit (n + 1)] ++ tr) o)
    (fuel : Nat) :
    (∀ t sh cur next flags n r,
      RefreshLinks stations units ol allow_merge fuel t sh cur next flags n = Outcome.done r →
      ∃ tr, r.2.trace = sh.trace ++ tr ∧ SR t cur next flags n tr r.1) ∧
    (∀ t sh cur next flags n r,
      PredictNextOrder stations units ol allow_merge fuel t sh cur next flags n = Outcome.done r →
      ∃ tr, r.2.trace = sh.trace ++ tr ∧ SP t cur next flags n tr r.1) := by
  apply walker_induction stations units ol allow_merge
    (fun t sh cur next flags n r => ∃ tr, r.2.trace = sh.trace ++ tr ∧ SR t cur next flags n tr r.1)
    (fun t sh cur next flags n r => ∃ tr, r.2.trace = sh.trace ++ tr ∧ SP t cur next flags n tr r.1)
  · intro t sh cur flags n
    exact ⟨[], (List.append_nil _).symm, hR_none t cur flags n⟩
  · intro t sh cur next flags n t1 flags1 sh1 sh2 hs hp
    obtain ⟨tp, htp, hsp⟩ := hp
    obtain ⟨rfl, rfl, ht1⟩ := refitStep_some _ _ _ _ _ _ _ _ hs
    refine ⟨refitEvents next ++ tp, ?_, hR_stop t cur next flags n t1 tp ht1 hsp⟩
    simp only at htp ⊢
    rw [htp, List.append_assoc]
  · intro t sh cur next flags n t1 flags1 sh1 next1 sh2 hs hp _
    obtain ⟨tp, htp, hsp⟩ := hp
    obtain ⟨rfl, rfl, ht1⟩ := refitStep_some _ _ _ _ _ _ _ _ hs
    refine ⟨refitEvents next ++ tp, ?_, hR_seen t cur next flags n t1 tp next1 ht1 hsp⟩
    simp only at htp ⊢
    rw [htp, List.append_assoc]
  · intro t sh cur next flags n t1 flags1 sh1 next1 sh2 r hs hp _ hk hr
    obtain ⟨tp, htp, hsp⟩ := hp
    obtain ⟨tr, htr, hsr⟩ := hr
    obtain ⟨rfl, rfl, ht1⟩ := refitStep_some _ _ _ _ _ _ _ _ hs
    have hk1 : next1.IsCargoStop = false := by
      unfold Order.IsCargoStop
      cases h1 : next1.IsType OrderType.OT_GOTO_STATION <;>
        cases h2 : next1.IsType OrderType.OT_IMPLICIT <;> simp [h1, h2] at hk ⊢
    refine ⟨_, ?_, hR_pass t cur next flags n t1 tp next1 tr r.1 ht1 hsp hk1 hsr⟩
    simp only at htp htr ⊢
    rw [htr, htp]
    simp only [List.append_assoc]
  · intro t sh cur next flags n t1 flags1 sh1 next1 sh2 r hs hp _ hk hr
    obtain ⟨tp, htp, hsp⟩ := hp
    obtain ⟨rfl, rfl, ht1⟩ := refitStep_some _ _ _ _ _ _ _ _ hs
    rw [cargoStep_full] at hr
    obtain ⟨tr, htr, hsr⟩ := hr
    have hk1 : next1.IsCargoStop = true := by
      unfold Order.IsCargoStop
      cases h1 : next1.IsType OrderType.OT_GOTO_STATION <;>
        cases h2 : next1.IsType OrderType.OT_IMPLICIT <;> simp [h1, h2] at hk ⊢
    refine ⟨_, ?_, hR_cargo t cur next flags n t1 tp next1 tr r.1 ht1 hsp hk1 hsr⟩
    simp only at htp htr ⊢
    rw [htr, htp]
    simp only [List.append_assoc]
  · intro t sh cur flags n
    exact ⟨[], (List.append_nil _).symm, hP_none t cur flags n⟩
  · intro t sh cur next flags n hc
    exact ⟨[], (List.append_nil _).symm, hP_accept t cur next flags n hc⟩
  · intro t sh cur next flags n r hc hnf hp
    obtain ⟨tr, htr, hsp⟩ := hp
    exact ⟨tr, htr, hP_step t cur next flags n tr r.1 hc hnf hsp⟩
  · intro t sh cur next flags n skip_to rc r hc hcond hg hn hrc hp
    obtain ⟨trc, htrc, hsc⟩ := hrc
    obtain ⟨tr, htr, hsp⟩ := hp
    refine ⟨_, ?_, hP_fork t cur next flags n skip_to trc rc.1 tr r.1 hc hcond hg hn hsc hsp⟩
    simp only [Shared.record] at htrc htr ⊢
    rw [htr, htrc]
    simp only [List.append_assoc]

theorem Run_done (fuel : Nat) (stations : StationPool) (v : Vehicle) (allow_merge : Bool)
    (r : RunResult) (h : Run fuel stations v allow_merge = Outcome.done r) :
    (r.refresher = none ∧ r.seen_hops = [] ∧ r.trace = []) ∨
    ∃ ol first rr, v.orders = some ol ∧
      ol.GetNextDecisionNode (v.GetOrder v.cur_implicit_order_index) 0 = some first ∧
      RefreshLinks stations v.units ol allow_merge fuel (Tracker.new v.units)
        ⟨[], [Event.enter 0]⟩ first (some first)
        ⟨false, decide (v.last_loading_station ≠ INVALID_STATION), false, false⟩ 0 =
        Outcome.done rr ∧
      r = ⟨some rr.1, rr.2.seen_hops, rr.2.trace ++ [Event.exit 0]⟩ := by
  unfold Run at h
  split at h
  · simp only [Outcome.done.injEq] at h
    subst h
    exact Or.inl ⟨rfl, rfl, rfl⟩
  · rename_i ol hol
    split at h
    · simp only [Outcome.done.injEq] at h
      subst h
      exact Or.inl ⟨rfl, rfl, rfl⟩
    · rename_i first hfirst
      split at h
      · rename_i rr hrr
        simp only [Outcome.done.injEq] at h
        exact Or.inr ⟨ol, first, rr, hol, hfirst, hrr, h.symm⟩
      · exact absurd h (by simp)
      · exact absurd h (by simp)

theorem walker_balanced (stations : StationPool) (units : List VehicleUnit) (ol : OrderList)
    (allow_merge : Bool) (fuel : Nat) :
    (∀ t sh cur next flags n r,
      RefreshLinks stations units ol allow_merge fuel t sh cur next flags n = Outcome.done r →
      ∃ tr, r.2.trace = sh.trace ++ tr ∧ Balanced ol.GetNumOrders n tr) ∧
    (∀ t sh cur next flags n r,
      PredictNextOrder stations units ol allow_merge fuel t sh cur next flags n = Outcome.done r →
      ∃ tr, r.2.trace = sh.trace ++ tr ∧ ∀ p, p ≤ n → Balanced ol.GetNumOrders p tr) := by
  have hins : ∀ (p : Nat) (hop : Hop), Balanced ol.GetNumOrders p [Event.insert hop] :=
    fun p hop => Balanced.of_noFrame _ _ _
      (by intro e he; rw [List.mem_singleton] at he; subst he; rfl)
  apply walker_trace stations units ol allow_merge
    (fun _ _ _ _ n tr _ => Balanced ol.GetNumOrders n tr)
    (fun _ _ _ _ n tr _ => ∀ p, p ≤ n → Balanced ol.GetNumOrders p tr)
  · intro t cur flags n
    exact Balanced.nil _ _
  · intro t cur next flags n t1 tp _ hp
    exact (Balanced.of_noFrame _ _ _ (refitEvents_noFrame next)).append (hp n (le_refl _))
  · intro t cur next flags n t1 tp next1 _ hp
    exact (Balanced.of_noFrame _ _ _ (refitEvents_noFrame next)).append (hp n (le_refl _))
  · intro t cur next flags n t1 tp next1 tr r _ hp _ hr
    exact (((Balanced.of_noFrame _ _ _ (refitEvents_noFrame next)).append
      (hp n (le_refl _))).append (hins n _)).append hr
  · intro t cur next flags n t1 tp next1 tr r _ hp _ hr
    exact ((((Balanced.of_noFrame _ _ _ (refitEvents_noFrame next)).append
      (hp n (le_refl _))).append (hins n _)).append
      (Balanced.of_noFrame _ _ _ (cargoEvents_noFrame _ _ _ _ _ _))).append hr
  · intro t cur flags n p _
    exact Balanced.nil _ _
  · intro t cur next flags n _ p _
    exact Balanced.nil _ _
  · intro t cur next flags n tr o _ _ hp p hpn
    exact hp p (by omega)
  · intro t cur next flags n skip_to trc tc tr o _ _ _ hn hc hp p hpn
    exact (Balanced.fork hpn hn hc).append (hp p (by omega))

theorem nest_enter_le (N : Nat) (tr : List Event) :
    ∀ (st st1 : List Nat), runCheck (nestStep N) st tr = some st1 →
      ∀ n, Event.enter n ∈ tr → n ≤ N := by
  induction tr with
  | nil =>
    intro st st1 _ n hn
    exact absurd hn (List.not_mem_nil _)
  | cons e es ih =>
    intro st st1 h n hn
    simp only [runCheck] at h
    cases hstep : nestStep N st e with
    | none => simp [hstep] at h
    | some st2 =>
      simp only [hstep] at h
      rcases List.mem_cons.1 hn with rfl | hn
      · simp only [nestStep] at hstep
        split_ifs at hstep with hc
        exact hc.1
      · exact ih st2 st1 h n hn

theorem PredictNextOrder_fork (stations : StationPool) (units : List VehicleUnit)
    (ol : OrderList) (allow_merge : Bool) (fuel : Nat) (t : Tracker) (sh : Shared)
    (cur next : Order) (flags : RefreshFlags) (n : Nat) (r : Option Order × Shared)
    (hc : (!flags.USE_NEXT || next.IsType OrderType.OT_CONDITIONAL) = true)
    (h : PredictNextOrder stations units ol allow_merge (fuel + 1) t sh cur (some next) flags n =
      Outcome.done r) :
    (next.IsType OrderType.OT_CONDITIONAL = true ∧ n < ol.GetNumOrders ∧
      ∃ skip_to rc,
        ol.GetNextDecisionNode (ol.GetOrderAt next.GetConditionSkipToOrder) n = some skip_to ∧
        RefreshLinks stations units ol allow_merge fuel t (sh.record [Event.enter (n + 1)]) cur
          (some skip_to) { flags with USE_NEXT := true } (n + 1) = Outcome.done rc ∧
        PredictNextOrder stations units ol allow_merge fuel t (rc.2.record [Event.exit (n + 1)])
          cur (ol.GetNextDecisionNode (ol.GetNext next) n) { flags with USE_NEXT := true }
          (n + 1) = Outcome.done r) ∨
    (¬(next.IsType OrderType.OT_CONDITIONAL = true ∧
        (∃ skip_to, ol.GetNextDecisionNode (ol.GetOrderAt next.GetConditionSkipToOrder) n =
          some skip_to) ∧ n < ol.GetNumOrders) ∧
      PredictNextOrder stations units ol allow_merge fuel t sh cur
        (ol.GetNextDecisionNode (ol.GetNext next) n) { flags with USE_NEXT := true } (n + 1) =
        Outcome.done r) := by
  simp only [PredictNextOrder, hc, Bool.not_true, Bool.false_eq_true, if_false] at h
  cases hcond : next.IsType OrderType.OT_CONDITIONAL with
  | false =>
    simp only [hcond, Bool.false_eq_true, if_false] at h
    exact Or.inr ⟨fun hx => by simp at hx, h⟩
  | true =>
    simp only [hcond, if_true] at h
    cases hg : ol.GetNextDecisionNode (ol.GetOrderAt next.GetConditionSkipToOrder) n with
    | none =>
      simp only [hg] at h
      exact Or.inr ⟨fun hx => by simp at hx, h⟩
    | some skip_to =>
      simp only [hg] at h
      by_cases hn : n < ol.GetNumOrders
      · simp only [hn, if_true] at h
        cases hq : RefreshLinks stations units ol allow_merge fuel t
            (sh.record [Event.enter (n + 1)]) cur (some skip_to)
            { flags with USE_NEXT := true } (n + 1) with
        | timeout => simp [hq] at h
        | fault => simp [hq] at h
        | done rc =>
          simp only [hq] at h
          exact Or.inl ⟨rfl, hn, skip_to, rc, rfl, hq, h⟩
      · simp only [hn, if_false] at h
        exact Or.inr ⟨fun hx => hn hx.2.2, h⟩

/-- C14: in `PredictNextOrder` an iteration forks a child exactly when the
order is conditional, its skip target resolves to an order and `num_hops` is
below `GetNumOrders()`, and the child is a `RefreshLinks` call with
`num_hops + 1`. Hence in the events of a run every `RefreshLinks` invocation
starts with `num_hops <= GetNumOrders()`, with a `num_hops` larger than that
of every invocation it is nested in, with at most `num_hops` invocations
around it (so at most `GetNumOrders()` forked branches are ever nested), and
ends before its parent. -/
theorem fork_depth_bound (stations : StationPool) (v : Vehicle) (allow_merge : Bool)
    (fuel : Nat) (ol : OrderList) (r : RunResult) (hol : v.orders = some ol)
    (h : Run fuel stations v allow_merge = Outcome.done r) :
    runCheck (nestStep ol.GetNumOrders) [] r.trace = some [] ∧
    (∀ n, Event.enter n ∈ r.trace → n ≤ ol.GetNumOrders) ∧
    (∀ fuel1 t sh cur next flags n rr,
      (!flags.USE_NEXT || next.IsType OrderType.OT_CONDITIONAL) = true →
      PredictNextOrder stations v.units ol allow_merge (fuel1 + 1) t sh cur (some next) flags n =
        Outcome.done rr →
      (next.IsType OrderType.OT_CONDITIONAL = true ∧ n < ol.GetNumOrders ∧
        ∃ skip_to rc,
          ol.GetNextDecisionNode (ol.GetOrderAt next.GetConditionSkipToOrder) n = some skip_to ∧
          RefreshLinks stations v.units ol allow_merge fuel1 t (sh.record [Event.enter (n + 1)])
            cur (some skip_to) { flags with USE_NEXT := true } (n + 1) = Outcome.done rc ∧
          PredictNextOrder stations v.units ol allow_merge fuel1 t
            (rc.2.record [Event.exit (n + 1)]) cur
            (ol.GetNextDecisionNode (ol.GetNext next) n) { flags with USE_NEXT := true }
            (n + 1) = Outcome.done rr) ∨
      (¬(next.IsType OrderType.OT_CONDITIONAL = true ∧
          (∃ skip_to, ol.GetNextDecisionNode (ol.GetOrderAt next.GetConditionSkipToOrder) n =
            some skip_to) ∧ n < ol.GetNumOrders) ∧
        PredictNextOrder stations v.units ol allow_merge fuel1 t sh cur
          (ol.GetNextDecisionNode (ol.GetNext next) n) { flags with USE_NEXT := true } (n + 1) =
          Outcome.done rr)) := by
  have hcheck : runCheck (nestStep ol.GetNumOrders) [] r.trace = some [] := by
    rcases Run_done fuel stations v allow_merge r h with ⟨_, _, ht⟩ | ⟨ol1, first, rr, hol1, _, hrl, rfl⟩
    · rw [ht]
      rfl
    · rw [hol] at hol1
      simp only [Option.some.injEq] at hol1
      subst hol1
      obtain ⟨tr, htr, hb⟩ := (walker_balanced stations v.units ol allow_merge fuel).1 _ _ _ _ _ _ _ hrl
      simp only at htr ⊢
      rw [htr, List.append_assoc, runCheck_append]
      simp only [runCheck, nestStep, Nat.zero_le, List.length_nil, List.all_nil, and_self, if_true,
        le_refl, Option.bind]
      rw [runCheck_append, hb [] (by simp) (by simp)]
      simp [runCheck, nestStep, Option.bind]
  refine ⟨hcheck, nest_enter_le _ _ _ _ hcheck, ?_⟩
  intro fuel1 t sh cur next flags n rr hc hp
  exact PredictNextOrder_fork stations v.units ol allow_merge fuel1 t sh cur next flags n rr hc hp

/-- Witness for C14: the run of the second scenario (four orders) returns,
its invocations start with `num_hops` 0, 2 and 4, and the nesting check
passes. -/
theorem fork_depth_bound_witness :
    ∃ r, Run 10 forkStations forkVehicle true = Outcome.done r ∧
      (r.trace.filter Event.isFrame).map Event.label =
        [EventLabel.enter 0, EventLabel.enter 2, EventLabel.enter 4, EventLabel.exit 4,
          EventLabel.exit 2, EventLabel.exit 0] ∧
      runCheck (nestStep 4) [] r.trace = some [] ∧
      (∀ n, Event.enter n ∈ r.trace → n ≤ 4) := by
  have hev : (Run 10 forkStations forkVehicle true).toOption.map
      (fun r => (r.trace.filter Event.isFrame).map Event.label) =
      some [EventLabel.enter 0, EventLabel.enter 2, EventLabel.enter 4, EventLabel.exit 4,
        EventLabel.exit 2, EventLabel.exit 0] := by decide
  cases h : Run 10 forkStations forkVehicle true with
  | done r =>
    rw [h] at hev
    simp only [Outcome.toOption, Option.map_some', Option.some.injEq] at hev
    have hthm := fork_depth_bound forkStations forkVehicle true 10
      (OrderList.ofList [forkA, forkC, forkB, forkD]) r rfl h
    exact ⟨r, rfl, hev, hthm.1, hthm.2.1⟩
  | fault =>
    rw [h] at hev
    exact absurd hev (by simp [Outcome.toOption])
  | timeout =>
    rw [h] at hev
    exact absurd hev (by simp [Outcome.toOption])

/-! ## The walker: a forked branch works on its own tracker -/

theorem runCheck_trans {σ : Type} (step : σ → Event → Option σ) {a b : List Event} {s s1 s2 : σ}
    (ha : runCheck step s a = some s1) (hb : runCheck step s1 b = some s2) :
    runCheck step s (a ++ b) = some s2 := by
  rw [runCheck_append, ha]
  exact hb

theorem replayStep_deep (units : List VehicleUnit) (d : Nat) (t0 : Tracker) (e : Event)
    (h : e.isFrame = false) : replayStep units (d + 1, t0) e = some (d + 1, t0) := by
  cases e <;> first | rfl | (simp [Event.isFrame] at h)

theorem replay_deep (units : List VehicleUnit) (d : Nat) (t0 : Tracker) (tr : List Event)
    (h : ∀ e ∈ tr, e.isFrame = false) :
    runCheck (replayStep units) (d + 1, t0) tr = some (d + 1, t0) :=
  runCheck_of_fixed _ _ _ (fun e he => replayStep_deep units d t0 e (h e he))

theorem replay_refitEvents (units : List VehicleUnit) (next : Order) (t t1 : Tracker)
    (h : if next.IsExplicitRefit = true then HandleRefit units next.GetRefitCargo t = some t1
      else t1 = t) :
    runCheck (replayStep units) (0, t) (refitEvents next) = some (0, t1) := by
  unfold refitEvents
  by_cases hc : next.IsExplicitRefit = true
  · rw [if_pos hc] at h ⊢
    simp [runCheck, replayStep, h]
  · rw [if_neg hc] at h ⊢
    rw [h]
    rfl

theorem replay_increase (units : List VehicleUnit) (s : Nat × Tracker) (calls : List StatsCall) :
    runCheck (replayStep units) s (calls.map Event.increase) = some s :=
  runCheck_of_fixed _ _ _ (fun e he => by
    rw [List.mem_map] at he
    obtain ⟨c, _, rfl⟩ := he
    rfl)

theorem replay_cargoEvents (units : List VehicleUnit) (stations : StationPool)
    (allow_merge : Bool) (cur next : Order) (t : Tracker) (flags : RefreshFlags) :
    runCheck (replayStep units) (0, t) (cargoEvents stations allow_merge cur next t flags) =
      some (0, cargoTracker t flags) := by
  unfold cargoEvents cargoTracker
  by_cases hr : flags.RESET_REFIT = true <;>
    by_cases hc : cur.IsCargoStop = true <;>
    by_cases hl : cur.CanLeaveWithCargo flags.HAS_CARGO = true <;>
    simp [hr, hc, hl, runCheck, replayStep, replay_increase]

theorem walker_replay (stations : StationPool) (units : List VehicleUnit) (ol : OrderList)
    (allow_merge : Bool) (fuel : Nat) :
    (∀ t sh cur next flags n r,
      RefreshLinks stations units ol allow_merge fuel t sh cur next flags n = Outcome.done r →
      ∃ tr, r.2.trace = sh.trace ++ tr ∧
        (runCheck (replayStep units) (0, t) tr = some (0, r.1) ∧
          ∀ d t0, runCheck (replayStep units) (d + 1, t0) tr = some (d + 1, t0))) ∧
    (∀ t sh cur next flags n r,
      PredictNextOrder stations units ol allow_merge fuel t sh cur next flags n = Outcome.done r →
      ∃ tr, r.2.trace = sh.trace ++ tr ∧
        ∀ d t0, runCheck (replayStep units) (d, t0) tr = some (d, t0)) := by
  have hins : ∀ (s : Nat × Tracker) (hop : Hop),
      runCheck (replayStep units) s [Event.insert hop] = some s := fun s hop => rfl
  have hinsF : ∀ (hop : Hop), ∀ e ∈ [Event.insert hop], e.isFrame = false := by
    intro hop e he
    rw [List.mem_singleton] at he
    subst he
    rfl
  apply walker_trace stations units ol allow_merge
    (fun t _ _ _ _ tr t1 => runCheck (replayStep units) (0, t) tr = some (0, t1) ∧
      ∀ d t0, runCheck (replayStep units) (d + 1, t0) tr = some (d + 1, t0))
    (fun _ _ _ _ _ tr _ => ∀ d t0, runCheck (replayStep units) (d, t0) tr = some (d, t0))
  · intro t cur flags n
    exact ⟨rfl, fun _ _ => rfl⟩
  · intro t cur next flags n t1 tp ht1 hp
    exact ⟨runCheck_trans _ (replay_refitEvents units next t t1 ht1) (hp 0 t1),
      fun d t0 => runCheck_trans _ (replay_deep units d t0 _ (refitEvents_noFrame next))
        (hp (d + 1) t0)⟩
  · intro t cur next flags n t1 tp next1 ht1 hp
    exact ⟨runCheck_trans _ (replay_refitEvents units next t t1 ht1) (hp 0 t1),
      fun d t0 => runCheck_trans _ (replay_deep units d t0 _ (refitEvents_noFrame next))
        (hp (d + 1) t0)⟩
  · intro t cur next flags n t1 tp next1 tr r ht1 hp _ hr
    refine ⟨?_, fun d t0 => ?_⟩
    · exact runCheck_trans _ (runCheck_trans _ (runCheck_trans _
        (replay_refitEvents units next t t1 ht1) (hp 0 t1)) (hins _ _)) hr.1
    · exact runCheck_trans _ (runCheck_trans _ (runCheck_trans _
        (replay_deep units d t0 _ (refitEvents_noFrame next)) (hp (d + 1) t0))
        (replay_deep units d t0 _ (hinsF _))) (hr.2 d t0)
  · intro t cur next flags n t1 tp next1 tr r ht1 hp _ hr
    refine ⟨?_, fun d t0 => ?_⟩
    · exact runCheck_trans _ (runCheck_trans _ (runCheck_trans _ (runCheck_trans _
        (replay_refitEvents units next t t1 ht1) (hp 0 t1)) (hins _ _))
        (replay_cargoEvents units stations allow_merge cur next1 t1 _)) hr.1
    · exact runCheck_trans _ (runCheck_trans _ (runCheck_trans _ (runCheck_trans _
        (replay_deep units d t0 _ (refitEvents_noFrame next)) (hp (d + 1) t0))
        (replay_deep units d t0 _ (hinsF _)))
        (replay_deep units d t0 _ (cargoEvents_noFrame _ _ _ _ _ _))) (hr.2 d t0)
  · intro t cur flags n d t0
    rfl
  · intro t cur next flags n _ d t0
    rfl
  · intro t cur next flags n tr o _ _ hp
    exact hp
  · intro t cur next flags n skip_to trc tc tr o _ _ _ _ hc hp d t0
    have h1 : runCheck (replayStep units) (d, t0) [Event.enter (n + 1)] = some (d + 1, t0) := rfl
    have h2 : runCheck (replayStep units) (d + 1, t0) [Event.exit (n + 1)] = some (d, t0) := by
      simp [runCheck, replayStep]
    exact runCheck_trans _ (runCheck_trans _ (runCheck_trans _ h1 (hc.2 d t0)) h2) (hp d t0)

/-- C15: for every input, the events `PredictNextOrder` adds, those of all
the branches it forks included, leave every tracker as it is when replayed on
it, whatever the depth: the caller's capacities, refit_capacities and cargo
are not touched by the refits and resets of the branches; what the call
changes is the shared state, where hops and events are only appended. For
`RefreshLinks`, the tracker it ends with is its initial tracker changed by its
own `HandleRefit` and `ResetRefit` calls only, and each of its own
`RefreshStats` calls sees the tracker as these calls left it. -/
theorem fork_isolation (stations : StationPool) (units : List VehicleUnit) (ol : OrderList)
    (allow_merge : Bool) (fuel : Nat) :
    (∀ t sh cur next flags n r,
      PredictNextOrder stations units ol allow_merge fuel t sh cur next flags n = Outcome.done r →
      sh.Grows r.2 ∧
      ∃ tr, r.2.trace = sh.trace ++ tr ∧
        ∀ d t0, runCheck (replayStep units) (d, t0) tr = some (d, t0)) ∧
    (∀ t sh cur next flags n r,
      RefreshLinks stations units ol allow_merge fuel t sh cur next flags n = Outcome.done r →
      ∃ tr, r.2.trace = sh.trace ++ tr ∧
        runCheck (replayStep units) (0, t) tr = some (0, r.1)) := by
  constructor
  · intro t sh cur next flags n r h
    exact ⟨(walker_grows stations units ol allow_merge fuel).2 _ _ _ _ _ _ _ h,
      (walker_replay stations units ol allow_merge fuel).2 _ _ _ _ _ _ _ h⟩
  · intro t sh cur next flags n r h
    obtain ⟨tr, htr, h1, _⟩ := (walker_replay stations units ol allow_merge fuel).1 _ _ _ _ _ _ _ h
    exact ⟨tr, htr, h1⟩

/-- Witness for C15 on the second scenario: the branch forked at `C` refits
to cargo 7 and reports capacities 0 of cargo 3 and 80 of cargo 7; the root
refresher afterwards still reports 100 of cargo 3, and its events replayed on
its fresh tracker give its final tracker. -/
theorem fork_isolation_witness :
    ∃ rr, RefreshLinks forkStations [scenarioUnit] (OrderList.ofList [forkA, forkC, forkB, forkD])
        true 10 (Tracker.new [scenarioUnit]) ⟨[], []⟩ forkA (some forkA)
        ⟨false, true, false, false⟩ 0 = Outcome.done rr ∧
      rr.2.trace.filterMap (fun e => match e with
        | Event.stats cur next t => some (cur.index, next.index, t.capacities)
        | Event.enter n => some (n, n, [])
        | Event.exit n => some (n, n, [])
        | _ => none) =
        [(2, 2, []), (0, 3, [(3, 0), (7, 80)]), (3, 0, [(3, 0), (7, 80)]), (4, 4, []), (4, 4, []),
          (0, 2, [(3, 0), (7, 80)]), (2, 3, [(3, 0), (7, 80)]), (2, 2, []),
          (0, 2, [(3, 100)]), (2, 3, [(3, 100)])] ∧
      ∃ tr, rr.2.trace = [] ++ tr ∧
        runCheck (replayStep [scenarioUnit]) (0, Tracker.new [scenarioUnit]) tr = some (0, rr.1) := by
  have hev : (RefreshLinks forkStations [scenarioUnit]
      (OrderList.ofList [forkA, forkC, forkB, forkD]) true 10 (Tracker.new [scenarioUnit])
      ⟨[], []⟩ forkA (some forkA) ⟨false, true, false, false⟩ 0).toOption.map
      (fun rr => rr.2.trace.filterMap (fun e => match e with
        | Event.stats cur next t => some (cur.index, next.index, t.capacities)
        | Event.enter n => some (n, n, [])
        | Event.exit n => some (n, n, [])
        | _ => none)) =
      some [(2, 2, []), (0, 3, [(3, 0), (7, 80)]), (3, 0, [(3, 0), (7, 80)]), (4, 4, []),
        (4, 4, []), (0, 2, [(3, 0), (7, 80)]), (2, 3, [(3, 0), (7, 80)]), (2, 2, []),
        (0, 2, [(3, 100)]), (2, 3, [(3, 100)])] := by decide
  cases h : RefreshLinks forkStations [scenarioUnit]
      (OrderList.ofList [forkA, forkC, forkB, forkD]) true 10 (Tracker.new [scenarioUnit])
      ⟨[], []⟩ forkA (some forkA) ⟨false, true, false, false⟩ 0 with
  | done rr =>
    rw [h] at hev
    simp only [Outcome.toOption, Option.map_some', Option.some.injEq] at hev
    exact ⟨rr, rfl, hev, (fork_isolation forkStations [scenarioUnit]
      (OrderList.ofList [forkA, forkC, forkB, forkD]) true 10).2 _ _ _ _ _ _ _ h⟩
  | fault =>
    rw [h] at hev
    exact absurd hev (by simp [Outcome.toOption])
  | timeout =>
    rw [h] at hev
    exact absurd hev (by simp [Outcome.toOption])

/-! ## The walker: only cargo-handling stops take part in the statistics -/

theorem refitEvents_cargoPair (next : Order) : ∀ e ∈ refitEvents next, e.CargoPair := by
  intro e he
  unfold refitEvents at he
  split_ifs at he
  · rw [List.mem_singleton] at he
    subst he
    trivial
  · simp at he

theorem cargoEvents_cargoPair (stations : StationPool) (allow_merge : Bool) (cur next : Order)
    (t : Tracker) (flags : RefreshFlags) (hn : next.IsCargoStop = true) :
    ∀ e ∈ cargoEvents stations allow_merge cur next t flags, e.CargoPair := by
  intro e he
  unfold cargoEvents at he
  rw [List.mem_append] at he
  rcases he with he | he
  · split_ifs at he
    · rw [List.mem_singleton] at he
      subst he
      trivial
    · simp at he
  · by_cases hc : cur.IsCargoStop = true
    · rw [if_pos hc] at he
      by_cases hl : cur.CanLeaveWithCargo flags.HAS_CARGO = true
      · rw [if_pos hl, List.mem_append] at he
        rcases he with he | he
        · simp only [List.mem_cons, List.mem_singleton, List.not_mem_nil, or_false] at he
          rcases he with rfl | rfl
          · trivial
          · exact ⟨hc, hn⟩
        · rw [List.mem_map] at he
          obtain ⟨c, _, rfl⟩ := he
          trivial
      · rw [if_neg hl, List.mem_singleton] at he
        subst he
        trivial
    · rw [if_neg hc] at he
      simp at he

theorem walker_cargoPair (stations : StationPool) (units : List VehicleUnit) (ol : OrderList)
    (allow_merge : Bool) (fuel : Nat) :
    (∀ t sh cur next flags n r,
      RefreshLinks stations units ol allow_merge fuel t sh cur next flags n = Outcome.done r →
      ∃ tr, r.2.trace = sh.trace ++ tr ∧ ∀ e ∈ tr, e.CargoPair) ∧
    (∀ t sh cur next flags n r,
      PredictNextOrder stations units ol allow_merge fuel t sh cur next flags n = Outcome.done r →
      ∃ tr, r.2.trace = sh.trace ++ tr ∧ ∀ e ∈ tr, e.CargoPair) := by
  have hins : ∀ (hop : Hop), ∀ e ∈ [Event.insert hop], e.CargoPair := by
    intro hop e he
    rw [List.mem_singleton] at he
    subst he
    trivial
  have happ : ∀ (a b : List Event), (∀ e ∈ a, e.CargoPair) → (∀ e ∈ b, e.CargoPair) →
      ∀ e ∈ a ++ b, e.CargoPair := by
    intro a b ha hb e he
    rw [List.mem_append] at he
    rcases he with he | he
    · exact ha e he
    · exact hb e he
  apply walker_trace stations units ol allow_merge
    (fun _ _ _ _ _ tr _ => ∀ e ∈ tr, e.CargoPair)
    (fun _ _ _ _ _ tr _ => ∀ e ∈ tr, e.CargoPair)
  · intro t cur flags n e he
    simp at he
  · intro t cur next flags n t1 tp _ hp
    exact happ _ _ (refitEvents_cargoPair next) hp
  · intro t cur next flags n t1 tp next1 _ hp
    exact happ _ _ (refitEvents_cargoPair next) hp
  · intro t cur next flags n t1 tp next1 tr r _ hp _ hr
    exact happ _ _ (happ _ _ (happ _ _ (refitEvents_cargoPair next) hp) (hins _)) hr
  · intro t cur next flags n t1 tp next1 tr r _ hp hk hr
    exact happ _ _ (happ _ _ (happ _ _ (happ _ _ (refitEvents_cargoPair next) hp) (hins _))
      (cargoEvents_cargoPair stations allow_merge cur next1 t1 _ hk)) hr
  · intro t cur flags n e he
    simp at he
  · intro t cur next flags n _ e he
    simp at he
  · intro t cur next flags n tr o _ _ hp
    exact hp
  · intro t cur next flags n skip_to trc tc tr o _ _ _ _ hc hp
    refine happ _ _ (happ _ _ (happ _ _ ?_ hc) ?_) hp
    · intro e he
      rw [List.mem_singleton] at he
      subst he
      trivial
    · intro e he
      rw [List.mem_singleton] at he
      subst he
      trivial

theorem RefreshLinks_pass (stations : StationPool) (units : List VehicleUnit) (ol : OrderList)
    (allow_merge : Bool) (fuel : Nat) (t : Tracker) (sh : Shared) (cur next : Order)
    (flags : RefreshFlags) (n : Nat) (t1 : Tracker) (flags1 : RefreshFlags) (sh1 : Shared)
    (next1 : Order) (sh2 : Shared)
    (hs : refitStep units next t flags sh = some (t1, flags1, sh1))
    (hp : PredictNextOrder stations units ol allow_merge fuel t1 sh1 cur (some next) flags1 n =
      Outcome.done (some next1, sh2))
    (hf : HopSet.find sh2.seen_hops ⟨cur.index, next1.index, t1.cargo⟩ = false)
    (hk : next1.IsCargoStop = false) :
    RefreshLinks stations units ol allow_merge (fuel + 1) t sh cur (some next) flags n =
      RefreshLinks stations units ol allow_merge fuel t1
        ⟨sh2.seen_hops ++ [⟨cur.index, next1.index, t1.cargo⟩],
          sh2.trace ++ [Event.insert ⟨cur.index, next1.index, t1.cargo⟩]⟩
        cur (some next1) { flags1 with USE_NEXT := false } n := by
  unfold Order.IsCargoStop at hk
  rw [Bool.or_eq_false_iff] at hk
  simp only [RefreshLinks, hs, hp, hf, hk.1, hk.2, Bool.false_eq_true, if_false, Bool.not_false,
    Bool.and_self, if_true]

theorem RefreshLinks_cargo (stations : StationPool) (units : List VehicleUnit) (ol : OrderList)
    (allow_merge : Bool) (fuel : Nat) (t : Tracker) (sh : Shared) (cur next : Order)
    (flags : RefreshFlags) (n : Nat) (t1 : Tracker) (flags1 : RefreshFlags) (sh1 : Shared)
    (next1 : Order) (sh2 : Shared)
    (hs : refitStep units next t flags sh = some (t1, flags1, sh1))
    (hp : PredictNextOrder stations units ol allow_merge fuel t1 sh1 cur (some next) flags1 n =
      Outcome.done (some next1, sh2))
    (hf : HopSet.find sh2.seen_hops ⟨cur.index, next1.index, t1.cargo⟩ = false)
    (hk : next1.IsCargoStop = true) :
    RefreshLinks stations units ol allow_merge (fuel + 1) t sh cur (some next) flags n =
      RefreshLinks stations units ol allow_merge fuel
        (cargoTracker t1 { flags1 with USE_NEXT := false })
        ⟨sh2.seen_hops ++ [⟨cur.index, next1.index, t1.cargo⟩],
          sh2.trace ++ [Event.insert ⟨cur.index, next1.index, t1.cargo⟩] ++
            cargoEvents stations allow_merge cur next1 t1 { flags1 with USE_NEXT := false }⟩
        next1 (some next1) (cargoFlags cur { flags1 with USE_NEXT := false }) n := by
  have hk1 : (!next1.IsType OrderType.OT_GOTO_STATION && !next1.IsType OrderType.OT_IMPLICIT) =
      false := by
    unfold Order.IsCargoStop at hk
    cases h1 : next1.IsType OrderType.OT_GOTO_STATION <;>
      cases h2 : next1.IsType OrderType.OT_IMPLICIT <;> simp [h1, h2] at hk ⊢
  simp only [RefreshLinks, hs, hp, hf, hk1, Bool.false_eq_true, if_false, cargoStep_full]

/-- C17: every `RefreshStats` invocation made by a returning `RefreshLinks`
call, in the call itself or in a branch it forks, has a `cur` and a `next`
that are both station stops or implicit stops. When the order returned by
`PredictNextOrder` is of another kind, the iteration goes on with the same
tracker (no `ResetRefit`), with the hop insertion as its only event (no
`RefreshStats`) and with the same `cur`; when it is a station or implicit
stop, the iteration goes on with that order as `cur`: `cur` is only ever
reassigned to a station stop or implicit stop. -/
theorem cargo_handling_filter (stations : StationPool) (units : List VehicleUnit)
    (ol : OrderList) (allow_merge : Bool) (fuel : Nat) :
    (∀ t sh cur next flags n r,
      RefreshLinks stations units ol allow_merge fuel t sh cur next flags n = Outcome.done r →
      ∃ tr, r.2.trace = sh.trace ++ tr ∧
        ∀ c nx tk, Event.stats c nx tk ∈ tr → c.IsCargoStop = true ∧ nx.IsCargoStop = true) ∧
    (∀ t sh cur next flags n t1 flags1 sh1 next1 sh2,
      refitStep units next t flags sh = some (t1, flags1, sh1) →
      PredictNextOrder stations units ol allow_merge fuel t1 sh1 cur (some next) flags1 n =
        Outcome.done (some next1, sh2) →
      HopSet.find sh2.seen_hops ⟨cur.index, next1.index, t1.cargo⟩ = false →
      (next1.IsCargoStop = false →
        RefreshLinks stations units ol allow_merge (fuel + 1) t sh cur (some next) flags n =
          RefreshLinks stations units ol allow_merge fuel t1
            ⟨sh2.seen_hops ++ [⟨cur.index, next1.index, t1.cargo⟩],
              sh2.trace ++ [Event.insert ⟨cur.index, next1.index, t1.cargo⟩]⟩
            cur (some next1) { flags1 with USE_NEXT := false } n) ∧
      (next1.IsCargoStop = true →
        RefreshLinks stations units ol allow_merge (fuel + 1) t sh cur (some next) flags n =
          RefreshLinks stations units ol allow_merge fuel
            (cargoTracker t1 { flags1 with USE_NEXT := false })
            ⟨sh2.seen_hops ++ [⟨cur.index, next1.index, t1.cargo⟩],
              sh2.trace ++ [Event.insert ⟨cur.index, next1.index, t1.cargo⟩] ++
                cargoEvents stations allow_merge cur next1 t1 { flags1 with USE_NEXT := false }⟩
            next1 (some next1) (cargoFlags cur { flags1 with USE_NEXT := false }) n)) := by
  constructor
  · intro t sh cur next flags n r h
    obtain ⟨tr, htr, hall⟩ := (walker_cargoPair stations units ol allow_merge fuel).1 _ _ _ _ _ _ _ h
    exact ⟨tr, htr, fun c nx tk he => hall _ he⟩
  · intro t sh cur next flags n t1 flags1 sh1 next1 sh2 hs hp hf
    exact ⟨RefreshLinks_pass stations units ol allow_merge fuel t sh cur next flags n t1 flags1 sh1
        next1 sh2 hs hp hf,
      RefreshLinks_cargo stations units ol allow_merge fuel t sh cur next flags n t1 flags1 sh1
        next1 sh2 hs hp hf⟩

/-- Witness for C17 on the third scenario: the hops from `B` to `A`, from `A`
to the depot `P` and from `A` to `B` are inserted, the only `RefreshStats`
invocation is the one for `A` and `B`, and every `RefreshStats` invocation is
for two station or implicit stops. -/
theorem cargo_handling_filter_witness :
    ∃ rr, RefreshLinks forkStations [scenarioUnit] (OrderList.ofList [depotA, depotP, depotB])
        true 10 (Tracker.new [scenarioUnit]) ⟨[], []⟩ depotB (some depotB)
        ⟨false, false, false, false⟩ 0 = Outcome.done rr ∧
      insertedHops rr.2.trace = [⟨2, 0, 255⟩, ⟨0, 1, 255⟩, ⟨0, 2, 255⟩] ∧
      statsHops rr.2.trace = [⟨0, 2, 255⟩] ∧
      ∃ tr, rr.2.trace = [] ++ tr ∧
        ∀ c nx tk, Event.stats c nx tk ∈ tr → c.IsCargoStop = true ∧ nx.IsCargoStop = true := by
  have hev : (RefreshLinks forkStations [scenarioUnit]
      (OrderList.ofList [depotA, depotP, depotB]) true 10 (Tracker.new [scenarioUnit])
      ⟨[], []⟩ depotB (some depotB) ⟨false, false, false, false⟩ 0).toOption.map
      (fun rr => (insertedHops rr.2.trace, statsHops rr.2.trace)) =
      some ([⟨2, 0, 255⟩, ⟨0, 1, 255⟩, ⟨0, 2, 255⟩], [⟨0, 2, 255⟩]) := by decide
  cases h : RefreshLinks forkStations [scenarioUnit]
      (OrderList.ofList [depotA, depotP, depotB]) true 10 (Tracker.new [scenarioUnit])
      ⟨[], []⟩ depotB (some depotB) ⟨false, false, false, false⟩ 0 with
  | done rr =>
    rw [h] at hev
    simp only [Outcome.toOption, Option.map_some', Option.some.injEq, Prod.mk.injEq] at hev
    exact ⟨rr, rfl, hev.1, hev.2, (cargo_handling_filter forkStations [scenarioUnit]
      (OrderList.ofList [depotA, depotP, depotB]) true 10).1 _ _ _ _ _ _ _ h⟩
  | fault =>
    rw [h] at hev
    exact absurd hev (by simp [Outcome.toOption])
  | timeout =>
    rw [h] at hev
    exact absurd hev (by simp [Outcome.toOption])

/-! ## The walker: the carrying-cargo flag -/

theorem flagStep_plain (s : List Bool) (e : Event)
    (h : match e with
      | Event.refit _ => True
      | Event.insert _ => True
      | Event.reset => True
      | Event.increase _ => True
      | _ => False) :
    flagStep (s, none) e = some (s, none) := by
  cases e <;> first | rfl | exact absurd h (by simp)

theorem flag_refitEvents (s : List Bool) (next : Order) :
    runCheck flagStep (s, none) (refitEvents next) = some (s, none) := by
  unfold refitEvents
  split_ifs <;> rfl

theorem flag_increase (s : List Bool) (calls : List StatsCall) :
    runCheck flagStep (s, none) (calls.map Event.increase) = some (s, none) :=
  runCheck_of_fixed _ _ _ (fun e he => by
    rw [List.mem_map] at he
    obtain ⟨c, _, rfl⟩ := he
    rfl)

theorem refitFlags_HAS_CARGO (next : Order) (flags : RefreshFlags) :
    (refitFlags next flags).HAS_CARGO = flags.HAS_CARGO := by
  unfold refitFlags
  split_ifs <;> rfl

theorem cargoFlags_HAS_CARGO (cur : Order) (flags : RefreshFlags) :
    (cargoFlags cur flags).HAS_CARGO =
      if cur.IsCargoStop = true then cur.CanLeaveWithCargo flags.HAS_CARGO else flags.HAS_CARGO := by
  unfold cargoFlags
  split_ifs <;> rfl

theorem flag_cargoEvents (stations : StationPool) (allow_merge : Bool) (cur next : Order)
    (t : Tracker) (flags : RefreshFlags) (st : List Bool) :
    runCheck flagStep (flags.HAS_CARGO :: st, none)
        (cargoEvents stations allow_merge cur next t flags) =
      some ((cargoFlags cur flags).HAS_CARGO :: st, none) := by
  rw [cargoFlags_HAS_CARGO]
  unfold cargoEvents
  have hreset : runCheck flagStep (flags.HAS_CARGO :: st, none)
      (if flags.RESET_REFIT = true then [Event.reset] else []) =
      some (flags.HAS_CARGO :: st, none) := by
    split_ifs <;> rfl
  refine runCheck_trans _ hreset ?_
  by_cases hc : cur.IsCargoStop = true
  · rw [if_pos hc, if_pos hc]
    by_cases hl : cur.CanLeaveWithCargo flags.HAS_CARGO = true
    · rw [if_pos hl]
      have h1 : runCheck flagStep (flags.HAS_CARGO :: st, none)
          [Event.leave cur flags.HAS_CARGO true,
            Event.stats cur next (if flags.RESET_REFIT = true then ResetRefit t else t)] =
          some (cur.CanLeaveWithCargo flags.HAS_CARGO :: st, none) := by
        simp [runCheck, flagStep, hl]
      exact runCheck_trans _ h1 (flag_increase _ _)
    · rw [if_neg hl]
      simp only [Bool.not_eq_true] at hl
      simp [runCheck, flagStep, hl]
  · rw [if_neg hc, if_neg hc]
    rfl

theorem walker_flag (stations : StationPool) (units : List VehicleUnit) (ol : OrderList)
    (allow_merge : Bool) (fuel : Nat) :
    (∀ t sh cur next flags n r,
      RefreshLinks stations units ol allow_merge fuel t sh cur next flags n = Outcome.done r →
      ∃ tr, r.2.trace = sh.trace ++ tr ∧
        ∃ h1, ∀ st, runCheck flagStep (flags.HAS_CARGO :: st, none) tr = some (h1 :: st, none)) ∧
    (∀ t sh cur next flags n r,
      PredictNextOrder stations units ol allow_merge fuel t sh cur next flags n = Outcome.done r →
      ∃ tr, r.2.trace = sh.trace ++ tr ∧
        ∀ st, runCheck flagStep (flags.HAS_CARGO :: st, none) tr =
          some (flags.HAS_CARGO :: st, none)) := by
  have hins : ∀ (s : List Bool) (hop : Hop),
      runCheck flagStep (s, none) [Event.insert hop] = some (s, none) := fun s hop => rfl
  apply walker_trace stations units ol allow_merge
    (fun _ _ _ flags _ tr _ =>
      ∃ h1, ∀ st, runCheck flagStep (flags.HAS_CARGO :: st, none) tr = some (h1 :: st, none))
    (fun _ _ _ flags _ tr _ =>
      ∀ st, runCheck flagStep (flags.HAS_CARGO :: st, none) tr =
        some (flags.HAS_CARGO :: st, none))
  · intro t cur flags n
    exact ⟨flags.HAS_CARGO, fun st => rfl⟩
  · intro t cur next flags n t1 tp _ hp
    refine ⟨flags.HAS_CARGO, fun st => ?_⟩
    have hp1 := hp st
    rw [refitFlags_HAS_CARGO] at hp1
    exact runCheck_trans _ (flag_refitEvents _ next) hp1
  · intro t cur next flags n t1 tp next1 _ hp
    refine ⟨flags.HAS_CARGO, fun st => ?_⟩
    have hp1 := hp st
    rw [refitFlags_HAS_CARGO] at hp1
    exact runCheck_trans _ (flag_refitEvents _ next) hp1
  · intro t cur next flags n t1 tp next1 tr r _ hp _ hr
    obtain ⟨h1, hr⟩ := hr
    refine ⟨h1, fun st => ?_⟩
    have hp1 := hp st
    rw [refitFlags_HAS_CARGO] at hp1
    have hr1 := hr st
    simp only [refitFlags_HAS_CARGO] at hr1
    exact runCheck_trans _ (runCheck_trans _ (runCheck_trans _ (flag_refitEvents _ next) hp1)
      (hins _ _)) hr1
  · intro t cur next flags n t1 tp next1 tr r _ hp _ hr
    obtain ⟨h1, hr⟩ := hr
    refine ⟨h1, fun st => ?_⟩
    have hp1 := hp st
    rw [refitFlags_HAS_CARGO] at hp1
    have hc : runCheck flagStep (flags.HAS_CARGO :: st, none)
        (cargoEvents stations allow_merge cur next1 t1
          { refitFlags next flags with USE_NEXT := false }) =
        some ((cargoFlags cur { refitFlags next flags with USE_NEXT := false }).HAS_CARGO :: st,
          none) := by
      have h0 := flag_cargoEvents stations allow_merge cur next1 t1
        { refitFlags next flags with USE_NEXT := false } st
      rw [show ({ refitFlags next flags with USE_NEXT := false } : RefreshFlags).HAS_CARGO =
        flags.HAS_CARGO from refitFlags_HAS_CARGO next flags] at h0
      exact h0
    exact runCheck_trans _ (runCheck_trans _ (runCheck_trans _ (runCheck_trans _
      (flag_refitEvents _ next) hp1) (hins _ _)) hc) (hr st)
  · intro t cur flags n st
    rfl
  · intro t cur next flags n _ st
    rfl
  · intro t cur next flags n tr o _ _ hp
    exact hp
  · intro t cur next flags n skip_to trc tc tr o _ _ _ _ hc hp st
    obtain ⟨h1, hc⟩ := hc
    have e1 : runCheck flagStep (flags.HAS_CARGO :: st, none) [Event.enter (n + 1)] =
        some (flags.HAS_CARGO :: flags.HAS_CARGO :: st, none) := rfl
    have e2 : runCheck flagStep (h1 :: flags.HAS_CARGO :: st, none) [Event.exit (n + 1)] =
        some (flags.HAS_CARGO :: st, none) := rfl
    exact runCheck_trans _ (runCheck_trans _ (runCheck_trans _ e1 (hc (flags.HAS_CARGO :: st))) e2)
      (hp st)

theorem statsHops_cargoEvents (stations : StationPool) (allow_merge : Bool) (cur next : Order)
    (t : Tracker) (flags : RefreshFlags) (hc : cur.IsCargoStop = true) :
    statsHops (cargoEvents stations allow_merge cur next t flags) =
      if cur.CanLeaveWithCargo flags.HAS_CARGO = true then
        [⟨cur.index, next.index, (cargoTracker t flags).cargo⟩]
      else [] := by
  have happ : ∀ a b : List Event, statsHops (a ++ b) = statsHops a ++ statsHops b := by
    intro a b
    unfold statsHops
    exact List.filterMap_append _ _ _
  have hreset : statsHops (if flags.RESET_REFIT = true then [Event.reset] else []) = [] := by
    split_ifs <;> rfl
  unfold cargoEvents
  rw [happ, hreset, if_pos hc, List.nil_append]
  by_cases hl : cur.CanLeaveWithCargo flags.HAS_CARGO = true
  · rw [if_pos hl, if_pos hl, happ, statsHops_increase, List.append_nil]
    rfl
  · rw [if_neg hl, if_neg hl]
    rfl

/-- C18: in the events of a returning run, every `CanLeaveWithCargo`
evaluation is passed the `HAS_CARGO` flag of its invocation, which is the
result of the previous evaluation of that invocation, or of the invocation it
was forked from at the time of the fork, or the seed given by `Run` (the
vehicle has a last loading station) when there was none; a `RefreshStats`
invocation directly follows every evaluation with result true and nothing
else. In the cargo part of an iteration whose `cur` is a station or implicit
stop, `RefreshStats(cur, next)` is invoked exactly when
`cur.CanLeaveWithCargo(h)` is true for the current flag `h`, and the flag
becomes that result. -/
theorem carrying_cargo_check (stations : StationPool) (v : Vehicle) (allow_merge : Bool)
    (fuel : Nat) (r : RunResult) (h : Run fuel stations v allow_merge = Outcome.done r) :
    runCheck flagStep ([decide (v.last_loading_station ≠ INVALID_STATION)], none) r.trace =
      some ([decide (v.last_loading_station ≠ INVALID_STATION)], none) ∧
    (∀ cur next t flags sh, cur.IsCargoStop = true →
      (cargoStep stations allow_merge cur next t flags sh).2.1.HAS_CARGO =
        cur.CanLeaveWithCargo flags.HAS_CARGO ∧
      (cargoStep stations allow_merge cur next t flags sh).2.2.trace =
        sh.trace ++ cargoEvents stations allow_merge cur next t flags ∧
      statsHops (cargoEvents stations allow_merge cur next t flags) =
        (if cur.CanLeaveWithCargo flags.HAS_CARGO = true then
          [⟨cur.index, next.index, (cargoStep stations allow_merge cur next t flags sh).1.cargo⟩]
        else [])) := by
  constructor
  · rcases Run_done fuel stations v allow_merge r h with ⟨_, _, ht⟩ | ⟨ol, first, rr, _, _, hrl, rfl⟩
    · rw [ht]
      rfl
    · obtain ⟨tr, htr, h1, hb⟩ := (walker_flag stations v.units ol allow_merge fuel).1 _ _ _ _ _ _ _ hrl
      simp only at htr hb ⊢
      rw [htr, List.append_assoc]
      exact runCheck_trans _ (a := [Event.enter 0]) rfl (runCheck_trans _ (hb _) rfl)
  · intro cur next t flags sh hc
    rw [cargoStep_full]
    refine ⟨?_, rfl, statsHops_cargoEvents stations allow_merge cur next t flags hc⟩
    simp only [cargoFlags_HAS_CARGO, if_pos hc]

/-- Witness for C18 on the third scenario: the vehicle has no last loading
station, so `B` is left with the seed flag false and without `RefreshStats`;
`A` is then left with that result as the flag, with result true and with the
`RefreshStats` invocation for `A` and `B`. -/
theorem carrying_cargo_check_witness :
    ∃ r, Run 10 forkStations depotVehicle true = Outcome.done r ∧
      r.trace.filterMap (fun e => match e with
        | Event.leave cur has_cargo result => some (cur.index, has_cargo, result)
        | _ => none) = [(2, false, false), (0, false, true)] ∧
      statsHops r.trace = [⟨0, 2, 255⟩] ∧
      runCheck flagStep ([decide (depotVehicle.last_loading_station ≠ INVALID_STATION)], none)
        r.trace = some ([decide (depotVehicle.last_loading_station ≠ INVALID_STATION)], none) := by
  have hev : (Run 10 forkStations depotVehicle true).toOption.map
      (fun r => (r.trace.filterMap (fun e => match e with
        | Event.leave cur has_cargo result => some (cur.index, has_cargo, result)
        | _ => none), statsHops r.trace)) =
      some ([(2, false, false), (0, false, true)], [⟨0, 2, 255⟩]) := by decide
  cases h : Run 10 forkStations depotVehicle true with
  | done r =>
    rw [h] at hev
    simp only [Outcome.toOption, Option.map_some', Option.some.injEq, Prod.mk.injEq] at hev
    exact ⟨r, rfl, hev.1, hev.2, (carrying_cargo_check forkStations depotVehicle true 10 r h).1⟩
  | fault =>
    rw [h] at hev
    exact absurd hev (by simp [Outcome.toOption])
  | timeout =>
    rw [h] at hev
    exact absurd hev (by simp [Outcome.toOption])

/-! ## The walker: when the capacities are reset -/

theorem refitStep_flags (units : List VehicleUnit) (next : Order) (t : Tracker)
    (flags : RefreshFlags) (sh : Shared) (t1 : Tracker) (flags1 : RefreshFlags) (sh1 : Shared)
    (h : refitStep units next t flags sh = some (t1, flags1, sh1)) :
    flags1.WAS_REFIT = (flags.WAS_REFIT || next.IsExplicitRefit) ∧
    flags1.RESET_REFIT = (flags1.WAS_REFIT && next.IsCargoStop) ∧
    flags1.USE_NEXT = flags.USE_NEXT ∧ flags1.HAS_CARGO = flags.HAS_CARGO := by
  obtain ⟨rfl, _, _⟩ := refitStep_some units next t flags sh t1 flags1 sh1 h
  unfold refitFlags Order.IsCargoStop
  cases h1 : next.IsExplicitRefit <;> cases h2 : flags.WAS_REFIT <;> simp [h1, h2]

theorem cargoStep_reset (stations : StationPool) (allow_merge : Bool) (cur next : Order)
    (t : Tracker) (flags : RefreshFlags) (sh : Shared) (hr : flags.RESET_REFIT = true) :
    cargoStep stations allow_merge cur next t flags sh =
      (ResetRefit t,
        ⟨flags.USE_NEXT,
          if cur.IsCargoStop = true then cur.CanLeaveWithCargo flags.HAS_CARGO
          else flags.HAS_CARGO, false, false⟩,
        ⟨sh.seen_hops, sh.trace ++ Event.reset ::
          (if cur.IsCargoStop = true then
            (if cur.CanLeaveWithCargo flags.HAS_CARGO = true then
              Event.leave cur flags.HAS_CARGO true :: Event.stats cur next (ResetRefit t) ::
                (RefreshStats stations allow_merge (ResetRefit t).capacities cur next).map
                  Event.increase
            else [Event.leave cur flags.HAS_CARGO false])
          else [])⟩) := by
  rw [cargoStep_full]
  unfold cargoTracker cargoFlags cargoEvents
  by_cases hc : cur.IsCargoStop = true <;>
    by_cases hl : cur.CanLeaveWithCargo flags.HAS_CARGO = true <;>
    simp [hr, hc, hl]

theorem cargoStep_no_reset (stations : StationPool) (allow_merge : Bool) (cur next : Order)
    (t : Tracker) (flags : RefreshFlags) (sh : Shared) (hr : flags.RESET_REFIT = false) :
    cargoStep stations allow_merge cur next t flags sh =
      (t,
        ⟨flags.USE_NEXT,
          if cur.IsCargoStop = true then cur.CanLeaveWithCargo flags.HAS_CARGO
          else flags.HAS_CARGO, flags.WAS_REFIT, false⟩,
        ⟨sh.seen_hops, sh.trace ++
          (if cur.IsCargoStop = true then
            (if cur.CanLeaveWithCargo flags.HAS_CARGO = true then
              Event.leave cur flags.HAS_CARGO true :: Event.stats cur next t ::
                (RefreshStats stations allow_merge t.capacities cur next).map Event.increase
            else [Event.leave cur flags.HAS_CARGO false])
          else [])⟩) := by
  rw [cargoStep_full]
  unfold cargoTracker cargoFlags cargoEvents
  cases flags with
  | mk u g w r =>
    simp only at hr
    subst hr
    by_cases hc : cur.IsCargoStop = true <;>
      by_cases hl : cur.CanLeaveWithCargo g = true <;>
      simp [hc, hl]

/-- C21, counterexample: in the scenario the refit at the station stop `A`
leaves 0 of cargo 3 and nothing of cargo 7, for which `RefreshStats` would
make no call; but `ResetRefit` runs before the `RefreshStats` of the same
iteration, so the update for the hop from `A` to `B` is made with the
restored 80 of cargo 7. -/
theorem reset_runs_before_stats_of_same_hop :
    HandleRefit [scenarioUnit] 7 (Tracker.new [scenarioUnit]) =
      some ⟨[(3, 0)], [⟨7, 80, 0⟩], 7⟩ ∧
    RefreshStats (scenarioStations (fun _ _ => 0)) true [(3, 0)] scenarioA scenarioB = [] ∧
    (Run 8 (scenarioStations (fun _ _ => 0)) (scenarioVehicle 1) true).toOption.map
      (fun r => (r.trace.map Event.label).take 7) =
      some [EventLabel.enter 0, EventLabel.refit 0, EventLabel.insert ⟨0, 1, 7⟩,
        EventLabel.reset, EventLabel.leave 0 true true,
        EventLabel.stats 0 1 [(3, 0), (7, 80)],
        EventLabel.increase ⟨1, 7, 2, 80, EdgeUpdateMode.REFRESH_UNRESTRICTED⟩] := by
  refine ⟨by decide, by decide, by decide⟩

/-- C21, amended: at the start of an iteration `WAS_REFIT` is set when it was
set or `next` has an explicit refit, and `RESET_REFIT` is set exactly when
`WAS_REFIT` is set and `next` is a station or implicit stop. When the order
then resolved is a station or implicit stop, the iteration continues with the
result of the cargo part; with `RESET_REFIT` set the cargo part runs
`ResetRefit` first and its `RefreshStats` is made with the capacities
restored by `ResetRefit`, and `WAS_REFIT` and `RESET_REFIT` are cleared; with
`RESET_REFIT` unset the tracker is unchanged and `RefreshStats` is made with
the capacities as `HandleRefit` left them. -/
theorem reset_scheduling (stations : StationPool) (units : List VehicleUnit) (ol : OrderList)
    (allow_merge : Bool) (fuel : Nat) :
    (∀ t sh cur next flags n t1 flags1 sh1 next1 sh2,
      refitStep units next t flags sh = some (t1, flags1, sh1) →
      PredictNextOrder stations units ol allow_merge fuel t1 sh1 cur (some next) flags1 n =
        Outcome.done (some next1, sh2) →
      HopSet.find sh2.seen_hops ⟨cur.index, next1.index, t1.cargo⟩ = false →
      next1.IsCargoStop = true →
      (if next.IsExplicitRefit = true then HandleRefit units next.GetRefitCargo t = some t1
        else t1 = t) ∧
      flags1.WAS_REFIT = (flags.WAS_REFIT || next.IsExplicitRefit) ∧
      flags1.RESET_REFIT = (flags1.WAS_REFIT && next.IsCargoStop) ∧
      RefreshLinks stations units ol allow_merge (fuel + 1) t sh cur (some next) flags n =
        RefreshLinks stations units ol allow_merge fuel
          (cargoStep stations allow_merge cur next1 t1 { flags1 with USE_NEXT := false }
            ⟨sh2.seen_hops ++ [⟨cur.index, next1.index, t1.cargo⟩],
              sh2.trace ++ [Event.insert ⟨cur.index, next1.index, t1.cargo⟩]⟩).1
          (cargoStep stations allow_merge cur next1 t1 { flags1 with USE_NEXT := false }
            ⟨sh2.seen_hops ++ [⟨cur.index, next1.index, t1.cargo⟩],
              sh2.trace ++ [Event.insert ⟨cur.index, next1.index, t1.cargo⟩]⟩).2.2
          next1 (some next1)
          (cargoStep stations allow_merge cur next1 t1 { flags1 with USE_NEXT := false }
            ⟨sh2.seen_hops ++ [⟨cur.index, next1.index, t1.cargo⟩],
              sh2.trace ++ [Event.insert ⟨cur.index, next1.index, t1.cargo⟩]⟩).2.1 n) ∧
    (∀ cur next t flags sh, flags.RESET_REFIT = true →
      cargoStep stations allow_merge cur next t flags sh =
        (ResetRefit t,
          ⟨flags.USE_NEXT,
            if cur.IsCargoStop = true then cur.CanLeaveWithCargo flags.HAS_CARGO
            else flags.HAS_CARGO, false, false⟩,
          ⟨sh.seen_hops, sh.trace ++ Event.reset ::
            (if cur.IsCargoStop = true then
              (if cur.CanLeaveWithCargo flags.HAS_CARGO = true then
                Event.leave cur flags.HAS_CARGO true :: Event.stats cur next (ResetRefit t) ::
                  (RefreshStats stations allow_merge (ResetRefit t).capacities cur next).map
                    Event.increase
              else [Event.leave cur flags.HAS_CARGO false])
            else [])⟩)) ∧
    (∀ cur next t flags sh, flags.RESET_REFIT = false →
      cargoStep stations allow_merge cur next t flags sh =
        (t,
          ⟨flags.USE_NEXT,
            if cur.IsCargoStop = true then cur.CanLeaveWithCargo flags.HAS_CARGO
            else flags.HAS_CARGO, flags.WAS_REFIT, false⟩,
          ⟨sh.seen_hops, sh.trace ++
            (if cur.IsCargoStop = true then
              (if cur.CanLeaveWithCargo flags.HAS_CARGO = true then
                Event.leave cur flags.HAS_CARGO true :: Event.stats cur next t ::
                  (RefreshStats stations allow_merge t.capacities cur next).map Event.increase
              else [Event.leave cur flags.HAS_CARGO false])
            else [])⟩)) := by
  refine ⟨?_, cargoStep_reset stations allow_merge, cargoStep_no_reset stations allow_merge⟩
  intro t sh cur next flags n t1 flags1 sh1 next1 sh2 hs hp hf hk
  obtain ⟨hw, hr, _, _⟩ := refitStep_flags units next t flags sh t1 flags1 sh1 hs
  refine ⟨(refitStep_some units next t flags sh t1 flags1 sh1 hs).2.2, hw, hr, ?_⟩
  rw [RefreshLinks_cargo stations units ol allow_merge fuel t sh cur next flags n t1 flags1 sh1
    next1 sh2 hs hp hf hk, cargoStep_full]

/-- Witness for the amended C21 on the scenario: the cargo part of the
iteration for the hop from `A` to `B`, entered with the tracker as the refit
to cargo 7 left it and with `RESET_REFIT` set, resets first and reports 80 of
cargo 7. -/
theorem reset_scheduling_witness :
    cargoStep (scenarioStations (fun _ _ => 0)) true scenarioA scenarioB
        ⟨[(3, 0)], [⟨7, 80, 0⟩], 7⟩ ⟨false, true, true, true⟩ ⟨[], []⟩ =
      (ResetRefit ⟨[(3, 0)], [⟨7, 80, 0⟩], 7⟩, ⟨false, true, false, false⟩,
        ⟨[], [Event.reset, Event.leave scenarioA true true,
          Event.stats scenarioA scenarioB (ResetRefit ⟨[(3, 0)], [⟨7, 80, 0⟩], 7⟩),
          Event.increase ⟨1, 7, 2, 80, EdgeUpdateMode.REFRESH_UNRESTRICTED⟩]⟩) ∧
    (ResetRefit ⟨[(3, 0)], [⟨7, 80, 0⟩], 7⟩).capacities = [(3, 0), (7, 80)] :=
  ⟨(reset_scheduling (scenarioStations (fun _ _ => 0)) [scenarioUnit]
      (OrderList.ofList scenarioOrders) true 0).2.1 scenarioA scenarioB
      ⟨[(3, 0)], [⟨7, 80, 0⟩], 7⟩ ⟨false, true, true, true⟩ ⟨[], []⟩ rfl, by decide⟩

/-! ## `HandleRefit`: the aircraft branch -/

theorem HandleRefit_aircraft (v : VehicleUnit) (vs : List VehicleUnit) (cargo : Nat)
    (caps : CapacitiesMap) (s m : RefitDesc) (rest : List RefitDesc) (cg : Nat)
    (hair : v.type = VehicleType.VEH_AIRCRAFT) (hcap : HasBit v.refit_mask cargo = true) :
    HandleRefit (v :: vs) cargo ⟨caps, s :: m :: rest, cg⟩ =
      some ⟨mailCaps (v.DetermineCapacity cargo).2 m
          (refittedCaps cargo (v.DetermineCapacity cargo).1 s caps),
        refittedSlot cargo (v.DetermineCapacity cargo).1 s ::
          mailSlot (v.DetermineCapacity cargo).2 m :: rest, cargo⟩ := by
  unfold HandleRefit
  simp only [handleRefitLoop, hcap, hair, Bool.not_true, Bool.false_eq_true, if_false, if_true]
  by_cases hm : (v.DetermineCapacity cargo).2 < m.remaining
  · simp only [hm, if_true, Option.map_some', mailCaps, mailSlot, refittedSlot, refittedCaps]
  · simp only [hm, if_false, Option.map_some', mailCaps, mailSlot, refittedSlot, refittedCaps]

theorem handleRefitLoop_noAircraft (cargo : Nat) (units : List VehicleUnit) :
    ∀ (slots : List RefitDesc) (caps : CapacitiesMap),
      (∀ v ∈ units, v.type ≠ VehicleType.VEH_AIRCRAFT) → units.length ≤ slots.length →
      ∃ caps1, handleRefitLoop cargo units slots caps = some (refitSlots cargo units slots, caps1) := by
  induction units with
  | nil =>
    intro slots caps _ _
    exact ⟨caps, by cases slots <;> rfl⟩
  | cons u us ih =>
    intro slots caps hna hlen
    cases slots with
    | nil => simp at hlen
    | cons s rest =>
      have hu : ¬ u.type = VehicleType.VEH_AIRCRAFT := hna u (List.mem_cons_self _ _)
      have hlen1 : us.length ≤ rest.length := by
        simp only [List.length_cons] at hlen
        omega
      have hna1 : ∀ v ∈ us, v.type ≠ VehicleType.VEH_AIRCRAFT :=
        fun v hv => hna v (List.mem_cons_of_mem _ hv)
      by_cases hcap : HasBit u.refit_mask cargo = true
      · obtain ⟨caps1, h1⟩ := ih rest
          (refittedCaps cargo (u.DetermineCapacity cargo).1 s caps) hna1 hlen1
        refine ⟨caps1, ?_⟩
        unfold refittedCaps at h1
        simp only [handleRefitLoop, hcap, hu, Bool.not_true, Bool.false_eq_true, if_false, h1,
          Option.map_some', refitSlots, if_true, refittedSlot]
      · obtain ⟨caps1, h1⟩ := ih rest caps hna1 hlen1
        refine ⟨caps1, ?_⟩
        simp only [Bool.not_eq_true] at hcap
        simp only [handleRefitLoop, hcap, Bool.not_false, if_true, h1, Option.map_some',
          refitSlots, Bool.false_eq_true, if_false]

theorem handleRefitLoop_withMail (cargo : Nat) (g : VehicleUnit → Nat → Nat)
    (units : List VehicleUnit) :
    ∀ (slots : List RefitDesc) (caps : CapacitiesMap),
      (∀ v ∈ units, v.type ≠ VehicleType.VEH_AIRCRAFT) →
      handleRefitLoop cargo (units.map (fun v => v.withMail (g v))) slots caps =
        handleRefitLoop cargo units slots caps := by
  induction units with
  | nil =>
    intro slots caps _
    rfl
  | cons u us ih =>
    intro slots caps hna
    have hu : ¬ u.type = VehicleType.VEH_AIRCRAFT := hna u (List.mem_cons_self _ _)
    have hna1 : ∀ v ∈ us, v.type ≠ VehicleType.VEH_AIRCRAFT :=
      fun v hv => hna v (List.mem_cons_of_mem _ hv)
    cases slots with
    | nil => rfl
    | cons s rest =>
      simp only [List.map_cons, handleRefitLoop, VehicleUnit.withMail, hu, if_false]
      rw [show (List.map (fun v => { v with DetermineCapacity := fun c =>
          ((v.DetermineCapacity c).1, g v c) }) us) =
        us.map (fun v => v.withMail (g v)) from rfl]
      simp only [ih _ _ hna1]

theorem Processed.of_noAircraft {cargo : Nat} {units : List VehicleUnit} {i : Nat}
    {v : VehicleUnit} (hna : ∀ w ∈ units, w.type ≠ VehicleType.VEH_AIRCRAFT)
    (hv : units.get? i = some v) (hcap : HasBit v.refit_mask cargo = true) :
    Processed cargo units i :=
  ⟨⟨v, hv, hcap⟩, fun _ w _ hw hx => hna w (List.get?_mem hw) hx.2⟩

/-- C22: when the first unit is an aircraft able to carry the refit cargo and
at least two units are tracked, `HandleRefit` rewrites the first entry with
the primary capacity and writes the mail capacity `m` to the second entry:
its capacity becomes `m`, its remaining the minimum of its old remaining and
`m`, the difference leaves the bucket of its own cargo, its cargo is kept;
the entries after the second are kept, and under the tracker invariant the
buckets are the sums of remaining over these entries. For a consist without
aircraft units every unit able to carry the cargo is processed, the other
entries are kept, and the result does not depend on the secondary
capacities. -/
theorem HandleRefit_aircraft_special_case (cargo : Nat) :
    (∀ (v : VehicleUnit) (vs : List VehicleUnit) (caps : CapacitiesMap) (s m : RefitDesc)
      (rest : List RefitDesc) (cg : Nat),
      v.type = VehicleType.VEH_AIRCRAFT → HasBit v.refit_mask cargo = true →
      HandleRefit (v :: vs) cargo ⟨caps, s :: m :: rest, cg⟩ =
        some ⟨mailCaps (v.DetermineCapacity cargo).2 m
            (refittedCaps cargo (v.DetermineCapacity cargo).1 s caps),
          refittedSlot cargo (v.DetermineCapacity cargo).1 s ::
            mailSlot (v.DetermineCapacity cargo).2 m :: rest, cargo⟩ ∧
      (mailSlot (v.DetermineCapacity cargo).2 m).cargo = m.cargo ∧
      (mailSlot (v.DetermineCapacity cargo).2 m).capacity = (v.DetermineCapacity cargo).2 ∧
      (mailSlot (v.DetermineCapacity cargo).2 m).remaining =
        min m.remaining (v.DetermineCapacity cargo).2 ∧
      (TrackerInv ⟨caps, s :: m :: rest, cg⟩ → InRange caps →
        ∀ c, (mailCaps (v.DetermineCapacity cargo).2 m
            (refittedCaps cargo (v.DetermineCapacity cargo).1 s caps)).get c =
          sumRemaining (refittedSlot cargo (v.DetermineCapacity cargo).1 s ::
            mailSlot (v.DetermineCapacity cargo).2 m :: rest) c)) ∧
    (∀ (units : List VehicleUnit) (t : Tracker),
      (∀ v ∈ units, v.type ≠ VehicleType.VEH_AIRCRAFT) →
      units.length ≤ t.refit_capacities.length →
      (∃ t1, HandleRefit units cargo t = some t1 ∧
        t1.refit_capacities = refitSlots cargo units t.refit_capacities ∧
        (∀ i v s, units.get? i = some v → HasBit v.refit_mask cargo = true →
          t.refit_capacities.get? i = some s →
          t1.refit_capacities.get? i =
            some (refittedSlot cargo (v.DetermineCapacity cargo).1 s))) ∧
      ∀ g : VehicleUnit → Nat → Nat,
        HandleRefit (units.map (fun v => v.withMail (g v))) cargo t =
          HandleRefit units cargo t) := by
  constructor
  · intro v vs caps s m rest cg hair hcap
    have h := HandleRefit_aircraft v vs cargo caps s m rest cg hair hcap
    refine ⟨h, rfl, rfl, ?_, ?_⟩
    · unfold mailSlot
      simp only
      split_ifs with hm
      · exact (Nat.min_eq_right (Nat.le_of_lt hm)).symm
      · exact (Nat.min_eq_left (Nat.le_of_not_lt hm)).symm
    · intro hinv hr c
      exact (HandleRefit_inv (v :: vs) cargo ⟨caps, s :: m :: rest, cg⟩ _ hinv hr h).1 c
  · intro units t hna hlen
    constructor
    · obtain ⟨caps1, h1⟩ := handleRefitLoop_noAircraft cargo units t.refit_capacities
        t.capacities hna hlen
      have ht1 : HandleRefit units cargo t =
          some ⟨caps1, refitSlots cargo units t.refit_capacities, cargo⟩ := by
        unfold HandleRefit
        rw [h1]
        rfl
      refine ⟨_, ht1, rfl, ?_⟩
      intro i v s hv hcap hs
      exact HandleRefit_processed units cargo t _ i v s ht1
        (Processed.of_noAircraft hna hv hcap) hv hs
    · intro g
      unfold HandleRefit
      rw [handleRefitLoop_withMail cargo g units _ _ hna]

/-- Witness for C22: the refit of the aircraft to cargo 7 leaves 0 of cargo 3
in its own entry and writes the mail capacity 10 to the entry of the second
unit, taking the difference 10 from the bucket of cargo 2. -/
theorem HandleRefit_aircraft_special_case_witness :
    HandleRefit [planeUnit, shadowUnit] 7 ⟨[(2, 20), (3, 100)], [⟨3, 100, 100⟩, ⟨2, 20, 20⟩], 255⟩ =
      some ⟨mailCaps 10 ⟨2, 20, 20⟩ (refittedCaps 7 80 ⟨3, 100, 100⟩ [(2, 20), (3, 100)]),
        [refittedSlot 7 80 ⟨3, 100, 100⟩, mailSlot 10 ⟨2, 20, 20⟩], 7⟩ ∧
    mailCaps 10 ⟨2, 20, 20⟩ (refittedCaps 7 80 ⟨3, 100, 100⟩ [(2, 20), (3, 100)]) =
      [(2, 10), (3, 0)] ∧
    [refittedSlot 7 80 ⟨3, 100, 100⟩, mailSlot 10 ⟨2, 20, 20⟩] = [⟨7, 80, 0⟩, ⟨2, 10, 10⟩] ∧
    Tracker.new [planeUnit, shadowUnit] =
      ⟨[(2, 20), (3, 100)], [⟨3, 100, 100⟩, ⟨2, 20, 20⟩], 255⟩ :=
  ⟨((HandleRefit_aircraft_special_case 7).1 planeUnit [shadowUnit] [(2, 20), (3, 100)]
      ⟨3, 100, 100⟩ ⟨2, 20, 20⟩ [] 255 rfl (by decide)).1, by decide, by decide, by decide⟩

/-! ## `HandleRefit`: no bucket grows -/

theorem handleRefitLoop_kept (cargo : Nat) (units : List VehicleUnit) :
    ∀ (slots : List RefitDesc) (caps : CapacitiesMap) (r : List RefitDesc × CapacitiesMap)
      (i : Nat) (v : VehicleUnit) (s : RefitDesc),
      handleRefitLoop cargo units slots caps = some r →
      units.get? i = some v → HasBit v.refit_mask cargo = false →
      (∀ j w, j < i → units.get? j = some w →
        ¬(HasBit w.refit_mask cargo = true ∧ w.type = VehicleType.VEH_AIRCRAFT)) →
      slots.get? i = some s → r.1.get? i = some s := by
  induction units with
  | nil =>
    intro slots caps r i v s _ hv _ _ _
    simp at hv
  | cons u us ih =>
    intro slots caps r i v s h hv hcap hna hs
    cases slots with
    | nil => simp at hs
    | cons s0 rest =>
      simp only [handleRefitLoop] at h
      cases i with
      | zero =>
        simp only [List.get?_cons_zero, Option.some.injEq] at hv hs
        subst hv hs
        simp only [hcap, Bool.not_false, if_true, Option.map_eq_some'] at h
        obtain ⟨r1, _, rfl⟩ := h
        rfl
      | succ i =>
        simp only [List.get?_cons_succ] at hv hs
        have hna1 : ∀ j w, j < i → us.get? j = some w →
            ¬(HasBit w.refit_mask cargo = true ∧ w.type = VehicleType.VEH_AIRCRAFT) :=
          fun j w hj hw => hna (j + 1) w (by omega) (by simpa using hw)
        have hu : ¬(HasBit u.refit_mask cargo = true ∧ u.type = VehicleType.VEH_AIRCRAFT) :=
          hna 0 u (by omega) rfl
        by_cases hcu : HasBit u.refit_mask cargo = true
        · have hair : ¬ u.type = VehicleType.VEH_AIRCRAFT := fun h => hu ⟨hcu, h⟩
          simp only [hcu, hair, Bool.not_true, Bool.false_eq_true, if_false,
            Option.map_eq_some'] at h
          obtain ⟨r1, hr1, rfl⟩ := h
          simpa using ih rest _ r1 i v s hr1 hv hcap hna1 hs
        · simp only [hcu, Bool.not_false, if_true, Option.map_eq_some'] at h
          obtain ⟨r1, hr1, rfl⟩ := h
          simpa using ih rest _ r1 i v s hr1 hv hcap hna1 hs

/-- C23, counterexample: the second unit of the aircraft cannot carry cargo 7,
but the refit of the aircraft to cargo 7 changes its entry from capacity 20
and remaining 20 to capacity 10 and remaining 10. -/
theorem HandleRefit_changes_mail_slot :
    HasBit shadowUnit.refit_mask 7 = false ∧
    (Tracker.new [planeUnit, shadowUnit]).refit_capacities.get? 1 = some ⟨2, 20, 20⟩ ∧
    (HandleRefit [planeUnit, shadowUnit] 7 (Tracker.new [planeUnit, shadowUnit])).map
      (fun t1 => t1.refit_capacities.get? 1) = some (some ⟨2, 10, 10⟩) := by
  refine ⟨by decide, by decide, by decide⟩

/-- C23, amended: under the tracker invariant `HandleRefit` increases no
bucket of the capacities map. A unit it processes (able to carry the refit
cargo, with no aircraft unit able to carry it before) ends with the refit
cargo, the simulated capacity and remaining 0 when its previous cargo
differs, and the smaller of its old remaining and the simulated capacity when
it already held the refit cargo. A unit that cannot carry the refit cargo and
has no aircraft unit able to carry it before is unchanged; the entry after a
processed aircraft unit receives the mail capacity instead. The bucket of the
refit cargo holds the capacities of the units refitted to it after the next
`ResetRefit`. -/
theorem HandleRefit_never_increases (units : List VehicleUnit) (cargo : Nat) (t t1 : Tracker)
    (hinv : TrackerInv t) (hr : InRange t.capacities)
    (h : HandleRefit units cargo t = some t1) :
    (∀ c, t1.capacities.get c ≤ t.capacities.get c) ∧
    (∀ i v s, Processed cargo units i → units.get? i = some v →
      t.refit_capacities.get? i = some s →
      ∃ d, t1.refit_capacities.get? i = some d ∧ d.cargo = cargo ∧
        d.capacity = (v.DetermineCapacity cargo).1 ∧
        (s.cargo ≠ cargo → d.remaining = 0) ∧
        (s.cargo = cargo → d.remaining = min s.remaining (v.DetermineCapacity cargo).1)) ∧
    (∀ i v s, units.get? i = some v → HasBit v.refit_mask cargo = false →
      (∀ j w, j < i → units.get? j = some w →
        ¬(HasBit w.refit_mask cargo = true ∧ w.type = VehicleType.VEH_AIRCRAFT)) →
      t.refit_capacities.get? i = some s → t1.refit_capacities.get? i = some s) ∧
    ((∀ c, sumCapacity t1.refit_capacities c < 4294967296) →
      (ResetRefit t1).capacities.get cargo = sumCapacity t1.refit_capacities cargo) := by
  obtain ⟨hinv1, _, hle⟩ := HandleRefit_inv units cargo t t1 hinv hr h
  refine ⟨hle, ?_, ?_, fun hcap => (ResetRefit_inv t1 hinv1 hcap).2.2 cargo⟩
  · intro i v s hp hv hs
    refine ⟨_, HandleRefit_processed units cargo t t1 i v s h hp hv hs, rfl, rfl, ?_, ?_⟩
    · intro hne
      unfold refittedSlot
      simp only
      have hne1 : cargo ≠ s.cargo := fun e => hne e.symm
      by_cases hpos : s.remaining > 0
      · rw [if_pos ⟨hne1, hpos⟩]
      · rw [if_neg (fun hx => hpos hx.2)]
        split_ifs <;> omega
    · intro he
      unfold refittedSlot
      simp only
      rw [if_neg (fun hx => hx.1 he.symm)]
      split_ifs with hlt
      · exact (Nat.min_eq_right (Nat.le_of_lt hlt)).symm
      · exact (Nat.min_eq_left (Nat.le_of_not_lt hlt)).symm
  · intro i v s hv hcap hna hs
    unfold HandleRefit at h
    rw [Option.map_eq_some'] at h
    obtain ⟨r, hr1, rfl⟩ := h
    exact handleRefitLoop_kept cargo units _ _ r i v s hr1 hv hcap hna hs

/-- Witness for the amended C23 on the scenario unit: the refit to cargo 7
empties the bucket of cargo 3 and leaves the bucket of cargo 7 at 0. -/
theorem HandleRefit_never_increases_witness :
    HandleRefit [scenarioUnit] 7 (Tracker.new [scenarioUnit]) =
      some ⟨[(3, 0)], [⟨7, 80, 0⟩], 7⟩ ∧
    (∀ c, (Tracker.mk [(3, 0)] [⟨7, 80, 0⟩] 7).capacities.get c ≤
      (Tracker.new [scenarioUnit]).capacities.get c) :=
  ⟨by decide, (HandleRefit_never_increases [scenarioUnit] 7 (Tracker.new [scenarioUnit])
    ⟨[(3, 0)], [⟨7, 80, 0⟩], 7⟩
    (Tracker.new_inv [scenarioUnit]
      (sumRemaining_single_lt (RefitDesc.ofUnit scenarioUnit) (by decide))).1
    (Tracker.new_inv [scenarioUnit]
      (sumRemaining_single_lt (RefitDesc.ofUnit scenarioUnit) (by decide))).2
    (by decide)).1⟩

/-! ## `HandleRefit`: the accesses to the refit list -/

theorem handleRefitLoop_none (cargo : Nat) (units : List VehicleUnit) :
    ∀ (slots : List RefitDesc) (caps : CapacitiesMap),
      slots.length = units.length → ¬MailSlotPresent cargo units →
      handleRefitLoop cargo units slots caps = none := by
  induction units with
  | nil =>
    intro slots caps _ hnot
    exact absurd trivial hnot
  | cons u us ih =>
    intro slots caps hlen hnot
    cases slots with
    | nil => simp at hlen
    | cons s rest =>
      have hlen1 : rest.length = us.length := by
        simp only [List.length_cons] at hlen
        omega
      unfold MailSlotPresent at hnot
      by_cases hcond : HasBit u.refit_mask cargo = true ∧ u.type = VehicleType.VEH_AIRCRAFT
      · rw [if_pos hcond] at hnot
        have hus : us = [] := by
          by_contra hne
          exact hnot hne
        subst hus
        have hrest : rest = [] := List.length_eq_zero.mp hlen1
        subst hrest
        simp only [handleRefitLoop, hcond.1, hcond.2, Bool.not_true, Bool.false_eq_true, if_false,
          if_true]
      · rw [if_neg hcond] at hnot
        by_cases hcap : HasBit u.refit_mask cargo = true
        · have hair : ¬ u.type = VehicleType.VEH_AIRCRAFT := fun h => hcond ⟨hcap, h⟩
          simp only [handleRefitLoop, hcap, hair, Bool.not_true, Bool.false_eq_true, if_false,
            ih rest _ hlen1 hnot, Option.map_none']
        · simp only [Bool.not_eq_true] at hcap
          simp only [handleRefitLoop, hcap, Bool.not_false, if_true, ih rest _ hlen1 hnot,
            Option.map_none']

theorem MailSlotPresent_of_followed (cargo : Nat) (units : List VehicleUnit) :
    (∀ i v, units.get? i = some v → v.type = VehicleType.VEH_AIRCRAFT →
      HasBit v.refit_mask cargo = true → i + 1 < units.length) →
    MailSlotPresent cargo units := by
  induction units with
  | nil =>
    intro _
    trivial
  | cons u us ih =>
    intro h
    unfold MailSlotPresent
    by_cases hcond : HasBit u.refit_mask cargo = true ∧ u.type = VehicleType.VEH_AIRCRAFT
    · rw [if_pos hcond]
      have h0 := h 0 u rfl hcond.2 hcond.1
      intro hus
      subst hus
      simp at h0
    · rw [if_neg hcond]
      apply ih
      intro i v hv hair hcap
      have h1 := h (i + 1) v (by simpa using hv) hair hcap
      simp only [List.length_cons] at h1
      omega

/-- C24: with one entry of the refit list per unit, `HandleRefit` makes no
access past the end of the list exactly when the first aircraft unit able to
carry the refit cargo, if there is one, is followed by a further unit; this
is the case when every aircraft unit able to carry the cargo is followed by a
further unit. The call then returns, keeps one entry per unit, and the entry
rewritten for a processed unit is the one at the position of that unit. For a
single aircraft unit able to carry the cargo the access to the mail slot is
past the end. -/
theorem HandleRefit_index_safety (units : List VehicleUnit) (cargo : Nat) (t : Tracker)
    (hlen : t.refit_capacities.length = units.length) :
    ((∀ i v, units.get? i = some v → v.type = VehicleType.VEH_AIRCRAFT →
        HasBit v.refit_mask cargo = true → i + 1 < units.length) →
      ∃ t1, HandleRefit units cargo t = some t1 ∧
        t1.refit_capacities.length = units.length ∧
        ∀ i v s, Processed cargo units i → units.get? i = some v →
          t.refit_capacities.get? i = some s →
          t1.refit_capacities.get? i =
            some (refittedSlot cargo (v.DetermineCapacity cargo).1 s)) ∧
    (HandleRefit units cargo t = none ↔ ¬MailSlotPresent cargo units) ∧
    (∀ v, units = [v] → v.type = VehicleType.VEH_AIRCRAFT → HasBit v.refit_mask cargo = true →
      HandleRefit units cargo t = none) := by
  have hnone : ¬MailSlotPresent cargo units → HandleRefit units cargo t = none := by
    intro hnot
    unfold HandleRefit
    rw [handleRefitLoop_none cargo units _ _ hlen hnot]
    rfl
  refine ⟨?_, ⟨?_, hnone⟩, ?_⟩
  · intro hf
    obtain ⟨t1, ht1, hl, _⟩ := HandleRefit_isSome units cargo t hlen
      (MailSlotPresent_of_followed cargo units hf)
    refine ⟨t1, ht1, hl.trans hlen, ?_⟩
    intro i v s hp hv hs
    exact HandleRefit_processed units cargo t t1 i v s ht1 hp hv hs
  · intro h hm
    obtain ⟨t1, ht1, _⟩ := HandleRefit_isSome units cargo t hlen hm
    rw [h] at ht1
    exact absurd ht1 (by simp)
  · intro v hu hair hcap
    apply hnone
    subst hu
    unfold MailSlotPresent
    rw [if_pos ⟨hcap, hair⟩]
    exact fun hx => hx rfl

/-- Witness for C24: the refit of the two-unit aircraft to cargo 7 returns,
the one of the aircraft tracked as a single unit does not. -/
theorem HandleRefit_index_safety_witness :
    HandleRefit [planeUnit, shadowUnit] 7 (Tracker.new [planeUnit, shadowUnit]) =
      some ⟨[(2, 10), (3, 0)], [⟨7, 80, 0⟩, ⟨2, 10, 10⟩], 7⟩ ∧
    (HandleRefit [planeUnit, shadowUnit] 7 (Tracker.new [planeUnit, shadowUnit]) = none ↔
      ¬MailSlotPresent 7 [planeUnit, shadowUnit]) ∧
    HandleRefit [planeUnit] 7 (Tracker.new [planeUnit]) = none :=
  ⟨by decide,
    (HandleRefit_index_safety [planeUnit, shadowUnit] 7 (Tracker.new [planeUnit, shadowUnit])
      (by decide)).2.1,
    (HandleRefit_index_safety [planeUnit] 7 (Tracker.new [planeUnit]) (by decide)).2.2
      planeUnit rfl rfl (by decide)⟩

end LinkRefresher

namespace ScriptStation

/-! ## The script API: `GetCargoRating` -/

theorem ToPercent8_lt (i : Nat) : ToPercent8 i < 2 ^ 24 := by
  unfold ToPercent8
  have h : i * 101 % 2 ^ 32 < 2 ^ 32 := Nat.mod_lt _ (by norm_num)
  omega

theorem toInt32_ToPercent8 (i : Nat) : toInt32 (ToPercent8 i) = ((ToPercent8 i : Nat) : Int) := by
  have h := ToPercent8_lt i
  unfold toInt32
  have hm : ToPercent8 i % 2 ^ 32 = ToPercent8 i := Nat.mod_eq_of_lt (by omega)
  rw [hm, if_pos (by omega)]

theorem ToPercent8_byte (i : Nat) (h : i < 2 ^ 8) : ToPercent8 i ≤ 100 := by
  unfold ToPercent8
  have hm : i * 101 % 2 ^ 32 = i * 101 := Nat.mod_eq_of_lt (by omega)
  rw [hm]
  omega

/-- C20: `GetCargoRating` returns -1 exactly when `HasCargoRating` is false,
which is the case exactly when the station is not valid for the script, the
cargo is not valid, or the goods entry has no rating; otherwise it returns
`ToPercent8` of the rating byte, a value from 0 to 100 and so never -1. -/
theorem GetCargoRating_spec (w : World) (station_id cargo_id : Nat) :
    (HasCargoRating w station_id cargo_id = false ↔
      (IsValidStation w station_id = false ∨ w.IsValidCargo cargo_id = false ∨
        ((w.Get station_id).goods cargo_id).HasRating = false)) ∧
    (HasCargoRating w station_id cargo_id = false → GetCargoRating w station_id cargo_id = -1) ∧
    (HasCargoRating w station_id cargo_id = true →
      GetCargoRating w station_id cargo_id =
        ((ToPercent8 (((w.Get station_id).goods cargo_id).rating % 2 ^ 8) : Nat) : Int) ∧
      0 ≤ GetCargoRating w station_id cargo_id ∧ GetCargoRating w station_id cargo_id ≤ 100 ∧
      GetCargoRating w station_id cargo_id ≠ -1) ∧
    (GetCargoRating w station_id cargo_id = -1 ↔ HasCargoRating w station_id cargo_id = false) := by
  have hfalse : HasCargoRating w station_id cargo_id = false →
      GetCargoRating w station_id cargo_id = -1 := by
    intro h
    unfold GetCargoRating
    rw [h]
    rfl
  have htrue : HasCargoRating w station_id cargo_id = true →
      GetCargoRating w station_id cargo_id =
        ((ToPercent8 (((w.Get station_id).goods cargo_id).rating % 2 ^ 8) : Nat) : Int) := by
    intro h
    unfold GetCargoRating
    rw [h]
    simp only [Bool.not_true, Bool.false_eq_true, if_false]
    exact toInt32_ToPercent8 _
  have hle : ToPercent8 (((w.Get station_id).goods cargo_id).rating % 2 ^ 8) ≤ 100 :=
    ToPercent8_byte _ (Nat.mod_lt _ (by norm_num))
  refine ⟨?_, hfalse, ?_, ?_⟩
  · unfold HasCargoRating
    cases hv : IsValidStation w station_id <;> cases hc : w.IsValidCargo cargo_id <;>
      cases hr : ((w.Get station_id).goods cargo_id).HasRating <;> simp
  · intro h
    rw [htrue h]
    refine ⟨rfl, ?_, ?_, ?_⟩
    · exact Int.natCast_nonneg _
    · exact_mod_cast hle
    · have h0 : (0 : Int) ≤ ((ToPercent8 (((w.Get station_id).goods cargo_id).rating % 2 ^ 8) :
          Nat) : Int) := Int.natCast_nonneg _
      omega
  · constructor
    · intro h
      cases hh : HasCargoRating w station_id cargo_id with
      | false => rfl
      | true =>
        rw [htrue hh] at h
        have h0 : (0 : Int) ≤ ((ToPercent8 (((w.Get station_id).goods cargo_id).rating % 2 ^ 8) :
            Nat) : Int) := Int.natCast_nonneg _
        omega
    · exact hfalse

/-- Witness for C20: station 5 with the initial rating 175 of cargo 2 gives
-1 while the cargo is not rated, and 69 once it is; an unknown station and an
invalid cargo give -1. -/
theorem GetCargoRating_spec_witness :
    GetCargoRating (ratingWorld false) 5 2 = -1 ∧ GetCargoRating (ratingWorld true) 5 2 = 69 ∧
    GetCargoRating (ratingWorld true) 6 2 = -1 ∧ GetCargoRating (ratingWorld true) 5 40 = -1 ∧
    (GetCargoRating (ratingWorld false) 5 2 = -1 ↔ HasCargoRating (ratingWorld false) 5 2 = false) :=
  ⟨by decide, by decide, by decide, by decide, (GetCargoRating_spec (ratingWorld false) 5 2).2.2.2⟩

/-! ## The script API: `GetCargoWaitingFrom` -/

theorem waitingTotal_cons (from_station_id : Nat) (cp : CargoPacket) (rest : List CargoPacket) :
    waitingTotal from_station_id (cp :: rest) =
      (if cp.SourceStation = from_station_id then cp.Count % 2 ^ 16 else 0) +
        waitingTotal from_station_id rest := by
  unfold waitingTotal
  by_cases h : cp.SourceStation = from_station_id
  · simp [List.filter_cons, h]
  · simp [List.filter_cons, h]

theorem countFrom_eq (from_station_id : Nat) (packets : List CargoPacket) :
    ∀ c, c < 2 ^ 16 →
      countFrom from_station_id packets c = (c + waitingTotal from_station_id packets) % 2 ^ 16 := by
  induction packets with
  | nil =>
    intro c hc
    simp only [countFrom, waitingTotal, List.filter_nil, List.map_nil, List.sum_nil, Nat.add_zero]
    exact (Nat.mod_eq_of_lt hc).symm
  | cons cp rest ih =>
    intro c hc
    rw [waitingTotal_cons]
    simp only [countFrom]
    by_cases h : cp.SourceStation = from_station_id
    · rw [if_pos h, if_pos h, ih _ (Nat.mod_lt _ (by norm_num))]
      omega
    · rw [if_neg h, if_neg h, ih c hc]
      omega

theorem toInt32_small (x : Nat) (h : x < 2 ^ 16) : toInt32 x = ((x : Nat) : Int) := by
  unfold toInt32
  have hm : x % 2 ^ 32 = x := Nat.mod_eq_of_lt (by omega)
  rw [hm, if_pos (by omega)]

/-- C25: `GetCargoWaitingFrom` returns -1 exactly when the station is not
valid, or `from_station_id` is neither a valid station nor `STATION_INVALID`,
or the cargo is not valid. Otherwise it returns the sum of `Count()` over the
packets whose source station is `from_station_id` modulo 65536 (the counter
has 16 bits): a value from 0 to 65535, equal to the sum exactly when the sum
is below 65536. -/
theorem GetCargoWaitingFrom_spec (w : World) (Packets : Nat → Nat → List CargoPacket)
    (station_id from_station_id cargo_id : Nat) :
    (GetCargoWaitingFrom w Packets station_id from_station_id cargo_id = -1 ↔
      (IsValidStation w station_id = false ∨
        (IsValidStation w from_station_id = false ∧ from_station_id ≠ STATION_INVALID) ∨
        w.IsValidCargo cargo_id = false)) ∧
    (IsValidStation w station_id = true →
      (IsValidStation w from_station_id = true ∨ from_station_id = STATION_INVALID) →
      w.IsValidCargo cargo_id = true →
      GetCargoWaitingFrom w Packets station_id from_station_id cargo_id =
        ((waitingTotal from_station_id (Packets station_id cargo_id) % 2 ^ 16 : Nat) : Int) ∧
      0 ≤ GetCargoWaitingFrom w Packets station_id from_station_id cargo_id ∧
      GetCargoWaitingFrom w Packets station_id from_station_id cargo_id ≤ 65535 ∧
      (GetCargoWaitingFrom w Packets station_id from_station_id cargo_id =
          ((waitingTotal from_station_id (Packets station_id cargo_id) : Nat) : Int) ↔
        waitingTotal from_station_id (Packets station_id cargo_id) < 65536)) := by
  have hval : countFrom from_station_id (Packets station_id cargo_id) 0 =
      waitingTotal from_station_id (Packets station_id cargo_id) % 2 ^ 16 := by
    rw [countFrom_eq _ _ 0 (by norm_num), Nat.zero_add]
  have hlt : waitingTotal from_station_id (Packets station_id cargo_id) % 2 ^ 16 < 2 ^ 16 :=
    Nat.mod_lt _ (by norm_num)
  have hpass : IsValidStation w station_id = true →
      (IsValidStation w from_station_id = true ∨ from_station_id = STATION_INVALID) →
      w.IsValidCargo cargo_id = true →
      GetCargoWaitingFrom w Packets station_id from_station_id cargo_id =
        ((waitingTotal from_station_id (Packets station_id cargo_id) % 2 ^ 16 : Nat) : Int) := by
    intro h1 h2 h3
    unfold GetCargoWaitingFrom
    rw [hval, toInt32_small _ hlt]
    rcases h2 with h2 | h2
    · simp [h1, h2, h3]
    · simp [h1, h2, h3]
  constructor
  · constructor
    · intro h
      by_contra hcon
      push_neg at hcon
      obtain ⟨h1, h2, h3⟩ := hcon
      simp only [ne_eq, Bool.not_eq_false] at h1 h3
      have h2a : IsValidStation w from_station_id = true ∨ from_station_id = STATION_INVALID := by
        by_cases hv : IsValidStation w from_station_id = true
        · exact Or.inl hv
        · simp only [Bool.not_eq_true] at hv
          exact Or.inr (h2 hv)
      rw [hpass h1 h2a h3] at h
      omega
    · intro h
      unfold GetCargoWaitingFrom
      rcases h with h | ⟨h, hne⟩ | h
      · simp [h]
      · simp [h, hne]
      · simp [h]
  · intro h1 h2 h3
    rw [hpass h1 h2 h3]
    refine ⟨rfl, Int.natCast_nonneg _, ?_, ?_⟩
    · have : waitingTotal from_station_id (Packets station_id cargo_id) % 2 ^ 16 ≤ 65535 := by
        omega
      exact_mod_cast this
    · constructor
      · intro h
        have h' : waitingTotal from_station_id (Packets station_id cargo_id) % 2 ^ 16 =
            waitingTotal from_station_id (Packets station_id cargo_id) := by exact_mod_cast h
        omega
      · intro h
        have h' : waitingTotal from_station_id (Packets station_id cargo_id) % 2 ^ 16 =
            waitingTotal from_station_id (Packets station_id cargo_id) :=
          Nat.mod_eq_of_lt (by omega)
        rw [h']

/-- Witness for C25: of the 70000 units of unknown source waiting at station
5 the function reports 4464, of the 5 units from station 5 it reports 5, and
for the unknown station 7 as source it reports -1. -/
theorem GetCargoWaitingFrom_spec_witness :
    waitingTotal 0xFFFF (waitingPackets 5 2) = 70000 ∧
    GetCargoWaitingFrom (ratingWorld true) waitingPackets 5 0xFFFF 2 = 4464 ∧
    GetCargoWaitingFrom (ratingWorld true) waitingPackets 5 5 2 = 5 ∧
    GetCargoWaitingFrom (ratingWorld true) waitingPackets 5 7 2 = -1 ∧
    (GetCargoWaitingFrom (ratingWorld true) waitingPackets 5 0xFFFF 2 =
        ((waitingTotal 0xFFFF (waitingPackets 5 2) : Nat) : Int) ↔
      waitingTotal 0xFFFF (waitingPackets 5 2) < 65536) :=
  ⟨by decide, by decide, by decide, by decide,
    ((GetCargoWaitingFrom_spec (ratingWorld true) waitingPackets 5 0xFFFF 2).2 (by decide)
      (Or.inr rfl) (by decide)).2.2.2⟩

end ScriptStation
